import Mathlib

/-!
Verification of the flakiness nodejs-sdk core against its specification.

The development shallowly embeds the TypeScript sources:
* `src/_telemetry.ts` (telemetry compaction and transport encoding),
* `src/_internalUtils.ts` (`retryWithBackoff`),
* `src/upload.ts` (`uploadReport` / `ReportUpload.upload` control flow),
* `src/normalizeReport.ts` (`normalizeReport` and its helpers).

JavaScript numbers are modelled as rationals, fallible lookups as `Option`,
mutable `Map` / `Set` / `Multimap` state as explicit state records threaded
through the recursion.  The content hashes produced by `stable-hash` are used
by the source purely as identities (deterministic, key-order insensitive),
so they are modelled injectively: an identifier is the tuple of hashed
components itself.
-/

namespace Flakiness

/-! ## Telemetry (`src/_telemetry.ts`) -/

/-- `TelemetryPoint` from `_telemetry.ts`: `{ timestamp: number, value: number }`. -/
structure TelemetryPoint where
  timestamp : ℚ
  value : ℚ
deriving DecidableEq, Repr

/-- `addTelemetryPoint(collection, newPoint, precision)`: if the series has at
least two points, the last two values differ by less than `precision`, and the
last value differs from the new value by less than `precision`, the last point
is kept and only its timestamp is advanced to the new timestamp; otherwise the
new point is appended.  The JS code mutates `collection` in place; the
embedding returns the updated list. -/
def addTelemetryPoint (collection : List TelemetryPoint) (newPoint : TelemetryPoint)
    (precision : ℚ) : List TelemetryPoint :=
  match collection.getLast?, collection.dropLast.getLast? with
  | some lastPoint, some preLastPoint =>
    if |lastPoint.value - preLastPoint.value| < precision ∧
       |lastPoint.value - newPoint.value| < precision then
      collection.dropLast ++ [{ lastPoint with timestamp := newPoint.timestamp }]
    else
      collection ++ [newPoint]
  | _, _ => collection ++ [newPoint]

/-- Feeding a whole sample sequence through `addTelemetryPoint`, starting from
an empty series (the initial state of `CPUUtilization` / `RAMUtilization`). -/
def addTelemetryPoints (samples : List TelemetryPoint) (precision : ℚ) : List TelemetryPoint :=
  samples.foldl (fun collection p => addTelemetryPoint collection p precision) []

/-- JavaScript `Math.round`: round to the nearest integer, ties towards positive
infinity, i.e. `⌊x + 1/2⌋`. -/
def jsRound (x : ℚ) : ℤ := ⌊x + 1/2⌋

/-- `Math.round(x * 100) / 100` from `toProtocolTelemetry`. -/
def round2 (x : ℚ) : ℚ := (jsRound (x * 100) : ℚ) / 100

/-- The body of the `map` in `toProtocolTelemetry` for indices `≥ 1`: each point
contributes `[x.timestamp - lastTimestamp, Math.round(x.value*100)/100]`, where
`lastTimestamp` is the previous point timestamp. -/
def protoAux (prev : ℚ) : List TelemetryPoint → List (ℚ × ℚ)
  | [] => []
  | p :: rest => (p.timestamp - prev, round2 p.value) :: protoAux p.timestamp rest

/-- `toProtocolTelemetry(collection)` from `_telemetry.ts`: empty input gives
`[]`; otherwise the first pair carries the absolute first timestamp and every
later pair carries the delta to the previous point timestamp, values rounded
to two decimals. -/
def toProtocolTelemetry : List TelemetryPoint → List (ℚ × ℚ)
  | [] => []
  | p :: rest => (p.timestamp, round2 p.value) :: protoAux p.timestamp rest

/-! ## `retryWithBackoff` (`src/_internalUtils.ts`)

The job is an async thunk; invocation `k` (0-based) is modelled by the outcome
`job k : Except E A`.  The observable behaviour of one `retryWithBackoff` run
is collected in a trace: the final outcome (`Except.error` meaning the promise
rejected, its error propagating to the caller), the number of invocations of
the job, the delays actually slept through `setTimeout`, and the errors passed
to `console.error`. -/

/-- Observable behaviour of one `retryWithBackoff` run. -/
structure RetryTrace (E A : Type) where
  result : Except E A
  calls : Nat
  sleeps : List ℚ
  logged : List E
deriving Repr

/-- The error payload of a failed `Except`, if any. -/
def exceptError? {E A : Type} : Except E A → Option E
  | .error e => some e
  | .ok _ => none

/-- The loop of `retryWithBackoff`: for each scheduled `timeout` the job is
invoked inside `try`/`catch` — a success returns immediately, a failure is
logged and the timeout slept; when the schedule is exhausted the job is invoked
once more outside any `try`, so its outcome (success or error) is final. -/
def retryGo {E A : Type} (job : Nat → Except E A) : List ℚ → RetryTrace E A
  | [] => { result := job 0, calls := 1, sleeps := [], logged := [] }
  | timeout :: rest =>
    match job 0 with
    | .ok a => { result := .ok a, calls := 1, sleeps := [], logged := [] }
    | .error e =>
      let r := retryGo (fun i => job (i + 1)) rest
      { result := r.result, calls := r.calls + 1,
        sleeps := timeout :: r.sleeps, logged := e :: r.logged }

/-- `retryWithBackoff(job, backoff)` from `_internalUtils.ts`. -/
def retryWithBackoff {E A : Type} (job : Nat → Except E A) (backoff : List ℚ) : RetryTrace E A :=
  retryGo job backoff

/-! ## Upload pipeline (`src/upload.ts`)

`ReportUpload._api` never throws: non-OK responses and network errors are both
folded into the `error` field of its result, so an api call outcome is a plain
sum.  The network itself, the WHATWG URL resolution `new URL(webUrl, endpoint)`
and the payload encodings are external collaborators; the pipeline control flow
is modelled over their outcomes. -/

/-- Outcome of `ReportUpload._api`: `{ result?, error? }` with exactly one of
the two fields present (`error` covers both non-OK statuses and network
exceptions). -/
inductive ApiResult (A : Type) where
  | ok (result : A)
  | err (error : String)
deriving Repr

/-- Payload of a successful `/api/upload/start` call. -/
structure StartResponse where
  uploadToken : String
  presignedReportUrl : String
  webUrl : String
deriving Repr

/-- Inner result of `ReportUpload.upload`:
`{ success: false, message? } | { success: true, reportUrl }`. -/
inductive UploadInner where
  | failure (message : Option String)
  | success (reportUrl : String)
deriving Repr, DecidableEq

/-- The result classification of `uploadReport`. -/
inductive UploadOutcome where
  | success (reportUrl : String)
  | skipped (reason : String)
  | failed (error : String)
deriving Repr, DecidableEq

/-- `HTTP_BACKOFF` from `upload.ts`. -/
def HTTP_BACKOFF : List ℚ := [100, 500, 1000, 1000, 1000, 1000]

/-- Lookup in a JS `Map` built with `new Map(entries)`: a later entry with the
same key overwrites an earlier one. -/
def jsMapGet (entries : List (String × String)) (k : String) : Option String :=
  ((entries.filter (fun e => e.1 = k)).getLast?).map (·.2)

/-- `await Promise.all(...)` over already-determined outcomes: the combined
promise rejects iff some component rejects.  (Which rejection wins is a matter
of event ordering in JS; the model surfaces the first failing component in
array order — no claim depends on the choice of error value.) -/
def promiseAll (rs : List (Except String Unit)) : Except String Unit :=
  rs.foldr (fun r acc => match r with | .error e => .error e | .ok _ => acc) (.ok ())

/-- `ReportUpload.upload` from `upload.ts`.  Parameters:
`resolveUrl` models `w ↦ new URL(w, endpoint).toString()`; `start`, `presign`
and `finish` are the outcomes of the three `_api` calls; `reportPutJob` and
`attachmentPutJob id` give the outcome of each individual PUT invocation, fed
through `retryWithBackoff` with `HTTP_BACKOFF` exactly as `_uploadReport` and
`_uploadAttachment` do.  Note that the result of the `/api/upload/finish` call
is awaited but never inspected. -/
def ReportUploadUpload (resolveUrl : String → String)
    (start : ApiResult StartResponse)
    (presign : ApiResult (List (String × String)))
    (attachmentIds : List String)
    (reportPutJob : Nat → Except String Unit)
    (attachmentPutJob : String → Nat → Except String Unit)
    (finish : ApiResult String) : Except String UploadInner :=
  match start with
  | .err e => .ok (.failure (some e))
  | .ok st =>
    let webUrl := resolveUrl st.webUrl
    match presign with
    | .err e => .ok (.failure (some e))
    | .ok urls =>
      -- building the Promise.all array throws synchronously on a missing URL
      match attachmentIds.find? (fun id => (jsMapGet urls id).isNone) with
      | some _ => .error "Internal error: missing upload URL for attachment!"
      | none =>
        match promiseAll
            ((retryWithBackoff reportPutJob HTTP_BACKOFF).result ::
              attachmentIds.map
                (fun id => (retryWithBackoff (attachmentPutJob id) HTTP_BACKOFF).result)) with
        | .error e => .error e
        | .ok _ =>
          -- `await this._api('/api/upload/finish', ...)`: result discarded
          let _ := finish
          .ok (.success webUrl)

/-- JS `a || b` on an optional string: `undefined` and the empty string are
both falsy. -/
def jsOrDefault (s : Option String) (d : String) : String :=
  match s with
  | some s => if s = "" then d else s
  | none => d

/-- The `try`/`catch` tail of `uploadReport` (`upload.ts`, after a token has
been obtained): a non-success inner result or a thrown error becomes
`{ status: failed }` in safe mode and a thrown error in strict mode;
a success is returned as `{ status: success, reportUrl }`. -/
def uploadReportResult (throwOnFailure : Bool) (inner : Except String UploadInner) :
    Except String UploadOutcome :=
  match inner with
  | .error e =>
    if throwOnFailure then .error e else .ok (.failed e)
  | .ok (.failure m) =>
    let errorMessage := jsOrDefault m "Unknown upload error"
    if throwOnFailure then .error ("Flakiness upload failed: " ++ errorMessage)
    else .ok (.failed errorMessage)
  | .ok (.success url) => .ok (.success url)

/-! ## Report data model (`@flakiness/flakiness-report`, as used by `normalizeReport`)

The fields that `normalizeReport` reads or rewrites are modelled; the remaining
attempt/report fields (`expectedStatus`, `duration`, `stdout`, …, and the scalar
report metadata) are carried through unchanged by the object spreads
`{ ...attempt, environmentIdx }` and `{ ...report, environments, suites, tests }`,
and are represented by the `status` field of `Attempt` and the `meta` field of
`Report` respectively.  Optional fields are `Option`; the source reads them
with `?? []` / `?.file ?? ''`. -/

/-- A source location `{ file, line, column }`. -/
structure Location where
  file : String
  line : Nat
  column : Nat
deriving DecidableEq, Repr

/-- One execution attempt of a test.  `environmentIdx` indexes into
`Report.environments`; `status` stands in for the fields that the spread
`{ ...attempt }` copies verbatim. -/
structure Attempt where
  environmentIdx : Nat
  status : Option String
deriving DecidableEq, Repr

/-- A test `{ title, location?, tags?, attempts }`. -/
structure Test where
  title : String
  location : Option Location
  tags : Option (List String)
  attempts : List Attempt
deriving DecidableEq, Repr

/-- A suite `{ title, type, location?, suites?, tests? }` (the source reads
`suite.suites ?? []` and `suite.tests ?? []`, so both trees are optional). -/
inductive Suite where
  | mk (title : String) (type : String) (location : Option Location)
       (suites : Option (List Suite)) (tests : Option (List Test))

def Suite.title : Suite → String
  | .mk t _ _ _ _ => t

def Suite.type : Suite → String
  | .mk _ ty _ _ _ => ty

def Suite.location : Suite → Option Location
  | .mk _ _ l _ _ => l

def Suite.suites : Suite → Option (List Suite)
  | .mk _ _ _ s _ => s

def Suite.tests : Suite → Option (List Test)
  | .mk _ _ _ _ t => t

mutual

/-- Equality of suites is decidable (the nested inductive needs a manual
instance). -/
def Suite.deq : (a b : Suite) → Decidable (a = b)
  | .mk t1 y1 l1 s1 x1, .mk t2 y2 l2 s2 x2 =>
    match decEq t1 t2 with
    | .isFalse h => .isFalse (by intro hh; cases hh; exact h rfl)
    | .isTrue h1 =>
      match decEq y1 y2 with
      | .isFalse h => .isFalse (by intro hh; cases hh; exact h rfl)
      | .isTrue h2 =>
        match decEq l1 l2 with
        | .isFalse h => .isFalse (by intro hh; cases hh; exact h rfl)
        | .isTrue h3 =>
          match Suite.deqOptList s1 s2 with
          | .isFalse h => .isFalse (by intro hh; cases hh; exact h rfl)
          | .isTrue h4 =>
            match decEq x1 x2 with
            | .isFalse h => .isFalse (by intro hh; cases hh; exact h rfl)
            | .isTrue h5 => .isTrue (by rw [h1, h2, h3, h4, h5])

def Suite.deqList : (a b : List Suite) → Decidable (a = b)
  | [], [] => .isTrue rfl
  | [], _ :: _ => .isFalse (by simp)
  | _ :: _, [] => .isFalse (by simp)
  | a :: as, b :: bs =>
    match Suite.deq a b with
    | .isFalse h => .isFalse (by simp_all)
    | .isTrue h1 =>
      match Suite.deqList as bs with
      | .isFalse h => .isFalse (by simp_all)
      | .isTrue h2 => .isTrue (by rw [h1, h2])

def Suite.deqOptList : (a b : Option (List Suite)) → Decidable (a = b)
  | none, none => .isTrue rfl
  | none, some _ => .isFalse (by simp)
  | some _, none => .isFalse (by simp)
  | some a, some b =>
    match Suite.deqList a b with
    | .isFalse h => .isFalse (by simp_all)
    | .isTrue h1 => .isTrue (by rw [h1])

end

instance : DecidableEq Suite := Suite.deq

/-- An environment; `normalizeReport` treats it as an opaque value hashed by
`stable-hash`, so its content is modelled by two representative fields. -/
structure Environment where
  name : String
  data : String
deriving DecidableEq, Repr

/-- A report `{ environments, suites, tests?, ...metadata }`.  `suites` is
accessed without a `??` default (lines 128 and 137), `tests` with `?? []`. -/
structure Report where
  environments : List Environment
  suites : List Suite
  tests : Option (List Test)
  meta : String

instance : DecidableEq Report
  | ⟨e1, s1, t1, m1⟩, ⟨e2, s2, t2, m2⟩ =>
    match decEq e1 e2, decEq s1 s2, decEq t1 t2, decEq m1 m2 with
    | .isTrue h1, .isTrue h2, .isTrue h3, .isTrue h4 => .isTrue (by rw [h1, h2, h3, h4])
    | .isFalse h, _, _, _ => .isFalse (by intro hh; cases hh; exact h rfl)
    | _, .isFalse h, _, _ => .isFalse (by intro hh; cases hh; exact h rfl)
    | _, _, .isFalse h, _ => .isFalse (by intro hh; cases hh; exact h rfl)
    | _, _, _, .isFalse h => .isFalse (by intro hh; cases hh; exact h rfl)

/-! ### Identities (`computeEnvId` / `computeSuiteId` / `computeTestId`)

`stableObjectHash` is a deterministic content hash used only for identity, so
it is modelled injectively: the identifier of a value is the tuple of hashed
components itself.  A suite identity hashes
`{ parentSuiteId ?? '', type, file, title }`, where `parentSuiteId` is itself
such a hash — unfolding the recursion, a suite identity is exactly the chain of
`(type, file, title)` keys from the root.  The distinguished id string
`'suiteless'` used for top-level tests is a separate constructor (the hash of a
record never collides with it). -/

/-- The per-suite component of a suite identity. -/
structure SuiteKey where
  type : String
  file : String
  title : String
deriving DecidableEq, Repr

/-- A suite identity: the `'suiteless'` sentinel, or the chain of keys from the
root (`computeSuiteId` applied along the ancestor path). -/
inductive SuiteId where
  | suiteless
  | chain (keys : List SuiteKey)
deriving DecidableEq, Repr

/-- An environment identity: `stableObjectHash(env)`, modelled as the value. -/
abbrev EnvId := Environment

/-- `computeEnvId` from `normalizeReport.ts`. -/
def computeEnvId (env : Environment) : EnvId := env

/-- The `(type, file, title)` key of a suite, with `location?.file ?? ''`. -/
def suiteKeyOf (s : Suite) : SuiteKey :=
  ⟨s.type, (s.location.map (·.file)).getD "", s.title⟩

/-- `computeSuiteId(suite, parentSuiteId)`: the parent chain extended by the
key of this suite (an absent parent is the empty chain, matching
`parentSuiteId ?? ''`). -/
def computeSuiteChain (s : Suite) (parentChain : List SuiteKey) : List SuiteKey :=
  parentChain ++ [suiteKeyOf s]

/-- `computeTestId(test, suiteId)`: hash of `{ suiteId, file, title }` with
`location?.file ?? ''`, modelled as the tuple. -/
structure TestId where
  suiteId : SuiteId
  file : String
  title : String
deriving DecidableEq, Repr

def computeTestId (test : Test) (suiteId : SuiteId) : TestId :=
  { suiteId, file := (test.location.map (·.file)).getD "", title := test.title }

/-! ### JS collection primitives -/

/-- Insertion into a JS `Set` (value semantics): kept in insertion order,
ignored if already present. -/
def jsSetInsert [DecidableEq α] (l : List α) (x : α) : List α :=
  if x ∈ l then l else l ++ [x]

/-- `new Set(xs)` as a list in insertion order with duplicates dropped. -/
def jsSetOf [DecidableEq α] (xs : List α) : List α :=
  xs.foldl jsSetInsert []

/-- Lookup in the JS `Map` built by
`new Map(list.map((x, index) => [x, index]))`: the first index at which the
key occurs (the keys fed to it below are deduplicated, so first and last
coincide); an absent key — which JS would answer with `undefined` — yields the
out-of-range index `list.length`. -/
def jsIndexOf [DecidableEq α] (a : α) : List α → Nat
  | [] => 0
  | x :: rest => if x = a then 0 else jsIndexOf a rest + 1

/-! ### The visiting phase of `normalizeReport`

The source mutates module-closure maps `gTests`, `gSuites`, `gSuiteChildren`,
`gSuiteTests`, `usedEnvIds`; the embedding threads them as a state record.
The JS multimaps store sets of node objects; in a report tree each node object
occurs exactly once, so the per-object `Set` never merges two occurrences and
a multimap is modelled as its insertion log, an association list.  The
per-object maps `gSuiteIds` / `gTestIds` / `gEnvIds` assign each visited node
the identity computed at its tree position; the embedding recomputes that
identity from the position instead of storing it. -/

structure NormState where
  gTests : List (TestId × Test)
  gSuites : List (SuiteId × Suite)
  gSuiteChildren : List (SuiteId × Suite)
  gSuiteTests : List (SuiteId × Test)
  usedEnvIds : List (Option EnvId)

/-- `report.environments[i]` (JS indexing: out of range gives `undefined`). -/
def envAt (r : Report) (i : Nat) : Option Environment :=
  r.environments.get? i

/-- `gEnvIds.get(report.environments[i])`: the identity of the referenced
environment, `undefined` when the index is out of range. -/
def envIdAt (r : Report) (i : Nat) : Option EnvId :=
  (envAt r i).map computeEnvId

/-- The attempt loop of `visitTests`: each attempt marks the identity of its
referenced environment (possibly `undefined`) as used. -/
def visitAttempts (r : Report) (attempts : List Attempt) (used : List (Option EnvId)) :
    List (Option EnvId) :=
  attempts.foldl (fun used a => jsSetInsert used (envIdAt r a.environmentIdx)) used

/-- `visitTests(tests, suiteId)` from `normalizeReport.ts`. -/
def visitTests (r : Report) (tests : List Test) (suiteId : SuiteId) (st : NormState) :
    NormState :=
  tests.foldl (fun st test =>
    { st with
      gTests := st.gTests ++ [(computeTestId test suiteId, test)]
      gSuiteTests := st.gSuiteTests ++ [(suiteId, test)]
      usedEnvIds := visitAttempts r test.attempts st.usedEnvIds }) st

mutual

/-- `visitSuite(suite, parentSuiteId)` from `normalizeReport.ts`: register the
suite, recurse into the children (recording each under this suite id), then
visit the tests. -/
def visitSuite (r : Report) (parentChain : List SuiteKey) (st : NormState) : Suite → NormState
  | .mk title ty location suites tests =>
    let chain := computeSuiteChain (.mk title ty location suites tests) parentChain
    let sid := SuiteId.chain chain
    let st := { st with gSuites := st.gSuites ++ [(sid, .mk title ty location suites tests)] }
    let st :=
      match suites with
      | none => st
      | some children => visitChildSuites r chain st children
    visitTests r (tests.getD []) sid st

/-- The `for (const childSuite of suite.suites ?? [])` loop of `visitSuite`. -/
def visitChildSuites (r : Report) (chain : List SuiteKey) (st : NormState) :
    List Suite → NormState
  | [] => st
  | child :: rest =>
    let st := visitSuite r chain st child
    let st := { st with gSuiteChildren := st.gSuiteChildren ++ [(SuiteId.chain chain, child)] }
    visitChildSuites r chain st rest

end

/-- The `for (const suite of report.suites) visitSuite(suite)` top-level loop
(no parent: `parentSuiteId ?? ''` is the empty chain, and top-level suites are
not recorded in `gSuiteChildren`). -/
def visitTopSuites (r : Report) (st : NormState) : List Suite → NormState
  | [] => st
  | s :: rest => visitTopSuites r (visitSuite r [] st s) rest

/-- The whole visiting phase: top-level tests under the `'suiteless'` sentinel
first (line 127), then the suite forest (lines 128–129). -/
def visitReport (r : Report) : NormState :=
  visitTopSuites r (visitTests r (r.tests.getD []) .suiteless ⟨[], [], [], [], []⟩) r.suites

/-! ### Pure collectors for the visit phase

The mutable maps filled by the visit phase are characterised below
(`visitReport_eq`) as pure traversals of the input tree; all later reasoning
is about these collectors. -/

/-- The attempts of a list of tests, in visit order. -/
def testsAttempts (tests : List Test) : List Attempt :=
  (tests.map (·.attempts)).flatten

mutual

/-- The tests of a suite subtree in visit order (children before own tests). -/
def suiteTestsSeq : Suite → List Test
  | .mk _ _ _ none tests => tests.getD []
  | .mk _ _ _ (some children) tests => suitesTestsSeq children ++ tests.getD []

def suitesTestsSeq : List Suite → List Test
  | [] => []
  | s :: rest => suiteTestsSeq s ++ suitesTestsSeq rest

end

/-- The tests of a whole report in visit order (top-level tests first). -/
def reportTestsSeq (r : Report) : List Test :=
  r.tests.getD [] ++ suitesTestsSeq r.suites

/-- The attempts of a whole report in visit order. -/
def reportAttemptSeq (r : Report) : List Attempt :=
  testsAttempts (reportTestsSeq r)

/-- The environment identities referenced by a report, attempt by attempt in
visit order (`none` for an out-of-range index). -/
def envSeq (r : Report) : List (Option EnvId) :=
  (reportAttemptSeq r).map (fun a => envIdAt r a.environmentIdx)

mutual

/-- `gTests` entries contributed by one suite subtree. -/
def suiteGTests (parent : List SuiteKey) : Suite → List (TestId × Test)
  | .mk t y l suites tests =>
    let chain := computeSuiteChain (.mk t y l suites tests) parent
    (match suites with
     | none => []
     | some children => suitesGTests chain children) ++
    (tests.getD []).map (fun test => (computeTestId test (.chain chain), test))

def suitesGTests (chain : List SuiteKey) : List Suite → List (TestId × Test)
  | [] => []
  | s :: rest => suiteGTests chain s ++ suitesGTests chain rest

end

mutual

/-- `gSuites` entries contributed by one suite subtree. -/
def suiteGSuites (parent : List SuiteKey) : Suite → List (SuiteId × Suite)
  | .mk t y l suites tests =>
    let chain := computeSuiteChain (.mk t y l suites tests) parent
    (SuiteId.chain chain, .mk t y l suites tests) ::
    (match suites with
     | none => []
     | some children => suitesGSuites chain children)

def suitesGSuites (chain : List SuiteKey) : List Suite → List (SuiteId × Suite)
  | [] => []
  | s :: rest => suiteGSuites chain s ++ suitesGSuites chain rest

end

mutual

/-- `gSuiteChildren` entries contributed by one suite subtree. -/
def suiteGChildren (parent : List SuiteKey) : Suite → List (SuiteId × Suite)
  | .mk _ _ _ none _ => []
  | .mk t y l (some children) tests =>
    suitesGChildren (computeSuiteChain (.mk t y l (some children) tests) parent) children

/-- Children entries for a child list under its parent chain: each child
subtree is fully visited before `(chain, child)` is recorded. -/
def suitesGChildren (chain : List SuiteKey) : List Suite → List (SuiteId × Suite)
  | [] => []
  | c :: rest =>
    suiteGChildren chain c ++ [(SuiteId.chain chain, c)] ++ suitesGChildren chain rest

end

mutual

/-- `gSuiteTests` entries contributed by one suite subtree. -/
def suiteGSuiteTests (parent : List SuiteKey) : Suite → List (SuiteId × Test)
  | .mk t y l suites tests =>
    let chain := computeSuiteChain (.mk t y l suites tests) parent
    (match suites with
     | none => []
     | some children => suitesGSuiteTests chain children) ++
    (tests.getD []).map (fun test => (SuiteId.chain chain, test))

def suitesGSuiteTests (chain : List SuiteKey) : List Suite → List (SuiteId × Test)
  | [] => []
  | s :: rest => suiteGSuiteTests chain s ++ suitesGSuiteTests chain rest

end

mutual

/-- The attempts of a suite subtree in visit order. -/
def suiteAttemptSeq : Suite → List Attempt
  | .mk _ _ _ none tests => testsAttempts (tests.getD [])
  | .mk _ _ _ (some children) tests =>
    suitesAttemptSeq children ++ testsAttempts (tests.getD [])

def suitesAttemptSeq : List Suite → List Attempt
  | [] => []
  | s :: rest => suiteAttemptSeq s ++ suitesAttemptSeq rest

end

/-- Top-level `gSuiteChildren` collector: top-level suites are not recorded as
children of anything. -/
def forestGChildren : List Suite → List (SuiteId × Suite)
  | [] => []
  | s :: rest => suiteGChildren [] s ++ forestGChildren rest

/-- `gTests` of a whole report. -/
def reportGTests (r : Report) : List (TestId × Test) :=
  (r.tests.getD []).map (fun test => (computeTestId test .suiteless, test)) ++
  suitesGTests [] r.suites

/-- `gSuites` of a whole report. -/
def reportGSuites (r : Report) : List (SuiteId × Suite) :=
  suitesGSuites [] r.suites

/-- `gSuiteChildren` of a whole report. -/
def reportGChildren (r : Report) : List (SuiteId × Suite) :=
  forestGChildren r.suites

/-- `gSuiteTests` of a whole report. -/
def reportGSuiteTests (r : Report) : List (SuiteId × Test) :=
  (r.tests.getD []).map (fun test => (SuiteId.suiteless, test)) ++
  suitesGSuiteTests [] r.suites

/-! ### The rebuilding phase of `normalizeReport` -/

/-- `gTests.getAll(testId)`: all visited occurrences with this identity, in
insertion order. -/
def gTestsGetAll (st : NormState) (testId : TestId) : List Test :=
  (st.gTests.filter (fun p => p.1 = testId)).map (·.2)

/-- `gSuites.get(suiteId)`: `Map.set` overwrites, so the last visited
occurrence with this identity wins. -/
def gSuitesGet (st : NormState) (sid : SuiteId) : Option Suite :=
  ((st.gSuites.filter (fun p => p.1 = sid)).getLast?).map (·.2)

/-- `gSuiteChildren.getAll(suiteId)`. -/
def childrenOf (st : NormState) (sid : SuiteId) : List Suite :=
  (st.gSuiteChildren.filter (fun p => p.1 = sid)).map (·.2)

/-- `gSuiteTests.getAll(suiteId)`. -/
def suiteTestsOf (st : NormState) (sid : SuiteId) : List Test :=
  (st.gSuiteTests.filter (fun p => p.1 = sid)).map (·.2)

/-- `gEnvs.get(id)`: `gEnvs` is filled from `report.environments` in order with
`Map.set`, so the last environment with this identity wins. -/
def gEnvsGet (r : Report) (id : EnvId) : Option Environment :=
  (r.environments.filter (fun e => computeEnvId e = id)).getLast?

/-- The body of the map over `testIds` in `transformTests`: rebuild the merged
test for one identity from its bucket `gTests.getAll(testId)` — location and
title from the first occurrence, tags flattened over all occurrences (absent
when empty: `tags.length ? tags : undefined`), attempts concatenated with
`environmentIdx` rewritten through `envIdToIndex` (modelled as the index in
`newEnvIds`; an id that is not present — unreachable, since every attempt
marked its id as used — maps to the out-of-range index `newEnvIds.length`,
standing for the `undefined` that JS would produce).  An empty bucket is
impossible (JS would crash reading `tests[0]`); the embedding skips it. -/
def transformTest? (r : Report) (st : NormState) (newEnvIds : List (Option EnvId))
    (testId : TestId) : Option Test :=
  match gTestsGetAll st testId with
  | [] => none
  | t0 :: _ =>
    let bucket := gTestsGetAll st testId
    let tags := (bucket.map (fun t => t.tags.getD [])).flatten
    some
      { location := t0.location
        title := t0.title
        tags := if tags.isEmpty then none else some tags
        attempts := (bucket.map (·.attempts)).flatten.map (fun a =>
          { a with environmentIdx := jsIndexOf (envIdAt r a.environmentIdx) newEnvIds }) }

/-- `transformTests(tests)` from `normalizeReport.ts`.  The JS code looks the
identities up with `gTestIds.get(test)`; at both call sites every element of
`tests` was visited under this same `suiteId`, so the lookup recomputes to
`computeTestId test suiteId`. -/
def transformTests (r : Report) (st : NormState) (newEnvIds : List (Option EnvId))
    (suiteId : SuiteId) (tests : List Test) : List Test :=
  (jsSetOf (tests.map (fun t => computeTestId t suiteId))).filterMap
    (transformTest? r st newEnvIds)

/-- `transformSuites(suites)` from `normalizeReport.ts`, with the parent chain
made explicit (the JS code reads it back via `gSuiteIds.get(suite)`: every
element of `suites` was visited under `parentChain`).  The recursion walks
buckets of the finite visit state, not a subterm, so it is driven by a fuel
argument; `normalizeReport` supplies fuel exceeding the height of the suite
forest, which never runs out (suite-id chains grow by one key per level). -/
def transformSuites (r : Report) (st : NormState) (newEnvIds : List (Option EnvId)) :
    Nat → List SuiteKey → List Suite → List Suite
  | 0, _, _ => []
  | fuel + 1, parentChain, suites =>
    (jsSetOf (suites.map (fun s => SuiteId.chain (computeSuiteChain s parentChain)))).filterMap
      (fun sid =>
        match gSuitesGet st sid with
        | none => none  -- unreachable: every id above belongs to a visited suite
        | some s =>
          match sid with
          | .suiteless => none  -- unreachable: the ids above are chains
          | .chain c =>
            some (Suite.mk s.title s.type s.location
              (some (transformSuites r st newEnvIds fuel c (childrenOf st sid)))
              (some (transformTests r st newEnvIds sid (suiteTestsOf st sid)))))

/-- The per-identity emission step of `transformSuites` (the body of its
`map` over `suiteIds`), as a standalone function of the remaining fuel. -/
def emitSuite (r : Report) (st : NormState) (newEnvIds : List (Option EnvId)) (fuel : Nat) :
    SuiteId → Option Suite :=
  fun sid =>
    match gSuitesGet st sid with
    | none => none
    | some s =>
      match sid with
      | .suiteless => none
      | .chain c =>
        some (Suite.mk s.title s.type s.location
          (some (transformSuites r st newEnvIds fuel c (childrenOf st sid)))
          (some (transformTests r st newEnvIds sid (suiteTestsOf st sid))))

mutual

/-- Height of a suite (a leaf suite has height 1). -/
def suiteHeight : Suite → Nat
  | .mk _ _ _ none _ => 1
  | .mk _ _ _ (some children) _ => suitesHeight children + 1

/-- Height of a suite forest. -/
def suitesHeight : List Suite → Nat
  | [] => 0
  | s :: rest => max (suiteHeight s) (suitesHeight rest)

end

/-- `normalizeReport(report)` from `normalizeReport.ts`: visit, rebuild the
environment array from the used identities in first-use order, and re-emit the
tree.  `newEnvironments.map(envId => gEnvs.get(envId)!)` is a `filterMap`
here: the `none` entries it would keep as `undefined` can only arise from
out-of-range `environmentIdx` inputs, which every theorem below excludes by
the validity precondition. -/
def normalizeReport (report : Report) : Report :=
  let st := visitReport report
  let newEnvIds := st.usedEnvIds
  let fuel := suitesHeight report.suites + 1
  { report with
    environments := newEnvIds.filterMap (fun oid => oid.bind (gEnvsGet report))
    suites := transformSuites report st newEnvIds fuel [] report.suites
    tests := some (transformTests report st newEnvIds .suiteless (report.tests.getD [])) }


/-! ### Pure normal-form mapping (for the idempotence analysis, C2) -/

/-- The pointwise effect of `normalizeReport` on one test when its identity
bucket is a singleton: tags normalized (`tags.length ? tags : undefined`) and
attempts reindexed through the deduplicated environment list `U`. -/
def mapTest (r : Report) (U : List (Option EnvId)) (t : Test) : Test :=
  { title := t.title
    location := t.location
    tags := if (t.tags.getD []).isEmpty then none else some (t.tags.getD [])
    attempts := t.attempts.map (fun a =>
      { a with environmentIdx := jsIndexOf (envIdAt r a.environmentIdx) U }) }

mutual

/-- The pointwise effect of `normalizeReport` on one suite node when every
suite and test identity in the report occurs exactly once: the node is kept
with `suites`/`tests` rebuilt (wrapped in `some`) and tests mapped. -/
def mapSuite (r : Report) (U : List (Option EnvId)) : Suite → Suite
  | .mk ti y lo none tests =>
    .mk ti y lo (some []) (some ((tests.getD []).map (mapTest r U)))
  | .mk ti y lo (some children) tests =>
    .mk ti y lo (some (mapSuites r U children))
      (some ((tests.getD []).map (mapTest r U)))

def mapSuites (r : Report) (U : List (Option EnvId)) : List Suite → List Suite
  | [] => []
  | s :: rest => mapSuite r U s :: mapSuites r U rest

end

/-! ### Characterisation of the visit phase by the collectors -/

theorem visitAttempts_append (r : Report) (as bs : List Attempt) (u : List (Option EnvId)) :
    visitAttempts r (as ++ bs) u = visitAttempts r bs (visitAttempts r as u) := by
  simp [visitAttempts, List.foldl_append]

theorem visitTests_eq (r : Report) (tests : List Test) (sid : SuiteId) (st : NormState) :
    visitTests r tests sid st =
      { st with
        gTests := st.gTests ++ tests.map (fun t => (computeTestId t sid, t))
        gSuiteTests := st.gSuiteTests ++ tests.map (fun t => (sid, t))
        usedEnvIds := visitAttempts r (testsAttempts tests) st.usedEnvIds } := by
  induction tests generalizing st with
  | nil => simp [visitTests, testsAttempts, visitAttempts]
  | cons t rest ih =>
    show visitTests r rest sid _ = _
    rw [ih]
    simp [testsAttempts, visitAttempts_append]

mutual

theorem visitSuite_eq (r : Report) :
    ∀ (parent : List SuiteKey) (st : NormState) (s : Suite),
      visitSuite r parent st s =
        { st with
          gTests := st.gTests ++ suiteGTests parent s
          gSuites := st.gSuites ++ suiteGSuites parent s
          gSuiteChildren := st.gSuiteChildren ++ suiteGChildren parent s
          gSuiteTests := st.gSuiteTests ++ suiteGSuiteTests parent s
          usedEnvIds := visitAttempts r (suiteAttemptSeq s) st.usedEnvIds }
  | parent, st, .mk t y l none tests => by
    simp [visitSuite, visitTests_eq, suiteGTests, suiteGSuites, suiteGChildren,
      suiteGSuiteTests, suiteAttemptSeq]
  | parent, st, .mk t y l (some children) tests => by
    rw [show visitSuite r parent st (.mk t y l (some children) tests) =
      visitTests r (tests.getD [])
        (.chain (computeSuiteChain (.mk t y l (some children) tests) parent))
        (visitChildSuites r (computeSuiteChain (.mk t y l (some children) tests) parent)
          { st with gSuites := st.gSuites ++
              [(SuiteId.chain (computeSuiteChain (.mk t y l (some children) tests) parent),
                .mk t y l (some children) tests)] } children) from rfl]
    rw [visitChildSuites_eq, visitTests_eq]
    simp [suiteGTests, suiteGSuites, suiteGChildren, suiteGSuiteTests, suiteAttemptSeq,
      visitAttempts_append]

theorem visitChildSuites_eq (r : Report) :
    ∀ (chain : List SuiteKey) (st : NormState) (l : List Suite),
      visitChildSuites r chain st l =
        { st with
          gTests := st.gTests ++ suitesGTests chain l
          gSuites := st.gSuites ++ suitesGSuites chain l
          gSuiteChildren := st.gSuiteChildren ++ suitesGChildren chain l
          gSuiteTests := st.gSuiteTests ++ suitesGSuiteTests chain l
          usedEnvIds := visitAttempts r (suitesAttemptSeq l) st.usedEnvIds }
  | chain, st, [] => by
    simp [visitChildSuites, suitesGTests, suitesGSuites, suitesGChildren, suitesGSuiteTests,
      suitesAttemptSeq, visitAttempts]
  | chain, st, c :: rest => by
    rw [show visitChildSuites r chain st (c :: rest) =
      visitChildSuites r chain
        { visitSuite r chain st c with
          gSuiteChildren := (visitSuite r chain st c).gSuiteChildren ++
            [(SuiteId.chain chain, c)] } rest from rfl]
    rw [visitChildSuites_eq, visitSuite_eq]
    simp [suitesGTests, suitesGSuites, suitesGChildren, suitesGSuiteTests, suitesAttemptSeq,
      visitAttempts_append]

end

theorem visitTopSuites_eq (r : Report) (l : List Suite) (st : NormState) :
    visitTopSuites r st l =
      { st with
        gTests := st.gTests ++ suitesGTests [] l
        gSuites := st.gSuites ++ suitesGSuites [] l
        gSuiteChildren := st.gSuiteChildren ++ forestGChildren l
        gSuiteTests := st.gSuiteTests ++ suitesGSuiteTests [] l
        usedEnvIds := visitAttempts r (suitesAttemptSeq l) st.usedEnvIds } := by
  induction l generalizing st with
  | nil =>
    simp [visitTopSuites, suitesGTests, suitesGSuites, forestGChildren, suitesGSuiteTests,
      suitesAttemptSeq, visitAttempts]
  | cons s rest ih =>
    show visitTopSuites r (visitSuite r [] st s) rest = _
    rw [ih, visitSuite_eq]
    simp [suitesGTests, suitesGSuites, forestGChildren, suitesGSuiteTests, suitesAttemptSeq,
      visitAttempts_append]

theorem testsAttempts_append (a b : List Test) :
    testsAttempts (a ++ b) = testsAttempts a ++ testsAttempts b := by
  simp [testsAttempts]

mutual

theorem suiteAttemptSeq_eq : ∀ s : Suite, suiteAttemptSeq s = testsAttempts (suiteTestsSeq s)
  | .mk t y l none tests => by simp [suiteAttemptSeq, suiteTestsSeq]
  | .mk t y l (some children) tests => by
    rw [show suiteAttemptSeq (.mk t y l (some children) tests) =
        suitesAttemptSeq children ++ testsAttempts (tests.getD []) from rfl]
    rw [suitesAttemptSeq_eq children]
    simp [suiteTestsSeq, testsAttempts_append]

theorem suitesAttemptSeq_eq :
    ∀ l : List Suite, suitesAttemptSeq l = testsAttempts (suitesTestsSeq l)
  | [] => by simp [suitesAttemptSeq, suitesTestsSeq, testsAttempts]
  | s :: rest => by
    rw [show suitesAttemptSeq (s :: rest) = suiteAttemptSeq s ++ suitesAttemptSeq rest from rfl]
    rw [suiteAttemptSeq_eq s, suitesAttemptSeq_eq rest]
    simp [suitesTestsSeq, testsAttempts_append]

end

theorem visitAttempts_eq_foldl (r : Report) (as : List Attempt) (u : List (Option EnvId)) :
    visitAttempts r as u =
      (as.map (fun a => envIdAt r a.environmentIdx)).foldl jsSetInsert u := by
  induction as generalizing u with
  | nil => simp [visitAttempts]
  | cons a rest ih => simpa [visitAttempts] using ih (jsSetInsert u (envIdAt r a.environmentIdx))

/-- The visit phase, characterised: the mutable maps of `normalizeReport` are
exactly the pure collectors, and the used-id set is the first-use
deduplication of the visit-order env id sequence. -/
theorem visitReport_eq (r : Report) :
    visitReport r =
      ⟨reportGTests r, reportGSuites r, reportGChildren r, reportGSuiteTests r,
        jsSetOf (envSeq r)⟩ := by
  rw [visitReport, visitTopSuites_eq, visitTests_eq]
  simp [reportGTests, reportGSuites, reportGChildren, reportGSuiteTests, envSeq,
    reportAttemptSeq, reportTestsSeq, jsSetOf, visitAttempts_eq_foldl,
    List.foldl_append, suitesAttemptSeq_eq, testsAttempts_append, testsAttempts]

/-! ### Telemetry: compaction bound (C5) and transport encoding (C6) -/

/-- Once the series holds two points `[a, b]` and every further sample stays
within `precision` of both `a` and `b` values, every step only advances the
timestamp of the second point. -/
theorem foldl_addTelemetryPoint_flat (precision : ℚ) :
    ∀ (rest : List TelemetryPoint) (a b : TelemetryPoint),
      |b.value - a.value| < precision →
      (∀ x ∈ rest, |b.value - x.value| < precision) →
      ∃ ts, rest.foldl (fun c p => addTelemetryPoint c p precision) [a, b] =
        [a, { b with timestamp := ts }]
  | [], a, b, _, _ => ⟨b.timestamp, by simp⟩
  | p :: rest, a, b, hab, hr => by
    have step : addTelemetryPoint [a, b] p precision =
        [a, { b with timestamp := p.timestamp }] := by
      show (if |b.value - a.value| < precision ∧ |b.value - p.value| < precision then
          ([a, b] : List TelemetryPoint).dropLast ++ [{ b with timestamp := p.timestamp }]
        else [a, b] ++ [p]) = _
      rw [if_pos ⟨hab, hr p (by simp)⟩]
      rfl
    rw [List.foldl_cons, step]
    exact foldl_addTelemetryPoint_flat precision rest a { b with timestamp := p.timestamp }
      (by simpa using hab) (fun x hx => by simpa using hr x (List.mem_cons_of_mem _ hx))

theorem protoAux_length (prev : ℚ) (l : List TelemetryPoint) :
    (protoAux prev l).length = l.length := by
  induction l generalizing prev with
  | nil => simp [protoAux]
  | cons p rest ih => simp [protoAux, ih]

theorem protoAux_snd (prev : ℚ) :
    ∀ (l : List TelemetryPoint) (i : Nat),
      ((protoAux prev l).get? i).map Prod.snd = (l.get? i).map (fun p => round2 p.value)
  | [], _ => by simp [protoAux]
  | p :: rest, 0 => by simp [protoAux]
  | p :: rest, i + 1 => by simpa [protoAux] using protoAux_snd p.timestamp rest i

theorem protoAux_zero (prev : ℚ) (l : List TelemetryPoint) (q : TelemetryPoint)
    (h : l.get? 0 = some q) :
    (protoAux prev l).get? 0 = some (q.timestamp - prev, round2 q.value) := by
  cases l with
  | nil => simp at h
  | cons x rest =>
    simp at h
    subst h
    simp [protoAux]

theorem protoAux_succ (prev : ℚ) :
    ∀ (l : List TelemetryPoint) (i : Nat) (p : TelemetryPoint), l.get? i = some p →
      (protoAux prev l).get? (i + 1) =
        (l.get? (i + 1)).map (fun q => (q.timestamp - p.timestamp, round2 q.value))
  | [], i, p => by simp
  | x :: rest, 0, p => by
    intro h
    simp at h
    subst h
    cases rest with
    | nil => simp [protoAux]
    | cons y rest2 => simp [protoAux]
  | x :: rest, i + 1, p => by
    intro h
    simpa [protoAux] using protoAux_succ x.timestamp rest i p (by simpa using h)

/-- Consecutive elements of a `Chain'` list are related. -/
theorem chain'_get? {α : Type} {R : α → α → Prop} :
    ∀ {l : List α}, l.Chain' R → ∀ (i : Nat) (p q : α),
      l.get? i = some p → l.get? (i + 1) = some q → R p q
  | [], _, i, p, q => by simp
  | [x], _, i, p, q => by
    intro _ hq
    rcases i with _ | i <;> simp at hq
  | x :: y :: rest, h, 0, p, q => by
    intro hp hq
    simp at hp hq
    subst hp; subst hq
    exact (List.chain'_cons.mp h).1
  | x :: y :: rest, h, i + 1, p, q => by
    intro hp hq
    exact chain'_get? (List.chain'_cons.mp h).2 i p q (by simpa using hp) (by simpa using hq)

/-- Claim C5 as stated is false: consecutive deltas below the precision do not
bound the series at 2 points — a slow drift keeps appending.  With precision 2
and values 0, 1, 2, 3 every consecutive delta is 1, yet the compacted series
has 3 points. -/
theorem C5_counterexample :
    List.Chain' (fun p q : TelemetryPoint => |q.value - p.value| < 2)
      [⟨0, 0⟩, ⟨1, 1⟩, ⟨2, 2⟩, ⟨3, 3⟩] ∧
    2 < (addTelemetryPoints [⟨0, 0⟩, ⟨1, 1⟩, ⟨2, 2⟩, ⟨3, 3⟩] 2).length := by
  constructor
  · simp only [List.chain'_cons, List.chain'_singleton, and_true]
    refine ⟨?_, ?_, ?_⟩ <;> · rw [abs_sub_lt_iff]; constructor <;> norm_num
  · have h1 : |(1 : ℚ) - 0| < 2 ∧ |(1 : ℚ) - 2| < 2 := by
      constructor <;> · rw [abs_sub_lt_iff]; norm_num
    have h2 : ¬(|(1 : ℚ) - 0| < 2 ∧ |(1 : ℚ) - 3| < 2) := by
      rintro ⟨-, h⟩
      rw [abs_sub_lt_iff] at h
      norm_num at h
    show 2 < (addTelemetryPoint (addTelemetryPoint (addTelemetryPoint
      (addTelemetryPoint [] ⟨0, 0⟩ 2) ⟨1, 1⟩ 2) ⟨2, 2⟩ 2) ⟨3, 3⟩ 2).length
    rw [show addTelemetryPoint [] ⟨0, 0⟩ 2 = [⟨0, 0⟩] from rfl]
    rw [show addTelemetryPoint [⟨0, 0⟩] ⟨1, 1⟩ 2 = [⟨0, 0⟩, ⟨1, 1⟩] from rfl]
    rw [show addTelemetryPoint [⟨0, 0⟩, ⟨1, 1⟩] ⟨2, 2⟩ 2 =
      (if |(1 : ℚ) - 0| < 2 ∧ |(1 : ℚ) - 2| < 2 then
        ([⟨0, 0⟩, ⟨1, 1⟩] : List TelemetryPoint).dropLast ++ [⟨2, 1⟩]
      else [⟨0, 0⟩, ⟨1, 1⟩] ++ [⟨2, 2⟩]) from rfl, if_pos h1]
    rw [show (([⟨0, 0⟩, ⟨1, 1⟩] : List TelemetryPoint).dropLast ++ [⟨2, 1⟩]) =
      [⟨0, 0⟩, ⟨2, 1⟩] from rfl]
    rw [show addTelemetryPoint [⟨0, 0⟩, ⟨2, 1⟩] ⟨3, 3⟩ 2 =
      (if |(1 : ℚ) - 0| < 2 ∧ |(1 : ℚ) - 3| < 2 then
        ([⟨0, 0⟩, ⟨2, 1⟩] : List TelemetryPoint).dropLast ++ [⟨3, 1⟩]
      else [⟨0, 0⟩, ⟨2, 1⟩] ++ [⟨3, 3⟩]) from rfl, if_neg h2]
    simp

/-- Claim C5, amended: if every pair of sample values (not merely consecutive
ones) differs by strictly less than `precision`, then feeding the samples in
order through `addTelemetryPoint` starting from an empty series leaves at most
2 points, regardless of length. -/
theorem C5_compaction_bound (samples : List TelemetryPoint) (precision : ℚ)
    (tight : ∀ p ∈ samples, ∀ q ∈ samples, |p.value - q.value| < precision) :
    (addTelemetryPoints samples precision).length ≤ 2 := by
  match samples with
  | [] => simp [addTelemetryPoints]
  | [s] => simp [addTelemetryPoints, addTelemetryPoint]
  | s0 :: s1 :: rest =>
    have h1 : addTelemetryPoints (s0 :: s1 :: rest) precision =
        rest.foldl (fun c p => addTelemetryPoint c p precision) [s0, s1] := rfl
    obtain ⟨ts, hts⟩ := foldl_addTelemetryPoint_flat precision rest s0 s1
      (tight s1 (by simp) s0 (by simp))
      (fun x hx => tight s1 (by simp) x (by simp [hx]))
    rw [h1, hts]
    simp

/-- Witness for `C5_compaction_bound` at a concrete flat sequence. -/
theorem C5_compaction_bound_witness :
    (addTelemetryPoints [⟨0, 10⟩, ⟨5, 21/2⟩, ⟨9, 51/5⟩] 1).length ≤ 2 :=
  C5_compaction_bound _ 1 (by
    intro p hp q hq
    simp at hp hq
    rcases hp with rfl | rfl | rfl <;> rcases hq with rfl | rfl | rfl <;>
      · rw [abs_sub_lt_iff]; constructor <;> norm_num)

/-- Claim C6: for a non-empty series with monotone timestamps,
`toProtocolTelemetry` emits one pair per point; the first pair carries the
absolute first timestamp, each later pair the non-negative delta to the
previous timestamp, and every value is rounded to two decimals; on
`[(1000,10),(1500,12)]` it yields `[[1000,10],[500,12]]`. -/
theorem C6_transport_encoding (l : List TelemetryPoint) (hne : l ≠ [])
    (hmono : l.Chain' (fun p q => p.timestamp ≤ q.timestamp)) :
    (toProtocolTelemetry l).length = l.length ∧
    ((toProtocolTelemetry l).get? 0).map Prod.fst = (l.get? 0).map (·.timestamp) ∧
    (∀ i, ((toProtocolTelemetry l).get? i).map Prod.snd =
      (l.get? i).map (fun p => round2 p.value)) ∧
    (∀ i p q, l.get? i = some p → l.get? (i + 1) = some q →
      (toProtocolTelemetry l).get? (i + 1) =
        some (q.timestamp - p.timestamp, round2 q.value) ∧
      0 ≤ q.timestamp - p.timestamp) ∧
    toProtocolTelemetry [⟨1000, 10⟩, ⟨1500, 12⟩] = [(1000, 10), (500, 12)] := by
  obtain ⟨x, rest, rfl⟩ : ∃ x rest, l = x :: rest := by
    cases l with
    | nil => exact absurd rfl hne
    | cons x rest => exact ⟨x, rest, rfl⟩
  refine ⟨by simp [toProtocolTelemetry, protoAux_length], by simp [toProtocolTelemetry], ?_, ?_, ?_⟩
  · intro i
    cases i with
    | zero => simp [toProtocolTelemetry]
    | succ i => simpa [toProtocolTelemetry] using protoAux_snd x.timestamp rest i
  · intro i p q hp hq
    have hnn : 0 ≤ q.timestamp - p.timestamp :=
      sub_nonneg.mpr (chain'_get? hmono i p q hp hq)
    refine ⟨?_, hnn⟩
    cases i with
    | zero =>
      rw [List.get?_cons_zero] at hp
      rw [List.get?_cons_succ] at hq
      cases Option.some.inj hp
      exact protoAux_zero x.timestamp rest q hq
    | succ i =>
      rw [List.get?_cons_succ] at hp hq
      show (protoAux x.timestamp rest).get? (i + 1) = _
      rw [protoAux_succ x.timestamp rest i p hp, hq]
      rfl
  · show (1000, round2 10) :: protoAux 1000 [⟨1500, 12⟩] = _
    have r10 : round2 10 = 10 := by
      rw [round2, jsRound]
      norm_num
    have r12 : round2 12 = 12 := by
      rw [round2, jsRound]
      norm_num
    simp [protoAux, r10, r12]
    norm_num

/-- Witness for `C6_transport_encoding`: its concrete-example conjunct at
`[(1000,10),(1500,12)]`. -/
theorem C6_transport_encoding_witness :
    toProtocolTelemetry [⟨1000, 10⟩, ⟨1500, 12⟩] = [(1000, 10), (500, 12)] :=
  (C6_transport_encoding [⟨1000, 10⟩, ⟨1500, 12⟩] (by simp)
    (by simp [List.chain'_cons]; norm_num)).2.2.2.2

/-! ### Retry with backoff (C7) -/

theorem retryGo_calls_le {E A : Type} :
    ∀ (backoff : List ℚ) (job : Nat → Except E A),
      (retryGo job backoff).calls ≤ backoff.length + 1
  | [], job => by simp [retryGo]
  | t :: rest, job => by
    cases hj : job 0 with
    | ok a => simp [retryGo, hj]
    | error e =>
      simp only [retryGo, hj, List.length_cons]
      exact Nat.succ_le_succ (retryGo_calls_le rest _)

theorem range_filterMap_error {E A : Type} (job : Nat → Except E A) (e : E) (k : Nat)
    (he : job 0 = .error e) :
    (List.range (k + 1)).filterMap (fun j => exceptError? (job j)) =
      e :: (List.range k).filterMap (fun j => exceptError? (job (j + 1))) := by
  rw [List.range_succ_eq_map]
  simp only [List.filterMap_cons, he, exceptError?, List.filterMap_map, Function.comp]
  rfl

theorem retryGo_success {E A : Type} :
    ∀ (backoff : List ℚ) (job : Nat → Except E A) (k : Nat) (a : A),
      k < backoff.length → (∀ j, j < k → ∃ e, job j = .error e) → job k = .ok a →
      retryGo job backoff =
        ⟨.ok a, k + 1, backoff.take k,
          (List.range k).filterMap (fun j => exceptError? (job j))⟩
  | [], _, k, _, hlen, _, _ => absurd hlen (by simp)
  | t :: rest, job, 0, a, _, _, hk => by simp [retryGo, hk]
  | t :: rest, job, k + 1, a, hlen, hfail, hk => by
    obtain ⟨e, he⟩ := hfail 0 (Nat.succ_pos k)
    have ih := retryGo_success rest (fun i => job (i + 1)) k a
      (Nat.lt_of_succ_lt_succ hlen) (fun j hj => hfail (j + 1) (Nat.succ_lt_succ hj)) hk
    simp only [retryGo, he, ih]
    exact congrArg _ (range_filterMap_error job e (k + 1 - 1) he).symm

theorem retryGo_allfail {E A : Type} :
    ∀ (backoff : List ℚ) (job : Nat → Except E A),
      (∀ j, j < backoff.length → ∃ e, job j = .error e) →
      retryGo job backoff =
        ⟨job backoff.length, backoff.length + 1, backoff,
          (List.range backoff.length).filterMap (fun j => exceptError? (job j))⟩
  | [], job, _ => by simp [retryGo]
  | t :: rest, job, hfail => by
    obtain ⟨e, he⟩ := hfail 0 (by simp)
    have ih := retryGo_allfail rest (fun i => job (i + 1))
      (fun j hj => hfail (j + 1) (by simpa using Nat.succ_lt_succ hj))
    simp only [retryGo, he, ih, List.length_cons]
    exact congrArg _ (range_filterMap_error job e rest.length he).symm

/-- Claim C7: `retryWithBackoff` with a schedule of length `n` invokes the job
at most `n + 1` times; a first success at protected invocation `k` returns its
value after exactly the `k` prior failures were logged and the first `k`
scheduled delays slept; if all `n` protected invocations fail, the final
`(n+1)`-th invocation is unprotected and its outcome — error included — is the
result. -/
theorem C7_retry_schedule {E A : Type} (job : Nat → Except E A) (backoff : List ℚ) :
    (retryWithBackoff job backoff).calls ≤ backoff.length + 1 ∧
    (∀ k a, k < backoff.length → (∀ j, j < k → ∃ e, job j = .error e) → job k = .ok a →
      (retryWithBackoff job backoff).result = .ok a ∧
      (retryWithBackoff job backoff).calls = k + 1 ∧
      (retryWithBackoff job backoff).sleeps = backoff.take k ∧
      (retryWithBackoff job backoff).logged =
        (List.range k).filterMap (fun j => exceptError? (job j))) ∧
    ((∀ j, j < backoff.length → ∃ e, job j = .error e) →
      (retryWithBackoff job backoff).result = job backoff.length ∧
      (retryWithBackoff job backoff).calls = backoff.length + 1 ∧
      (retryWithBackoff job backoff).sleeps = backoff ∧
      (retryWithBackoff job backoff).logged =
        (List.range backoff.length).filterMap (fun j => exceptError? (job j))) := by
  refine ⟨retryGo_calls_le backoff job, ?_, ?_⟩
  · intro k a hlen hfail hk
    rw [retryWithBackoff, retryGo_success backoff job k a hlen hfail hk]
    exact ⟨rfl, rfl, rfl, rfl⟩
  · intro hfail
    rw [retryWithBackoff, retryGo_allfail backoff job hfail]
    exact ⟨rfl, rfl, rfl, rfl⟩

/-- Witness for `C7_retry_schedule`: one scheduled retry, first invocation
fails, the final unprotected invocation succeeds. -/
theorem C7_retry_schedule_witness :
    (retryWithBackoff (fun k => if k = 0 then (.error "boom") else (.ok 3)) [100]).result =
      (.ok 3 : Except String Nat) ∧
    (retryWithBackoff (fun k => if k = 0 then (.error "boom") else (.ok 3)) [100]).calls = 2 := by
  have h := (C7_retry_schedule
      (fun k => if k = 0 then (Except.error "boom" : Except String Nat) else .ok 3) [100]).2.2
    (by
      intro j hj
      have : j = 0 := by simp at hj; omega
      exact ⟨"boom", by simp [this]⟩)
  exact ⟨h.1, h.2.1⟩

/-! ### Upload outcome classification (C8, C10) -/

theorem promiseAll_cons_error (e : String) (rest : List (Except String Unit)) :
    promiseAll (.error e :: rest) = .error e := rfl

theorem promiseAll_cons_ok (u : Unit) (rest : List (Except String Unit)) :
    promiseAll (.ok u :: rest) = promiseAll rest := rfl

theorem promiseAll_error (rs : List (Except String Unit)) (r : Except String Unit)
    (hr : r ∈ rs) (e : String) (he : r = .error e) :
    ∃ e2, promiseAll rs = .error e2 := by
  induction rs with
  | nil => simp at hr
  | cons x rest ih =>
    match x with
    | .error e3 => exact ⟨e3, promiseAll_cons_error e3 rest⟩
    | .ok u =>
      rcases List.mem_cons.mp hr with rfl | hmem
      · simp at he
      · obtain ⟨e2, h2⟩ := ih hmem
        exact ⟨e2, (promiseAll_cons_ok u rest).trans h2⟩

theorem promiseAll_ok (rs : List (Except String Unit))
    (h : ∀ r ∈ rs, r = .ok ()) : promiseAll rs = .ok () := by
  induction rs with
  | nil => rfl
  | cons x rest ih =>
    rw [h x (by simp)]
    rw [promiseAll_cons_ok]
    exact ih (fun r hr => h r (by simp [hr]))

theorem uploadReportResult_classify (inner : Except String UploadInner)
    (h : ∀ url, inner ≠ .ok (.success url)) :
    (∃ msg, uploadReportResult false inner = .ok (.failed msg)) ∧
    (∃ e, uploadReportResult true inner = .error e) := by
  match inner with
  | .error e => exact ⟨⟨e, rfl⟩, ⟨e, rfl⟩⟩
  | .ok (.failure m) => exact ⟨⟨_, rfl⟩, ⟨_, rfl⟩⟩
  | .ok (.success url) => exact absurd rfl (h url)

theorem upload_failure_shape (resolveUrl : String → String)
    (start : ApiResult StartResponse) (presign : ApiResult (List (String × String)))
    (attachmentIds : List String) (reportPutJob : Nat → Except String Unit)
    (attachmentPutJob : String → Nat → Except String Unit) (finish : ApiResult String)
    (hfail :
      (∃ e, start = .err e) ∨
      (∃ e, presign = .err e) ∨
      (∃ e, (retryWithBackoff reportPutJob HTTP_BACKOFF).result = .error e) ∨
      (∃ id ∈ attachmentIds, ∃ e,
        (retryWithBackoff (attachmentPutJob id) HTTP_BACKOFF).result = .error e)) :
    ∀ url, ReportUploadUpload resolveUrl start presign attachmentIds reportPutJob
      attachmentPutJob finish ≠ .ok (.success url) := by
  intro url
  match start with
  | .err e => simp [ReportUploadUpload]
  | .ok st =>
    match presign with
    | .err e => simp [ReportUploadUpload]
    | .ok urls =>
      rcases hfail with ⟨e, he⟩ | ⟨e, he⟩ | ⟨e, he⟩ | ⟨id, hid, e, he⟩
      · simp at he
      · simp at he
      · cases hfind : attachmentIds.find? (fun id => (jsMapGet urls id).isNone) with
        | some _ => simp [ReportUploadUpload, hfind]
        | none =>
          obtain ⟨e2, h2⟩ := promiseAll_error
            ((retryWithBackoff reportPutJob HTTP_BACKOFF).result ::
              attachmentIds.map
                (fun id => (retryWithBackoff (attachmentPutJob id) HTTP_BACKOFF).result))
            ((retryWithBackoff reportPutJob HTTP_BACKOFF).result)
            (List.mem_cons_self _ _) e he
          simp [ReportUploadUpload, hfind, h2]
      · cases hfind : attachmentIds.find? (fun id => (jsMapGet urls id).isNone) with
        | some _ => simp [ReportUploadUpload, hfind]
        | none =>
          obtain ⟨e2, h2⟩ := promiseAll_error
            ((retryWithBackoff reportPutJob HTTP_BACKOFF).result ::
              attachmentIds.map
                (fun a => (retryWithBackoff (attachmentPutJob a) HTTP_BACKOFF).result))
            ((retryWithBackoff (attachmentPutJob id) HTTP_BACKOFF).result)
            (List.mem_cons_of_mem _ (List.mem_map_of_mem _ hid)) e he
          simp [ReportUploadUpload, hfind, h2]

/-- Claim C8 as stated is false for the finish phase: with authentication fine
and every other phase succeeding, a non-OK `/api/upload/finish` response still
yields `{ status: success }` (its result is never inspected), not
`{ status: failed }`. -/
theorem C8_counterexample :
    uploadReportResult false
      (ReportUploadUpload id (.ok ⟨"tok", "purl", "/r/1"⟩) (.ok []) []
        (fun _ => .ok ()) (fun _ _ => .ok ())
        (.err "500 /api/upload/finish")) = .ok (.success "/r/1") := rfl

/-- Claim C8, amended: failure of the start call, the presign call, the report
PUT (exhausting its retries), or any attachment PUT makes the upload return
`{ status: failed }` when `throwOnFailure` is unset and throw when it is true;
in safe mode no exception leaks for any inner outcome whatsoever.  (The finish
phase is excluded: its result is ignored — see the counterexample.) -/
theorem C8_failure_classification (resolveUrl : String → String)
    (start : ApiResult StartResponse) (presign : ApiResult (List (String × String)))
    (attachmentIds : List String) (reportPutJob : Nat → Except String Unit)
    (attachmentPutJob : String → Nat → Except String Unit) (finish : ApiResult String)
    (hfail :
      (∃ e, start = .err e) ∨
      (∃ e, presign = .err e) ∨
      (∃ e, (retryWithBackoff reportPutJob HTTP_BACKOFF).result = .error e) ∨
      (∃ id ∈ attachmentIds, ∃ e,
        (retryWithBackoff (attachmentPutJob id) HTTP_BACKOFF).result = .error e)) :
    (∃ msg, uploadReportResult false (ReportUploadUpload resolveUrl start presign
      attachmentIds reportPutJob attachmentPutJob finish) = .ok (.failed msg)) ∧
    (∃ e, uploadReportResult true (ReportUploadUpload resolveUrl start presign
      attachmentIds reportPutJob attachmentPutJob finish) = .error e) ∧
    (∀ inner : Except String UploadInner, ∃ out, uploadReportResult false inner = .ok out) := by
  obtain ⟨h1, h2⟩ := uploadReportResult_classify _
    (upload_failure_shape resolveUrl start presign attachmentIds reportPutJob
      attachmentPutJob finish hfail)
  refine ⟨h1, h2, ?_⟩
  intro inner
  match inner with
  | .error e => exact ⟨.failed e, rfl⟩
  | .ok (.failure m) => exact ⟨.failed (jsOrDefault m "Unknown upload error"), rfl⟩
  | .ok (.success url) => exact ⟨.success url, rfl⟩

/-- Witness for `C8_failure_classification`: the report PUT fails on every
invocation, all other phases fine. -/
theorem C8_failure_classification_witness :
    (∃ msg, uploadReportResult false (ReportUploadUpload id (.ok ⟨"tok", "purl", "/r/1"⟩)
      (.ok []) [] (fun _ => .error "500") (fun _ _ => .ok ())
      (.ok "done")) = .ok (.failed msg)) ∧
    (∃ e, uploadReportResult true (ReportUploadUpload id (.ok ⟨"tok", "purl", "/r/1"⟩)
      (.ok []) [] (fun _ => .error "500") (fun _ _ => .ok ())
      (.ok "done")) = .error e) ∧
    (∀ inner : Except String UploadInner, ∃ out, uploadReportResult false inner = .ok out) :=
  C8_failure_classification id (.ok ⟨"tok", "purl", "/r/1"⟩) (.ok []) []
    (fun _ => .error "500") (fun _ _ => .ok ()) (.ok "done")
    (Or.inr (Or.inr (Or.inl ⟨"500", rfl⟩)))

/-- Claim C10: when start and presign succeed with a presigned URL for every
attachment id and all PUTs succeed within their retry budgets,
`ReportUpload.upload` returns `{ success: true, reportUrl }` with the URL
resolved from the start response `webUrl` — regardless of the outcome of the
final `/api/upload/finish` call, which is never inspected. -/
theorem C10_success_ignores_finish (resolveUrl : String → String) (st : StartResponse)
    (urls : List (String × String)) (attachmentIds : List String)
    (reportPutJob : Nat → Except String Unit)
    (attachmentPutJob : String → Nat → Except String Unit)
    (hurls : ∀ id ∈ attachmentIds, (jsMapGet urls id).isSome)
    (hreport : (retryWithBackoff reportPutJob HTTP_BACKOFF).result = .ok ())
    (hatt : ∀ id ∈ attachmentIds,
      (retryWithBackoff (attachmentPutJob id) HTTP_BACKOFF).result = .ok ()) :
    ∀ finish, ReportUploadUpload resolveUrl (.ok st) (.ok urls) attachmentIds
      reportPutJob attachmentPutJob finish = .ok (.success (resolveUrl st.webUrl)) := by
  intro finish
  have hfind : attachmentIds.find? (fun id => (jsMapGet urls id).isNone) = none := by
    rw [List.find?_eq_none]
    intro id hid hcontra
    simp only [Option.isNone_iff_eq_none] at hcontra
    have := hurls id hid
    rw [hcontra] at this
    simp at this
  have hall : promiseAll
      ((retryWithBackoff reportPutJob HTTP_BACKOFF).result ::
        attachmentIds.map
          (fun id => (retryWithBackoff (attachmentPutJob id) HTTP_BACKOFF).result)) = .ok () := by
    apply promiseAll_ok
    intro r hr
    rcases List.mem_cons.mp hr with rfl | hmem
    · exact hreport
    · obtain ⟨id, hid, rfl⟩ := List.mem_map.mp hmem
      exact hatt id hid
  simp [ReportUploadUpload, hfind, hall]

/-- Witness for `C10_success_ignores_finish` at a concrete run with one
attachment and a failing finish call. -/
theorem C10_success_ignores_finish_witness :
    ReportUploadUpload id (.ok ⟨"tok", "purl", "/r/1"⟩) (.ok [("a1", "u1")]) ["a1"]
      (fun _ => .ok ()) (fun _ _ => .ok ()) (.err "500") = .ok (.success "/r/1") :=
  C10_success_ignores_finish id ⟨"tok", "purl", "/r/1"⟩ [("a1", "u1")] ["a1"]
    (fun _ => .ok ()) (fun _ _ => .ok ())
    (by intro id hid; simp at hid; subst hid; rfl)
    rfl
    (by intro id hid; simp at hid; subst hid; rfl)
    (.err "500")

/-! ### JS `Set` lemmas -/

theorem mem_jsSetInsert [DecidableEq α] {a x : α} {l : List α} :
    a ∈ jsSetInsert l x ↔ a ∈ l ∨ a = x := by
  unfold jsSetInsert
  split
  · rename_i h
    constructor
    · exact Or.inl
    · rintro (h2 | rfl)
      · exact h2
      · exact h
  · simp

theorem foldl_jsSetInsert_mem_acc [DecidableEq α] {a : α} :
    ∀ (l acc : List α), a ∈ acc → a ∈ l.foldl jsSetInsert acc
  | [], _, h => h
  | _ :: rest, _, h =>
    foldl_jsSetInsert_mem_acc rest _ (mem_jsSetInsert.mpr (Or.inl h))

theorem foldl_jsSetInsert_mem [DecidableEq α] {a : α} :
    ∀ (l acc : List α), a ∈ l → a ∈ l.foldl jsSetInsert acc
  | _ :: rest, acc, h => by
    rcases List.mem_cons.mp h with rfl | hmem
    · exact foldl_jsSetInsert_mem_acc rest _ (mem_jsSetInsert.mpr (Or.inr rfl))
    · exact foldl_jsSetInsert_mem rest _ hmem

theorem mem_of_foldl_jsSetInsert [DecidableEq α] {a : α} :
    ∀ (l acc : List α), a ∈ l.foldl jsSetInsert acc → a ∈ acc ∨ a ∈ l
  | [], _, h => Or.inl h
  | _ :: rest, _, h => by
    rcases mem_of_foldl_jsSetInsert rest _ h with h2 | h2
    · rcases mem_jsSetInsert.mp h2 with h3 | rfl
      · exact Or.inl h3
      · exact Or.inr (by simp)
    · exact Or.inr (List.mem_cons_of_mem _ h2)

theorem mem_jsSetOf_iff [DecidableEq α] {a : α} {l : List α} : a ∈ jsSetOf l ↔ a ∈ l := by
  constructor
  · intro h
    rcases mem_of_foldl_jsSetInsert l [] h with h2 | h2
    · exact absurd h2 (List.not_mem_nil a)
    · exact h2
  · exact foldl_jsSetInsert_mem l []

theorem nodup_jsSetInsert [DecidableEq α] {x : α} {l : List α} (h : l.Nodup) :
    (jsSetInsert l x).Nodup := by
  unfold jsSetInsert
  split
  · exact h
  · rename_i hx
    refine h.append (List.nodup_singleton x) ?_
    intro b hb hbx
    simp at hbx
    subst hbx
    exact hx hb

theorem nodup_foldl_jsSetInsert [DecidableEq α] :
    ∀ (l acc : List α), acc.Nodup → (l.foldl jsSetInsert acc).Nodup
  | [], _, h => h
  | _ :: rest, _, h => nodup_foldl_jsSetInsert rest _ (nodup_jsSetInsert h)

theorem nodup_jsSetOf [DecidableEq α] (l : List α) : (jsSetOf l).Nodup :=
  nodup_foldl_jsSetInsert l [] List.nodup_nil

theorem jsIndexOf_lt_length [DecidableEq α] {a : α} :
    ∀ {l : List α}, a ∈ l → jsIndexOf a l < l.length
  | x :: rest, h => by
    rw [jsIndexOf]
    split
    · simp
    · rename_i hne
      have : a ∈ rest := by
        rcases List.mem_cons.mp h with rfl | hmem
        · exact absurd rfl hne
        · exact hmem
      simpa using jsIndexOf_lt_length this

theorem get?_jsIndexOf [DecidableEq α] {a : α} :
    ∀ {l : List α}, a ∈ l → l.get? (jsIndexOf a l) = some a
  | x :: rest, h => by
    rw [jsIndexOf]
    split
    · rename_i heq
      simp [heq]
    · rename_i hne
      have : a ∈ rest := by
        rcases List.mem_cons.mp h with rfl | hmem
        · exact absurd rfl hne
        · exact hmem
      simpa using get?_jsIndexOf this

theorem jsIndexOf_of_get? [DecidableEq α] {a : α} :
    ∀ {l : List α} {i : Nat}, l.Nodup → l.get? i = some a → jsIndexOf a l = i
  | x :: rest, 0, _, h => by
    rw [List.get?_cons_zero] at h
    cases Option.some.inj h
    simp [jsIndexOf]
  | x :: rest, i + 1, hnd, h => by
    rw [List.get?_cons_succ] at h
    rw [jsIndexOf]
    split
    · rename_i heq
      subst heq
      exact absurd (List.get?_mem h) (List.nodup_cons.mp hnd).1
    · rw [jsIndexOf_of_get? (List.nodup_cons.mp hnd).2 h]

/-! ### Membership lemmas for the collectors and buckets -/

theorem mem_testsAttempts {a : Attempt} {tests : List Test} :
    a ∈ testsAttempts tests ↔ ∃ t ∈ tests, a ∈ t.attempts := by
  simp [testsAttempts]

theorem mem_suitesAttemptSeq {a : Attempt} :
    ∀ l : List Suite, a ∈ suitesAttemptSeq l ↔ ∃ s ∈ l, a ∈ suiteAttemptSeq s
  | [] => by simp [suitesAttemptSeq]
  | s :: rest => by
    rw [show suitesAttemptSeq (s :: rest) = suiteAttemptSeq s ++ suitesAttemptSeq rest from rfl]
    simp [mem_suitesAttemptSeq rest]

theorem mem_gTestsGetAll {st : NormState} {tid : TestId} {t : Test} :
    t ∈ gTestsGetAll st tid ↔ (tid, t) ∈ st.gTests := by
  simp only [gTestsGetAll, List.mem_map, List.mem_filter]
  constructor
  · rintro ⟨⟨tid2, t2⟩, ⟨hmem, heq⟩, rfl⟩
    simp at heq
    subst heq
    exact hmem
  · intro h
    exact ⟨(tid, t), ⟨h, by simp⟩, rfl⟩

/-- Every attempt of a test emitted by `transformTests` is a visited attempt
with its `environmentIdx` rewritten to `envIdToIndex` of the identity it
referenced. -/
theorem attempt_source_transformTests {r : Report} {st : NormState}
    {U : List (Option EnvId)} {sid : SuiteId} {tests : List Test} {a : Attempt}
    (ha : a ∈ testsAttempts (transformTests r st U sid tests)) :
    ∃ tid t a0, (tid, t) ∈ st.gTests ∧ a0 ∈ t.attempts ∧
      a = { a0 with environmentIdx := jsIndexOf (envIdAt r a0.environmentIdx) U } := by
  obtain ⟨t', ht', ha'⟩ := mem_testsAttempts.mp ha
  obtain ⟨tid, -, hemit⟩ := List.mem_filterMap.mp ht'
  rcases hbucket : gTestsGetAll st tid with _ | ⟨t0, rest⟩
  · rw [transformTest?, hbucket] at hemit
    simp at hemit
  · rw [transformTest?, hbucket] at hemit
    simp only [Option.some.injEq] at hemit
    subst hemit
    simp only [← hbucket] at ha'
    obtain ⟨a0, ha0, rfl⟩ := List.mem_map.mp ha'
    obtain ⟨as, has, ha0'⟩ := List.mem_flatten.mp ha0
    obtain ⟨t, htmem, rfl⟩ := List.mem_map.mp has
    exact ⟨tid, t, a0, mem_gTestsGetAll.mp htmem, ha0', rfl⟩

/-- Every attempt in the forest emitted by `transformSuites` also stems from a
visited attempt, rewritten the same way. -/
theorem attempt_source_transformSuites {r : Report} {st : NormState}
    {U : List (Option EnvId)} :
    ∀ (fuel : Nat) (chain : List SuiteKey) (suites : List Suite) (a : Attempt),
      a ∈ suitesAttemptSeq (transformSuites r st U fuel chain suites) →
      ∃ tid t a0, (tid, t) ∈ st.gTests ∧ a0 ∈ t.attempts ∧
        a = { a0 with environmentIdx := jsIndexOf (envIdAt r a0.environmentIdx) U }
  | 0, chain, suites, a => by
    intro h
    simp [transformSuites, suitesAttemptSeq] at h
  | fuel + 1, chain, suites, a => by
    intro h
    obtain ⟨s', hs', ha'⟩ := (mem_suitesAttemptSeq _).mp h
    obtain ⟨sid, -, hemit⟩ := List.mem_filterMap.mp hs'
    rcases hget : gSuitesGet st sid with _ | s
    · rw [hget] at hemit
      simp at hemit
    · rw [hget] at hemit
      match sid with
      | .suiteless => simp at hemit
      | .chain c =>
        simp only [Option.some.injEq] at hemit
        subst hemit
        rw [show suiteAttemptSeq (Suite.mk s.title s.type s.location
            (some (transformSuites r st U fuel c (childrenOf st (.chain c))))
            (some (transformTests r st U (.chain c) (suiteTestsOf st (.chain c))))) =
          suitesAttemptSeq (transformSuites r st U fuel c (childrenOf st (.chain c))) ++
            testsAttempts (transformTests r st U (.chain c) (suiteTestsOf st (.chain c)))
          from rfl] at ha'
        rcases List.mem_append.mp ha' with h2 | h2
        · exact attempt_source_transformSuites fuel c (childrenOf st (.chain c)) a h2
        · exact attempt_source_transformTests h2

/-- `normalizeReport`, with the let-bindings spelled out. -/
theorem normalizeReport_def (r : Report) :
    normalizeReport r =
      { r with
        environments :=
          ((visitReport r).usedEnvIds).filterMap (fun oid => oid.bind (gEnvsGet r))
        suites := transformSuites r (visitReport r) (visitReport r).usedEnvIds
          (suitesHeight r.suites + 1) [] r.suites
        tests := some (transformTests r (visitReport r) (visitReport r).usedEnvIds
          .suiteless (r.tests.getD [])) } := rfl

mutual

theorem mem_suiteGTests_test :
    ∀ (parent : List SuiteKey) (s : Suite) (tid : TestId) (t : Test),
      (tid, t) ∈ suiteGTests parent s → t ∈ suiteTestsSeq s
  | parent, .mk ti y l none tests, tid, t => by
    intro h
    rw [show suiteGTests parent (.mk ti y l none tests) =
      [] ++ (tests.getD []).map (fun test =>
        (computeTestId test (.chain (computeSuiteChain (.mk ti y l none tests) parent)), test))
      from rfl] at h
    simp only [List.nil_append, List.mem_map] at h
    obtain ⟨test, hmem, heq⟩ := h
    cases heq
    exact hmem
  | parent, .mk ti y l (some children) tests, tid, t => by
    intro h
    rw [show suiteGTests parent (.mk ti y l (some children) tests) =
      suitesGTests (computeSuiteChain (.mk ti y l (some children) tests) parent) children ++
      (tests.getD []).map (fun test =>
        (computeTestId test
          (.chain (computeSuiteChain (.mk ti y l (some children) tests) parent)), test))
      from rfl] at h
    rw [show suiteTestsSeq (.mk ti y l (some children) tests) =
      suitesTestsSeq children ++ tests.getD [] from rfl]
    rcases List.mem_append.mp h with h2 | h2
    · exact List.mem_append_left _ (mem_suitesGTests_test _ children tid t h2)
    · obtain ⟨test, hmem, heq⟩ := List.mem_map.mp h2
      cases heq
      exact List.mem_append_right _ hmem

theorem mem_suitesGTests_test :
    ∀ (chain : List SuiteKey) (l : List Suite) (tid : TestId) (t : Test),
      (tid, t) ∈ suitesGTests chain l → t ∈ suitesTestsSeq l
  | chain, [], tid, t => by intro h; simp [suitesGTests] at h
  | chain, s :: rest, tid, t => by
    intro h
    rw [show suitesGTests chain (s :: rest) =
      suiteGTests chain s ++ suitesGTests chain rest from rfl] at h
    rw [show suitesTestsSeq (s :: rest) = suiteTestsSeq s ++ suitesTestsSeq rest from rfl]
    rcases List.mem_append.mp h with h2 | h2
    · exact List.mem_append_left _ (mem_suiteGTests_test chain s tid t h2)
    · exact List.mem_append_right _ (mem_suitesGTests_test chain rest tid t h2)

end

/-- Every visited test occurrence is a test of the input tree. -/
theorem mem_reportGTests_test {r : Report} {tid : TestId} {t : Test}
    (h : (tid, t) ∈ reportGTests r) : t ∈ reportTestsSeq r := by
  rw [reportGTests] at h
  rw [reportTestsSeq]
  rcases List.mem_append.mp h with h2 | h2
  · obtain ⟨test, hmem, heq⟩ := List.mem_map.mp h2
    cases heq
    exact List.mem_append_left _ hmem
  · exact List.mem_append_right _ (mem_suitesGTests_test [] r.suites tid t h2)

theorem length_filterMap_of_all_some {α β : Type} (f : α → Option β) :
    ∀ l : List α, (∀ x ∈ l, (f x).isSome) → (l.filterMap f).length = l.length
  | [], _ => rfl
  | x :: rest, h => by
    obtain ⟨y, hy⟩ := Option.isSome_iff_exists.mp (h x (by simp))
    rw [List.filterMap_cons, hy]
    simp only [List.length_cons]
    rw [length_filterMap_of_all_some f rest (fun z hz => h z (by simp [hz]))]

/-- For an environment of the input array, `gEnvs.get` of its identity is
defined. -/
theorem gEnvsGet_isSome {r : Report} {env : Environment} (h : env ∈ r.environments) :
    (gEnvsGet r (computeEnvId env)).isSome := by
  rw [gEnvsGet, List.getLast?_isSome]
  intro hcontra
  have : env ∈ r.environments.filter (fun e => decide (computeEnvId e = computeEnvId env)) :=
    List.mem_filter.mpr ⟨h, by simp⟩
  rw [hcontra] at this
  simp at this

/-- Under the validity precondition, no entry of the rebuilt environment array
is dropped: its length is the number of used identities. -/
theorem normalizeReport_env_length (r : Report)
    (hvalid : ∀ a ∈ reportAttemptSeq r, a.environmentIdx < r.environments.length) :
    (normalizeReport r).environments.length = (visitReport r).usedEnvIds.length := by
  rw [normalizeReport_def]
  apply length_filterMap_of_all_some
  intro oid hmem
  rw [visitReport_eq] at hmem
  have hseq : oid ∈ envSeq r := mem_jsSetOf_iff.mp hmem
  obtain ⟨a, ha, rfl⟩ := List.mem_map.mp hseq
  obtain ⟨env, henv⟩ : ∃ env, r.environments.get? a.environmentIdx = some env :=
    ⟨_, List.get?_eq_get (hvalid a ha)⟩
  rw [envIdAt, envAt, henv]
  simp only [Option.map_some', Option.some_bind]
  exact gEnvsGet_isSome (List.get?_mem henv)

/-- Claim C1: if every attempt of the input report references a valid
environment index, then every attempt anywhere in the tree returned by
`normalizeReport` carries an `environmentIdx` that is a valid index into the
returned environments array. -/
theorem C1_environmentIdx_valid (r : Report)
    (hvalid : ∀ a ∈ reportAttemptSeq r, a.environmentIdx < r.environments.length) :
    ∀ a ∈ reportAttemptSeq (normalizeReport r),
      a.environmentIdx < (normalizeReport r).environments.length := by
  intro a ha
  rw [show reportAttemptSeq (normalizeReport r) =
    testsAttempts (transformTests r (visitReport r) (visitReport r).usedEnvIds
      .suiteless (r.tests.getD [])) ++
    testsAttempts (suitesTestsSeq (transformSuites r (visitReport r)
      (visitReport r).usedEnvIds (suitesHeight r.suites + 1) [] r.suites)) from by
      rw [reportAttemptSeq, normalizeReport_def, reportTestsSeq]
      exact testsAttempts_append _ _] at ha
  have hsource : ∃ tid t a0, (tid, t) ∈ (visitReport r).gTests ∧ a0 ∈ t.attempts ∧
      a = { a0 with
        environmentIdx := jsIndexOf (envIdAt r a0.environmentIdx) (visitReport r).usedEnvIds } := by
    rcases List.mem_append.mp ha with h2 | h2
    · exact attempt_source_transformTests h2
    · rw [← suitesAttemptSeq_eq] at h2
      exact attempt_source_transformSuites _ _ _ a h2
  obtain ⟨tid, t, a0, hmem, ha0, rfl⟩ := hsource
  have ht : t ∈ reportTestsSeq r := by
    rw [visitReport_eq] at hmem
    exact mem_reportGTests_test hmem
  have ha0seq : a0 ∈ reportAttemptSeq r :=
    mem_testsAttempts.mpr ⟨t, ht, ha0⟩
  have hmemU : envIdAt r a0.environmentIdx ∈ (visitReport r).usedEnvIds := by
    rw [visitReport_eq]
    exact mem_jsSetOf_iff.mpr (List.mem_map_of_mem _ ha0seq)
  have hidx := jsIndexOf_lt_length hmemU
  rw [normalizeReport_env_length r hvalid]
  simpa using hidx

/-- Witness for `C1_environmentIdx_valid`: a two-environment report whose two
suites duplicate each other; the first merged attempt is in range. -/
theorem C1_environmentIdx_valid_witness :
    Attempt.mk 0 none ∈ reportAttemptSeq (normalizeReport
      { environments := [⟨"e0", ""⟩, ⟨"e1", ""⟩]
        suites := [.mk "a" "d" none none (some [⟨"t", none, none, [⟨1, none⟩]⟩]),
                   .mk "a" "d" none none (some [⟨"t", none, none, [⟨0, some "passed"⟩]⟩])]
        tests := none
        meta := "m" }) ∧
    (Attempt.mk 0 none).environmentIdx < (normalizeReport
      { environments := [⟨"e0", ""⟩, ⟨"e1", ""⟩]
        suites := [.mk "a" "d" none none (some [⟨"t", none, none, [⟨1, none⟩]⟩]),
                   .mk "a" "d" none none (some [⟨"t", none, none, [⟨0, some "passed"⟩]⟩])]
        tests := none
        meta := "m" }).environments.length :=
  ⟨by decide, C1_environmentIdx_valid
    { environments := [⟨"e0", ""⟩, ⟨"e1", ""⟩]
      suites := [.mk "a" "d" none none (some [⟨"t", none, none, [⟨1, none⟩]⟩]),
                 .mk "a" "d" none none (some [⟨"t", none, none, [⟨0, some "passed"⟩]⟩])]
      tests := none
      meta := "m" } (by decide) (Attempt.mk 0 none) (by decide)⟩

/-! ### Default-value cleanup (C3) -/

theorem mem_suitesTestsSeq {t : Test} :
    ∀ l : List Suite, t ∈ suitesTestsSeq l ↔ ∃ s ∈ l, t ∈ suiteTestsSeq s
  | [] => by simp [suitesTestsSeq]
  | s :: rest => by
    rw [show suitesTestsSeq (s :: rest) = suiteTestsSeq s ++ suitesTestsSeq rest from rfl]
    simp [mem_suitesTestsSeq rest]

/-- A test emitted by `transformTests` is the value of `transformTest?` at
some identity. -/
theorem test_source_transformTests {r : Report} {st : NormState} {U : List (Option EnvId)}
    {sid : SuiteId} {tests : List Test} {t' : Test}
    (h : t' ∈ transformTests r st U sid tests) :
    ∃ tid, transformTest? r st U tid = some t' := by
  obtain ⟨tid, -, hemit⟩ := List.mem_filterMap.mp h
  exact ⟨tid, hemit⟩

/-- Every test anywhere in the forest emitted by `transformSuites` is the
value of `transformTest?` at some identity. -/
theorem test_source_transformSuites {r : Report} {st : NormState} {U : List (Option EnvId)} :
    ∀ (fuel : Nat) (chain : List SuiteKey) (suites : List Suite) (t' : Test),
      t' ∈ suitesTestsSeq (transformSuites r st U fuel chain suites) →
      ∃ tid, transformTest? r st U tid = some t'
  | 0, chain, suites, t' => by
    intro h
    simp [transformSuites, suitesTestsSeq] at h
  | fuel + 1, chain, suites, t' => by
    intro h
    obtain ⟨s', hs', ht'⟩ := (mem_suitesTestsSeq _).mp h
    obtain ⟨sid, -, hemit⟩ := List.mem_filterMap.mp hs'
    rcases hget : gSuitesGet st sid with _ | s
    · rw [hget] at hemit
      simp at hemit
    · rw [hget] at hemit
      match sid with
      | .suiteless => simp at hemit
      | .chain c =>
        simp only [Option.some.injEq] at hemit
        subst hemit
        rw [show suiteTestsSeq (Suite.mk s.title s.type s.location
            (some (transformSuites r st U fuel c (childrenOf st (.chain c))))
            (some (transformTests r st U (.chain c) (suiteTestsOf st (.chain c))))) =
          suitesTestsSeq (transformSuites r st U fuel c (childrenOf st (.chain c))) ++
            transformTests r st U (.chain c) (suiteTestsOf st (.chain c))
          from rfl] at ht'
        rcases List.mem_append.mp ht' with h2 | h2
        · exact test_source_transformSuites fuel c (childrenOf st (.chain c)) t' h2
        · exact test_source_transformTests h2

/-- `transformTest?` never emits a present-but-empty tags array. -/
theorem transformTest?_no_empty_tags {r : Report} {st : NormState} {U : List (Option EnvId)}
    {tid : TestId} {t' : Test} (h : transformTest? r st U tid = some t') :
    t'.tags ≠ some [] := by
  rcases hbucket : gTestsGetAll st tid with _ | ⟨t0, rest⟩
  · rw [transformTest?, hbucket] at h
    simp at h
  · rw [transformTest?, hbucket] at h
    simp only [Option.some.injEq] at h
    subst h
    simp only
    split
    · simp
    · rename_i hne
      intro hcontra
      simp only [Option.some.injEq] at hcontra
      rw [hcontra] at hne
      simp at hne

/-- Claim C3 as stated is false: the output keeps an attempt with
`status: 'passed'` verbatim (the spread copies every attempt field) and always
emits present `suites`/`tests` arrays, even empty ones.  Normalizing a report
with one suite holding one passed attempt referencing environment 0 yields a
suite whose `suites` field is a present empty array and whose attempt still
carries `status 'passed'` and `environmentIdx 0`. -/
theorem C3_counterexample :
    (normalizeReport
      { environments := [⟨"e0", ""⟩]
        suites := [.mk "s" "d" none none (some [⟨"t", none, none, [⟨0, some "passed"⟩]⟩])]
        tests := none
        meta := "" }).suites =
      [.mk "s" "d" none (some []) (some [⟨"t", none, none, [⟨0, some "passed"⟩]⟩])] := by
  decide

/-- Claim C3, amended: the only default-value cleanup in `normalizeReport` is
the tags array — a merged test with no tags has the field absent, never
present-and-empty; attempt fields are carried through the spread unchanged
(`status === 'passed'` and `environmentIdx === 0` are NOT omitted), and the
output `suites`/`tests` arrays are always present, possibly empty. -/
theorem C3_default_cleanup (r : Report) :
    (∀ t ∈ reportTestsSeq (normalizeReport r), t.tags ≠ some []) ∧
    (∀ a ∈ reportAttemptSeq (normalizeReport r),
      ∃ a0 ∈ reportAttemptSeq r, a.status = a0.status) := by
  constructor
  · intro t ht
    rw [show reportTestsSeq (normalizeReport r) =
      transformTests r (visitReport r) (visitReport r).usedEnvIds
        .suiteless (r.tests.getD []) ++
      suitesTestsSeq (transformSuites r (visitReport r)
        (visitReport r).usedEnvIds (suitesHeight r.suites + 1) [] r.suites) from by
        rw [reportTestsSeq, normalizeReport_def]
        rfl] at ht
    rcases List.mem_append.mp ht with h2 | h2
    · obtain ⟨tid, hemit⟩ := test_source_transformTests h2
      exact transformTest?_no_empty_tags hemit
    · obtain ⟨tid, hemit⟩ := test_source_transformSuites _ _ _ t h2
      exact transformTest?_no_empty_tags hemit
  · intro a ha
    rw [show reportAttemptSeq (normalizeReport r) =
      testsAttempts (transformTests r (visitReport r) (visitReport r).usedEnvIds
        .suiteless (r.tests.getD [])) ++
      testsAttempts (suitesTestsSeq (transformSuites r (visitReport r)
        (visitReport r).usedEnvIds (suitesHeight r.suites + 1) [] r.suites)) from by
        rw [reportAttemptSeq, normalizeReport_def, reportTestsSeq]
        exact testsAttempts_append _ _] at ha
    have hsource : ∃ tid t a0, (tid, t) ∈ (visitReport r).gTests ∧ a0 ∈ t.attempts ∧
        a = { a0 with
          environmentIdx :=
            jsIndexOf (envIdAt r a0.environmentIdx) (visitReport r).usedEnvIds } := by
      rcases List.mem_append.mp ha with h2 | h2
      · exact attempt_source_transformTests h2
      · rw [← suitesAttemptSeq_eq] at h2
        exact attempt_source_transformSuites _ _ _ a h2
    obtain ⟨tid, t, a0, hmem, ha0, rfl⟩ := hsource
    have ht : t ∈ reportTestsSeq r := by
      rw [visitReport_eq] at hmem
      exact mem_reportGTests_test hmem
    exact ⟨a0, mem_testsAttempts.mpr ⟨t, ht, ha0⟩, rfl⟩

/-! ### Suite identities in the output tree (C4) -/

theorem transformSuites_succ (r : Report) (st : NormState) (U : List (Option EnvId))
    (fuel : Nat) (parent : List SuiteKey) (suites : List Suite) :
    transformSuites r st U (fuel + 1) parent suites =
      (jsSetOf (suites.map (fun s => SuiteId.chain (computeSuiteChain s parent)))).filterMap
        (emitSuite r st U fuel) := rfl

theorem suitesGSuites_cons (chain : List SuiteKey) (s : Suite) (l : List Suite) :
    suitesGSuites chain (s :: l) = suiteGSuites chain s ++ suitesGSuites chain l := rfl

theorem suiteGSuites_unfold (parent : List SuiteKey) :
    ∀ s : Suite, suiteGSuites parent s =
      (SuiteId.chain (computeSuiteChain s parent), s) ::
        suitesGSuites (computeSuiteChain s parent) (s.suites.getD [])
  | .mk _ _ _ none _ => rfl
  | .mk _ _ _ (some _) _ => rfl

mutual

theorem suiteGSuites_key :
    ∀ (parent : List SuiteKey) (s : Suite) (sid : SuiteId) (s₀ : Suite),
      (sid, s₀) ∈ suiteGSuites parent s → ∃ pc, sid = SuiteId.chain (pc ++ [suiteKeyOf s₀])
  | parent, .mk t y l none tests, sid, s₀ => by
    intro h
    rw [show suiteGSuites parent (.mk t y l none tests) =
      [(SuiteId.chain (computeSuiteChain (.mk t y l none tests) parent),
        .mk t y l none tests)] from rfl] at h
    simp only [List.mem_singleton, Prod.mk.injEq] at h
    obtain ⟨rfl, rfl⟩ := h
    exact ⟨parent, rfl⟩
  | parent, .mk t y l (some children) tests, sid, s₀ => by
    intro h
    rw [show suiteGSuites parent (.mk t y l (some children) tests) =
      (SuiteId.chain (computeSuiteChain (.mk t y l (some children) tests) parent),
        .mk t y l (some children) tests) ::
      suitesGSuites (computeSuiteChain (.mk t y l (some children) tests) parent) children
      from rfl] at h
    rcases List.mem_cons.mp h with heq | hmem
    · obtain ⟨rfl, rfl⟩ := Prod.mk.injEq .. ▸ heq
      exact ⟨parent, rfl⟩
    · exact suitesGSuites_key _ children sid s₀ hmem

theorem suitesGSuites_key :
    ∀ (chain : List SuiteKey) (l : List Suite) (sid : SuiteId) (s₀ : Suite),
      (sid, s₀) ∈ suitesGSuites chain l → ∃ pc, sid = SuiteId.chain (pc ++ [suiteKeyOf s₀])
  | chain, [], sid, s₀ => by intro h; simp [suitesGSuites] at h
  | chain, s :: rest, sid, s₀ => by
    intro h
    rw [suitesGSuites_cons] at h
    rcases List.mem_append.mp h with h2 | h2
    · exact suiteGSuites_key chain s sid s₀ h2
    · exact suitesGSuites_key chain rest sid s₀ h2

end

/-- A `gSuites` lookup of a chain returns a suite whose key is the last
element of the chain. -/
theorem gSuitesGet_key {r : Report} {c : List SuiteKey} {s : Suite}
    (h : gSuitesGet (visitReport r) (SuiteId.chain c) = some s) :
    ∃ pc, c = pc ++ [suiteKeyOf s] := by
  rw [gSuitesGet] at h
  obtain ⟨⟨sid, s'⟩, hlast, heq⟩ : ∃ p, ((visitReport r).gSuites.filter
      (fun p => p.1 = SuiteId.chain c)).getLast? = some p ∧ p.2 = s := by
    cases hl : ((visitReport r).gSuites.filter (fun p => p.1 = SuiteId.chain c)).getLast? with
    | none => rw [hl] at h; simp at h
    | some p => rw [hl] at h; simp at h; exact ⟨p, rfl, h⟩
  subst heq
  have hmem := List.mem_of_mem_getLast? hlast
  have hkey : sid = SuiteId.chain c := by
    have := (List.mem_filter.mp hmem).2
    simpa using this
  subst hkey
  have hmem2 : (SuiteId.chain c, s') ∈ (visitReport r).gSuites :=
    (List.mem_filter.mp hmem).1
  rw [visitReport_eq] at hmem2
  obtain ⟨pc, hpc⟩ := suitesGSuites_key [] r.suites _ s' hmem2
  exact ⟨pc, SuiteId.chain.injEq .. ▸ hpc⟩

/-- Inversion for a successful suite emission. -/
theorem emitSuite_eq_some {r : Report} {st : NormState} {U : List (Option EnvId)} {fuel : Nat}
    {c : List SuiteKey} {n : Suite}
    (h : emitSuite r st U fuel (SuiteId.chain c) = some n) :
    ∃ s, gSuitesGet st (SuiteId.chain c) = some s ∧
      n = Suite.mk s.title s.type s.location
        (some (transformSuites r st U fuel c (childrenOf st (SuiteId.chain c))))
        (some (transformTests r st U (SuiteId.chain c) (suiteTestsOf st (SuiteId.chain c)))) := by
  simp only [emitSuite] at h
  cases hget : gSuitesGet st (SuiteId.chain c) with
  | none => rw [hget] at h; simp at h
  | some s =>
    rw [hget] at h
    simp only [Option.some.injEq] at h
    exact ⟨s, rfl, h.symm⟩

/-- The suite looked up for an emitted chain carries the key the chain ends
with, so the emitted node re-derives exactly the identity it was emitted for. -/
theorem gSuitesGet_key_last {r : Report} {parent : List SuiteKey} {k : SuiteKey} {s : Suite}
    (hget : gSuitesGet (visitReport r) (SuiteId.chain (parent ++ [k])) = some s) :
    suiteKeyOf s = k := by
  obtain ⟨pc, hpc⟩ := gSuitesGet_key hget
  have h1 : (parent ++ [k]).getLast? = some k := List.getLast?_concat parent
  have h2 : (pc ++ [suiteKeyOf s]).getLast? = some (suiteKeyOf s) := List.getLast?_concat pc
  rw [hpc, h2] at h1
  exact Option.some.inj h1

/-- Identities of the suites emitted by `transformSuites` (with the visit
state of the input report): pairwise distinct, and every one extends a chain
emitted at its own top level. -/
theorem transformSuites_ids (r : Report) (U : List (Option EnvId)) :
    ∀ (fuel : Nat) (parent : List SuiteKey) (suites : List Suite),
      (((suitesGSuites parent
          (transformSuites r (visitReport r) U fuel parent suites)).map Prod.fst).Nodup) ∧
      (∀ sid ∈ (suitesGSuites parent
          (transformSuites r (visitReport r) U fuel parent suites)).map Prod.fst,
        ∃ d, sid = SuiteId.chain d ∧ parent.length < d.length ∧
          SuiteId.chain (d.take (parent.length + 1)) ∈
            jsSetOf (suites.map (fun s => SuiteId.chain (computeSuiteChain s parent)))) := by
  intro fuel
  induction fuel with
  | zero =>
    intro parent suites
    exact ⟨by simp [transformSuites, suitesGSuites], by simp [transformSuites, suitesGSuites]⟩
  | succ fuel ih =>
    intro parent suites
    rw [transformSuites_succ]
    have key : ∀ S : List SuiteId, S.Nodup →
        (∀ sid ∈ S, ∃ k, sid = SuiteId.chain (parent ++ [k])) →
        (((suitesGSuites parent
            (S.filterMap (emitSuite r (visitReport r) U fuel))).map Prod.fst).Nodup) ∧
        (∀ id ∈ (suitesGSuites parent
            (S.filterMap (emitSuite r (visitReport r) U fuel))).map Prod.fst,
          ∃ d, id = SuiteId.chain d ∧ parent.length < d.length ∧
            SuiteId.chain (d.take (parent.length + 1)) ∈ S) := by
      intro S
      induction S with
      | nil =>
        intro _ _
        exact ⟨by simp [suitesGSuites], by simp [suitesGSuites]⟩
      | cons sid S' ihS =>
        intro hnd hform
        obtain ⟨hnotin, hnd'⟩ := List.nodup_cons.mp hnd
        obtain ⟨hS'nd, hS'props⟩ := ihS hnd' (fun x hx => hform x (List.mem_cons_of_mem _ hx))
        cases hemit : emitSuite r (visitReport r) U fuel sid with
        | none =>
          rw [List.filterMap_cons, hemit]
          refine ⟨hS'nd, ?_⟩
          intro id hid
          obtain ⟨d, hd1, hd2, hd3⟩ := hS'props id hid
          exact ⟨d, hd1, hd2, List.mem_cons_of_mem _ hd3⟩
        | some n =>
          rw [List.filterMap_cons, hemit]
          obtain ⟨k, rfl⟩ := hform sid (by simp)
          obtain ⟨s, hget, hn⟩ := emitSuite_eq_some hemit
          have hkey : suiteKeyOf s = k := gSuitesGet_key_last hget
          -- the emitted node re-derives its chain
          have hchain : computeSuiteChain n parent = parent ++ [k] := by
            rw [hn]
            show parent ++ [suiteKeyOf (Suite.mk s.title s.type s.location _ _)] = _
            rw [show suiteKeyOf (Suite.mk s.title s.type s.location
              (some (transformSuites r (visitReport r) U fuel (parent ++ [k])
                (childrenOf (visitReport r) (SuiteId.chain (parent ++ [k])))))
              (some (transformTests r (visitReport r) U (SuiteId.chain (parent ++ [k]))
                (suiteTestsOf (visitReport r) (SuiteId.chain (parent ++ [k])))))) =
              suiteKeyOf s from rfl, hkey]
          have hsuites : n.suites.getD [] =
              transformSuites r (visitReport r) U fuel (parent ++ [k])
                (childrenOf (visitReport r) (SuiteId.chain (parent ++ [k]))) := by
            rw [hn]
            rfl
          have hids : (suitesGSuites parent
              (n :: S'.filterMap (emitSuite r (visitReport r) U fuel))).map Prod.fst =
              SuiteId.chain (parent ++ [k]) ::
                ((suitesGSuites (parent ++ [k])
                  (transformSuites r (visitReport r) U fuel (parent ++ [k])
                    (childrenOf (visitReport r) (SuiteId.chain (parent ++ [k]))))).map Prod.fst ++
                 (suitesGSuites parent
                   (S'.filterMap (emitSuite r (visitReport r) U fuel))).map Prod.fst) := by
            rw [suitesGSuites_cons, suiteGSuites_unfold, hchain, hsuites]
            simp
          obtain ⟨hchildNd, hchildProps⟩ := ih (parent ++ [k])
            (childrenOf (visitReport r) (SuiteId.chain (parent ++ [k])))
          -- every child-forest id extends parent ++ [k]
          have hchildTake : ∀ id ∈ (suitesGSuites (parent ++ [k])
              (transformSuites r (visitReport r) U fuel (parent ++ [k])
                (childrenOf (visitReport r) (SuiteId.chain (parent ++ [k]))))).map Prod.fst,
              ∃ d, id = SuiteId.chain d ∧ parent.length + 1 < d.length ∧
                d.take (parent.length + 1) = parent ++ [k] := by
            intro id hid
            obtain ⟨d, hd1, hd2, hd3⟩ := hchildProps id hid
            rw [show (parent ++ [k]).length = parent.length + 1 by simp] at hd2 hd3
            obtain ⟨s', -, hs'⟩ := List.mem_map.mp (mem_jsSetOf_iff.mp hd3)
            have htake2 : d.take (parent.length + 1 + 1) = (parent ++ [k]) ++ [suiteKeyOf s'] :=
              (SuiteId.chain.inj hs').symm
            refine ⟨d, hd1, hd2, ?_⟩
            have h1 : d.take (parent.length + 1) =
                (d.take (parent.length + 1 + 1)).take (parent.length + 1) := by
              rw [List.take_take]
              simp [Nat.min_def]
            rw [h1, htake2]
            rw [show parent.length + 1 = (parent ++ [k]).length from by simp]
            exact List.take_left _ _
          rw [hids]
          constructor
          · -- Nodup of head :: (childIds ++ tailIds)
            rw [List.nodup_cons]
            constructor
            · intro hmem
              rcases List.mem_append.mp hmem with hmem2 | hmem2
              · obtain ⟨d, hd1, hd2, -⟩ := hchildTake _ hmem2
                have : d = parent ++ [k] := (SuiteId.chain.inj hd1).symm
                subst this
                simp at hd2
              · obtain ⟨d, hd1, -, hd3⟩ := hS'props _ hmem2
                have hd : d = parent ++ [k] := (SuiteId.chain.inj hd1).symm
                subst hd
                rw [show (parent ++ [k]).take (parent.length + 1) = parent ++ [k] from by
                  have : (parent ++ [k]).length = parent.length + 1 := by simp
                  rw [← this, List.take_length]] at hd3
                exact hnotin hd3
            · rw [List.nodup_append]
              refine ⟨hchildNd, hS'nd, ?_⟩
              intro id hidc hidt
              obtain ⟨d, hd1, -, hd3⟩ := hchildTake id hidc
              obtain ⟨d', hd'1, -, hd'3⟩ := hS'props id hidt
              rw [hd1] at hd'1
              have : d = d' := SuiteId.chain.inj hd'1
              subst this
              rw [hd3] at hd'3
              exact hnotin hd'3
          · intro id hid
            rcases List.mem_cons.mp hid with rfl | hmem
            · refine ⟨parent ++ [k], rfl, by simp, ?_⟩
              rw [show (parent ++ [k]).take (parent.length + 1) = parent ++ [k] from by
                have : (parent ++ [k]).length = parent.length + 1 := by simp
                rw [← this, List.take_length]]
              simp
            · rcases List.mem_append.mp hmem with hmem2 | hmem2
              · obtain ⟨d, hd1, hd2, hd3⟩ := hchildTake id hmem2
                exact ⟨d, hd1, by omega, by rw [hd3]; simp⟩
              · obtain ⟨d, hd1, hd2, hd3⟩ := hS'props id hmem2
                exact ⟨d, hd1, hd2, List.mem_cons_of_mem _ hd3⟩
    refine key _ (nodup_jsSetOf _) ?_
    intro sid hsid
    obtain ⟨s, -, rfl⟩ := List.mem_map.mp (mem_jsSetOf_iff.mp hsid)
    exact ⟨suiteKeyOf s, rfl⟩

/-! ### Coverage: every visited suite identity is emitted (C4, C9) -/

theorem mem_suitesGSuites_of_mem {chain : List SuiteKey} {p : SuiteId × Suite} {x : Suite} :
    ∀ {l : List Suite}, x ∈ l → p ∈ suiteGSuites chain x → p ∈ suitesGSuites chain l
  | y :: rest, hx, hp => by
    rw [suitesGSuites_cons]
    rcases List.mem_cons.mp hx with rfl | hmem
    · exact List.mem_append_left _ hp
    · exact List.mem_append_right _ (mem_suitesGSuites_of_mem hmem hp)

theorem mem_suitesGChildren_self {chain : List SuiteKey} {x : Suite} :
    ∀ {l : List Suite}, x ∈ l → (SuiteId.chain chain, x) ∈ suitesGChildren chain l
  | y :: rest, hx => by
    rw [show suitesGChildren chain (y :: rest) =
      suiteGChildren chain y ++ [(SuiteId.chain chain, y)] ++ suitesGChildren chain rest
      from rfl]
    rcases List.mem_cons.mp hx with rfl | hmem
    · exact List.mem_append_left _ (List.mem_append_right _ (by simp))
    · exact List.mem_append_right _ (mem_suitesGChildren_self hmem)

theorem mem_suitesGChildren_of_mem {chain : List SuiteKey} {p : SuiteId × Suite} {x : Suite} :
    ∀ {l : List Suite}, x ∈ l → p ∈ suiteGChildren chain x → p ∈ suitesGChildren chain l
  | y :: rest, hx, hp => by
    rw [show suitesGChildren chain (y :: rest) =
      suiteGChildren chain y ++ [(SuiteId.chain chain, y)] ++ suitesGChildren chain rest
      from rfl]
    rcases List.mem_cons.mp hx with rfl | hmem
    · exact List.mem_append_left _ (List.mem_append_left _ hp)
    · exact List.mem_append_right _ (mem_suitesGChildren_of_mem hmem hp)

theorem mem_forestGChildren_of_mem {p : SuiteId × Suite} {x : Suite} :
    ∀ {l : List Suite}, x ∈ l → p ∈ suiteGChildren [] x → p ∈ forestGChildren l
  | y :: rest, hx, hp => by
    rw [show forestGChildren (y :: rest) = suiteGChildren [] y ++ forestGChildren rest from rfl]
    rcases List.mem_cons.mp hx with rfl | hmem
    · exact List.mem_append_left _ hp
    · exact List.mem_append_right _ (mem_forestGChildren_of_mem hmem hp)

theorem mem_childrenOf {st : NormState} {sid : SuiteId} {x : Suite}
    (h : (sid, x) ∈ st.gSuiteChildren) : x ∈ childrenOf st sid := by
  rw [childrenOf]
  exact List.mem_map_of_mem _ (List.mem_filter.mpr ⟨h, by simp⟩)

theorem gSuitesGet_isSome_of_mem {st : NormState} {sid : SuiteId} {s : Suite}
    (h : (sid, s) ∈ st.gSuites) : ∃ s2, gSuitesGet st sid = some s2 := by
  rw [gSuitesGet]
  cases hl : (st.gSuites.filter (fun p => p.1 = sid)).getLast? with
  | none =>
    rw [List.getLast?_eq_none_iff] at hl
    have : (sid, s) ∈ st.gSuites.filter (fun p => p.1 = sid) :=
      List.mem_filter.mpr ⟨h, by simp⟩
    rw [hl] at this
    simp at this
  | some p => exact ⟨p.2, by simp⟩

theorem one_le_suiteHeight : ∀ s : Suite, 1 ≤ suiteHeight s
  | .mk _ _ _ none _ => le_refl 1
  | .mk _ _ _ (some _) _ => by
    rw [show suiteHeight (.mk _ _ _ (some _) _) = suitesHeight _ + 1 from rfl]
    omega

theorem suiteHeight_le_suitesHeight {x : Suite} :
    ∀ {l : List Suite}, x ∈ l → suiteHeight x ≤ suitesHeight l
  | y :: rest, hx => by
    rw [show suitesHeight (y :: rest) = max (suiteHeight y) (suitesHeight rest) from rfl]
    rcases List.mem_cons.mp hx with rfl | hmem
    · exact le_max_left _ _
    · exact le_trans (suiteHeight_le_suitesHeight hmem) (le_max_right _ _)

/-- Emission of the node for one bucket member: if a suite occurrence is an
element of the bucket list and its identity is registered in `gSuites`, then
`transformSuites` (with one step of fuel to spare) emits a node for its chain,
formed from the last-registered occurrence, which carries the same key. -/
theorem emitted_node_exists (r : Report) (U : List (Option EnvId)) (s : Suite)
    (parent : List SuiteKey) (L : List Suite) (fuel : Nat) (hmemL : s ∈ L)
    (hgs : (SuiteId.chain (computeSuiteChain s parent), s) ∈ (visitReport r).gSuites) :
    ∃ s2, gSuitesGet (visitReport r) (SuiteId.chain (computeSuiteChain s parent)) = some s2 ∧
      suiteKeyOf s2 = suiteKeyOf s ∧
      (Suite.mk s2.title s2.type s2.location
        (some (transformSuites r (visitReport r) U fuel (computeSuiteChain s parent)
          (childrenOf (visitReport r) (SuiteId.chain (computeSuiteChain s parent)))))
        (some (transformTests r (visitReport r) U (SuiteId.chain (computeSuiteChain s parent))
          (suiteTestsOf (visitReport r) (SuiteId.chain (computeSuiteChain s parent)))))) ∈
        transformSuites r (visitReport r) U (fuel + 1) parent L := by
  obtain ⟨s2, hget⟩ := gSuitesGet_isSome_of_mem hgs
  have hkey2 : suiteKeyOf s2 = suiteKeyOf s :=
    @gSuitesGet_key_last r parent (suiteKeyOf s) s2
      (by rw [show parent ++ [suiteKeyOf s] = computeSuiteChain s parent from rfl]; exact hget)
  refine ⟨s2, hget, hkey2, ?_⟩
  rw [transformSuites_succ]
  refine List.mem_filterMap.mpr ⟨SuiteId.chain (computeSuiteChain s parent), ?_, ?_⟩
  · exact mem_jsSetOf_iff.mpr (List.mem_map_of_mem _ hmemL)
  · simp only [emitSuite, hget]

mutual

/-- Coverage, node level: if a suite occurrence (whose visit-state entries are
all present in the report visit state) is an element of the bucket list handed
to `transformSuites` with enough fuel, then every identity of its subtree is
emitted, as a node whose tests are the merged bucket for that identity. -/
theorem cov_suite (r : Report) (U : List (Option EnvId)) :
    ∀ (s : Suite) (parent : List SuiteKey) (L : List Suite) (fuel : Nat),
      suiteHeight s ≤ fuel →
      s ∈ L →
      (∀ p ∈ suiteGSuites parent s, p ∈ (visitReport r).gSuites) →
      (∀ p ∈ suiteGChildren parent s, p ∈ (visitReport r).gSuiteChildren) →
      ∀ sid ∈ (suiteGSuites parent s).map Prod.fst,
        ∃ n, (sid, n) ∈ suitesGSuites parent
            (transformSuites r (visitReport r) U fuel parent L) ∧
          n.tests = some (transformTests r (visitReport r) U sid
            (suiteTestsOf (visitReport r) sid))
  | s, _, _, 0, hfuel, _, _, _ =>
    absurd (le_trans (one_le_suiteHeight s) hfuel) (by omega)
  | .mk t y lo none tests, parent, L, fuel + 1, hfuel, hmemL, hsub1, hsub2 => by
    intro sid hsid
    have hhead : (SuiteId.chain (computeSuiteChain (.mk t y lo none tests) parent),
        Suite.mk t y lo none tests) ∈ suiteGSuites parent (.mk t y lo none tests) := by
      rw [suiteGSuites_unfold]
      simp
    obtain ⟨s2, hget, hkey2, hnmem⟩ := emitted_node_exists r U (.mk t y lo none tests)
      parent L fuel hmemL (hsub1 _ hhead)
    rw [suiteGSuites_unfold] at hsid
    simp only [List.map_cons, List.mem_cons] at hsid
    rcases hsid with rfl | hdeep
    · refine ⟨Suite.mk s2.title s2.type s2.location
        (some (transformSuites r (visitReport r) U fuel
          (computeSuiteChain (.mk t y lo none tests) parent)
          (childrenOf (visitReport r)
            (SuiteId.chain (computeSuiteChain (.mk t y lo none tests) parent)))))
        (some (transformTests r (visitReport r) U
          (SuiteId.chain (computeSuiteChain (.mk t y lo none tests) parent))
          (suiteTestsOf (visitReport r)
            (SuiteId.chain (computeSuiteChain (.mk t y lo none tests) parent))))), ?_, rfl⟩
      refine mem_suitesGSuites_of_mem hnmem ?_
      rw [suiteGSuites_unfold,
        show computeSuiteChain (Suite.mk s2.title s2.type s2.location _ _) parent =
          parent ++ [suiteKeyOf s2] from rfl, hkey2]
      exact List.mem_cons_self _ _
    · rw [show (Suite.mk t y lo none tests).suites.getD [] = [] from rfl] at hdeep
      simp [suitesGSuites] at hdeep
  | .mk t y lo (some children) tests, parent, L, fuel + 1, hfuel, hmemL, hsub1, hsub2 => by
    intro sid hsid
    have hhead : (SuiteId.chain (computeSuiteChain (.mk t y lo (some children) tests) parent),
        Suite.mk t y lo (some children) tests) ∈
          suiteGSuites parent (.mk t y lo (some children) tests) := by
      rw [suiteGSuites_unfold]
      simp
    obtain ⟨s2, hget, hkey2, hnmem⟩ := emitted_node_exists r U (.mk t y lo (some children) tests)
      parent L fuel hmemL (hsub1 _ hhead)
    rw [suiteGSuites_unfold] at hsid
    simp only [List.map_cons, List.mem_cons] at hsid
    rcases hsid with rfl | hdeep
    · refine ⟨Suite.mk s2.title s2.type s2.location
        (some (transformSuites r (visitReport r) U fuel
          (computeSuiteChain (.mk t y lo (some children) tests) parent)
          (childrenOf (visitReport r)
            (SuiteId.chain (computeSuiteChain (.mk t y lo (some children) tests) parent)))))
        (some (transformTests r (visitReport r) U
          (SuiteId.chain (computeSuiteChain (.mk t y lo (some children) tests) parent))
          (suiteTestsOf (visitReport r)
            (SuiteId.chain (computeSuiteChain (.mk t y lo (some children) tests) parent))))), ?_, rfl⟩
      refine mem_suitesGSuites_of_mem hnmem ?_
      rw [suiteGSuites_unfold,
        show computeSuiteChain (Suite.mk s2.title s2.type s2.location _ _) parent =
          parent ++ [suiteKeyOf s2] from rfl, hkey2]
      exact List.mem_cons_self _ _
    · -- an identity deeper in the subtree: recurse into the children bucket
      rw [show (Suite.mk t y lo (some children) tests).suites.getD [] = children from rfl]
        at hdeep
      have hchainabbrev : computeSuiteChain (.mk t y lo (some children) tests) parent =
          parent ++ [suiteKeyOf (.mk t y lo (some children) tests)] := rfl
      have hfc : suitesHeight children ≤ fuel := by
        rw [show suiteHeight (.mk t y lo (some children) tests) =
          suitesHeight children + 1 from rfl] at hfuel
        omega
      have hmemLc : ∀ x ∈ children, x ∈ childrenOf (visitReport r)
          (SuiteId.chain (computeSuiteChain (.mk t y lo (some children) tests) parent)) := by
        intro x hx
        refine mem_childrenOf (hsub2 _ ?_)
        rw [show suiteGChildren parent (.mk t y lo (some children) tests) =
          suitesGChildren (computeSuiteChain (.mk t y lo (some children) tests) parent) children
          from rfl]
        exact mem_suitesGChildren_self hx
      have hsub1c : ∀ p ∈ suitesGSuites
          (computeSuiteChain (.mk t y lo (some children) tests) parent) children,
          p ∈ (visitReport r).gSuites := by
        intro p hp
        refine hsub1 p ?_
        rw [suiteGSuites_unfold]
        exact List.mem_cons_of_mem _ hp
      have hsub2c : ∀ x ∈ children, ∀ p ∈ suiteGChildren
          (computeSuiteChain (.mk t y lo (some children) tests) parent) x,
          p ∈ (visitReport r).gSuiteChildren := by
        intro x hx p hp
        refine hsub2 p ?_
        rw [show suiteGChildren parent (.mk t y lo (some children) tests) =
          suitesGChildren (computeSuiteChain (.mk t y lo (some children) tests) parent) children
          from rfl]
        exact mem_suitesGChildren_of_mem hx hp
      obtain ⟨n2, hn2mem, hn2tests⟩ := cov_forest r U children
        (computeSuiteChain (.mk t y lo (some children) tests) parent)
        (childrenOf (visitReport r)
          (SuiteId.chain (computeSuiteChain (.mk t y lo (some children) tests) parent)))
        fuel hfc hmemLc hsub1c hsub2c sid hdeep
      refine ⟨n2, ?_, hn2tests⟩
      refine mem_suitesGSuites_of_mem hnmem ?_
      rw [suiteGSuites_unfold,
        show computeSuiteChain (Suite.mk s2.title s2.type s2.location _ _) parent =
          parent ++ [suiteKeyOf s2] from rfl, hkey2]
      refine List.mem_cons_of_mem _ ?_
      rw [show (Suite.mk s2.title s2.type s2.location
        (some (transformSuites r (visitReport r) U fuel
          (computeSuiteChain (.mk t y lo (some children) tests) parent)
          (childrenOf (visitReport r)
            (SuiteId.chain (computeSuiteChain (.mk t y lo (some children) tests) parent)))))
        (some (transformTests r (visitReport r) U
          (SuiteId.chain (computeSuiteChain (.mk t y lo (some children) tests) parent))
          (suiteTestsOf (visitReport r)
            (SuiteId.chain (computeSuiteChain (.mk t y lo (some children) tests) parent)))))).suites.getD []
        = transformSuites r (visitReport r) U fuel
          (computeSuiteChain (.mk t y lo (some children) tests) parent)
          (childrenOf (visitReport r)
            (SuiteId.chain (computeSuiteChain (.mk t y lo (some children) tests) parent)))
        from rfl]
      exact hn2mem

theorem cov_forest (r : Report) (U : List (Option EnvId)) :
    ∀ (l : List Suite) (chain : List SuiteKey) (L : List Suite) (fuel : Nat),
      suitesHeight l ≤ fuel →
      (∀ x ∈ l, x ∈ L) →
      (∀ p ∈ suitesGSuites chain l, p ∈ (visitReport r).gSuites) →
      (∀ x ∈ l, ∀ p ∈ suiteGChildren chain x, p ∈ (visitReport r).gSuiteChildren) →
      ∀ sid ∈ (suitesGSuites chain l).map Prod.fst,
        ∃ n, (sid, n) ∈ suitesGSuites chain
            (transformSuites r (visitReport r) U fuel chain L) ∧
          n.tests = some (transformTests r (visitReport r) U sid
            (suiteTestsOf (visitReport r) sid))
  | [], _, _, _, _, _, _, _ => by intro sid hsid; simp [suitesGSuites] at hsid
  | x :: rest, chain, L, fuel, hfuel, hmemL, hsub1, hsub2 => by
    intro sid hsid
    rw [suitesGSuites_cons] at hsid
    simp only [List.map_append, List.mem_append] at hsid
    rcases hsid with h2 | h2
    · exact cov_suite r U x chain L fuel
        (le_trans (suiteHeight_le_suitesHeight (by simp)) hfuel)
        (hmemL x (by simp))
        (fun p hp => hsub1 p (by rw [suitesGSuites_cons]; exact List.mem_append_left _ hp))
        (hsub2 x (by simp)) sid h2
    · have hr : suitesHeight rest ≤ fuel := by
        rw [show suitesHeight (x :: rest) = max (suiteHeight x) (suitesHeight rest) from rfl]
          at hfuel
        omega
      exact cov_forest r U rest chain L fuel hr
        (fun z hz => hmemL z (by simp [hz]))
        (fun p hp => hsub1 p (by rw [suitesGSuites_cons]; exact List.mem_append_right _ hp))
        (fun z hz => hsub2 z (by simp [hz])) sid h2

end

/-- Claim C4 as stated is false: the suite identity hash also includes the
suite `type`.  Two top-level suites agreeing on parent, location file and
title but with types `'describe'` and `'file'` are NOT merged — normalization
emits two suite nodes. -/
theorem C4_counterexample :
    (normalizeReport
      { environments := []
        suites := [.mk "a" "describe" none none none, .mk "a" "file" none none none]
        tests := none
        meta := "" }).suites.length = 2 := by decide

/-- Claim C4, amended: a suite identity is derived from
`(parentSuiteId, type, file, title)`.  Any two input occurrences agreeing on
all four merge: in the normalized output every suite identity occurs at most
once (the identity list over the whole output tree has no duplicates), and
every input occurrence identity still occurs. -/
theorem C4_suite_identity (r : Report) :
    (((reportGSuites (normalizeReport r)).map Prod.fst).Nodup) ∧
    (∀ sid ∈ (reportGSuites r).map Prod.fst,
      sid ∈ (reportGSuites (normalizeReport r)).map Prod.fst) := by
  constructor
  · rw [reportGSuites, normalizeReport_def]
    exact (transformSuites_ids r ((visitReport r).usedEnvIds)
      (suitesHeight r.suites + 1) [] r.suites).1
  · intro sid hsid
    rw [reportGSuites] at hsid
    obtain ⟨n, hn, -⟩ := cov_forest r ((visitReport r).usedEnvIds) r.suites [] r.suites
      (suitesHeight r.suites + 1)
      (by omega)
      (fun x hx => hx)
      (by
        intro p hp
        rw [visitReport_eq]
        exact hp)
      (by
        intro x hx p hp
        rw [visitReport_eq]
        exact mem_forestGChildren_of_mem hx hp)
      sid hsid
    rw [reportGSuites, normalizeReport_def]
    exact List.mem_map.mpr ⟨(sid, n), hn, rfl⟩

/-- Witness for `C4_suite_identity`: two duplicate suites merge to one node
carrying the shared identity. -/
theorem C4_suite_identity_witness :
    SuiteId.chain [⟨"d", "", "a"⟩] ∈
      (reportGSuites (normalizeReport
        { environments := []
          suites := [.mk "a" "d" none none none, .mk "a" "d" none none none]
          tests := none
          meta := "" })).map Prod.fst :=
  (C4_suite_identity
    { environments := []
      suites := [.mk "a" "d" none none none, .mk "a" "d" none none none]
      tests := none
      meta := "" }).2 (SuiteId.chain [⟨"d", "", "a"⟩]) (by decide)

/-! ### Tag union and merged-test uniqueness (C9) -/

/-- Generic: mapping a left inverse over a `filterMap` of a duplicate-free
list is duplicate-free. -/
theorem nodup_filterMap_map {α β : Type} [DecidableEq α] (f : α → Option β) (g : β → α) :
    ∀ S : List α, (∀ a ∈ S, ∀ b, f a = some b → g b = a) → S.Nodup →
      ((S.filterMap f).map g).Nodup ∧ (∀ x ∈ (S.filterMap f).map g, x ∈ S)
  | [], _, _ => ⟨List.nodup_nil, by simp⟩
  | a :: S, hinv, hnd => by
    obtain ⟨hna, hnd'⟩ := List.nodup_cons.mp hnd
    obtain ⟨ih1, ih2⟩ := nodup_filterMap_map f g S
      (fun x hx => hinv x (List.mem_cons_of_mem _ hx)) hnd'
    rw [List.filterMap_cons]
    cases hfa : f a with
    | none => exact ⟨ih1, fun x hx => List.mem_cons_of_mem _ (ih2 x hx)⟩
    | some b =>
      have hga : g b = a := hinv a (by simp) b hfa
      rw [List.map_cons, hga]
      refine ⟨List.nodup_cons.mpr ⟨fun hmem => hna (ih2 _ hmem), ih1⟩, ?_⟩
      intro x hx
      rcases List.mem_cons.mp hx with rfl | hmem
      · simp
      · exact List.mem_cons_of_mem _ (ih2 x hmem)

mutual

theorem mem_suiteGTests_id :
    ∀ (parent : List SuiteKey) (s : Suite) (tid : TestId) (t : Test),
      (tid, t) ∈ suiteGTests parent s → ∃ X, tid = computeTestId t X
  | parent, .mk ti y l none tests, tid, t => by
    intro h
    rw [show suiteGTests parent (.mk ti y l none tests) =
      [] ++ (tests.getD []).map (fun test => (computeTestId test
        (.chain (computeSuiteChain (.mk ti y l none tests) parent)), test)) from rfl] at h
    simp only [List.nil_append] at h
    obtain ⟨test, hmem, heq⟩ := List.mem_map.mp h
    obtain ⟨h1, h2⟩ := Prod.mk.injEq .. ▸ heq
    subst h2
    exact ⟨_, h1.symm⟩
  | parent, .mk ti y l (some children) tests, tid, t => by
    intro h
    rw [show suiteGTests parent (.mk ti y l (some children) tests) =
      suitesGTests (computeSuiteChain (.mk ti y l (some children) tests) parent) children ++
      (tests.getD []).map (fun test => (computeTestId test
        (.chain (computeSuiteChain (.mk ti y l (some children) tests) parent)), test))
      from rfl] at h
    rcases List.mem_append.mp h with h2 | h2
    · exact mem_suitesGTests_id _ children tid t h2
    · obtain ⟨test, hmem, heq⟩ := List.mem_map.mp h2
      obtain ⟨h1, h3⟩ := Prod.mk.injEq .. ▸ heq
      subst h3
      exact ⟨_, h1.symm⟩

theorem mem_suitesGTests_id :
    ∀ (chain : List SuiteKey) (l : List Suite) (tid : TestId) (t : Test),
      (tid, t) ∈ suitesGTests chain l → ∃ X, tid = computeTestId t X
  | chain, [], tid, t => by intro h; simp [suitesGTests] at h
  | chain, s :: rest, tid, t => by
    intro h
    rw [show suitesGTests chain (s :: rest) =
      suiteGTests chain s ++ suitesGTests chain rest from rfl] at h
    rcases List.mem_append.mp h with h2 | h2
    · exact mem_suiteGTests_id chain s tid t h2
    · exact mem_suitesGTests_id chain rest tid t h2

end

/-- Every visited test occurrence key is recomputable from the occurrence and
its own suite component. -/
theorem mem_reportGTests_id {r : Report} {tid : TestId} {t : Test}
    (h : (tid, t) ∈ reportGTests r) : tid = computeTestId t tid.suiteId := by
  have hX : ∃ X, tid = computeTestId t X := by
    rw [reportGTests] at h
    rcases List.mem_append.mp h with h2 | h2
    · obtain ⟨test, hmem, heq⟩ := List.mem_map.mp h2
      obtain ⟨h1, h3⟩ := Prod.mk.injEq .. ▸ heq
      subst h3
      exact ⟨_, h1.symm⟩
    · exact mem_suitesGTests_id [] r.suites tid t h2
  obtain ⟨X, hX⟩ := hX
  rw [hX]
  rfl

/-- Inversion of `transformTest?`: location and title come from the head
occurrence, and every bucket occurrence tag is present in the merged test. -/
theorem transformTest?_shape {r : Report} {st : NormState} {U : List (Option EnvId)}
    {tid : TestId} {t' : Test} (h : transformTest? r st U tid = some t') :
    ∃ t0 rest, gTestsGetAll st tid = t0 :: rest ∧
      t'.title = t0.title ∧ t'.location = t0.location ∧
      (∀ t ∈ gTestsGetAll st tid, ∀ x ∈ t.tags.getD [], x ∈ t'.tags.getD []) := by
  rcases hbucket : gTestsGetAll st tid with _ | ⟨t0, rest⟩
  · rw [transformTest?, hbucket] at h
    simp at h
  · rw [transformTest?, hbucket] at h
    simp only [Option.some.injEq] at h
    subst h
    refine ⟨t0, rest, rfl, rfl, rfl, ?_⟩
    intro t hmem x hx
    have hflat : x ∈ (((t0 :: rest).map (fun t => t.tags.getD [])).flatten) :=
      List.mem_flatten.mpr ⟨t.tags.getD [], List.mem_map_of_mem _ hmem, hx⟩
    show x ∈ (if (((t0 :: rest).map (fun t => t.tags.getD [])).flatten).isEmpty then none
      else some (((t0 :: rest).map (fun t => t.tags.getD [])).flatten)).getD []
    split
    · rename_i hemp
      rw [List.isEmpty_iff] at hemp
      rw [hemp] at hflat
      simp at hflat
    · simpa using hflat

/-- The merged test recomputes, in any suite context `X`, to the key with the
file and title of the identity it was merged for. -/
theorem transformTest?_recompute {r : Report} {U : List (Option EnvId)}
    {tid : TestId} {t' : Test}
    (h : transformTest? r (visitReport r) U tid = some t') (X : SuiteId) :
    computeTestId t' X = ⟨X, tid.file, tid.title⟩ := by
  obtain ⟨t0, rest, hbucket, htitle, hloc, -⟩ := transformTest?_shape h
  have ht0 : (tid, t0) ∈ (visitReport r).gTests :=
    mem_gTestsGetAll.mp (by rw [hbucket]; simp)
  rw [visitReport_eq] at ht0
  have hid := mem_reportGTests_id ht0
  rw [computeTestId, htitle, hloc]
  rw [show tid.file = (t0.location.map (fun l => l.file)).getD "" from
    congrArg TestId.file hid,
    show tid.title = t0.title from congrArg TestId.title hid]

theorem suitesGTests_cons (chain : List SuiteKey) (s : Suite) (l : List Suite) :
    suitesGTests chain (s :: l) = suiteGTests chain s ++ suitesGTests chain l := rfl

theorem suiteGTests_unfold (parent : List SuiteKey) :
    ∀ s : Suite, suiteGTests parent s =
      suitesGTests (computeSuiteChain s parent) (s.suites.getD []) ++
      (s.tests.getD []).map (fun test =>
        (computeTestId test (.chain (computeSuiteChain s parent)), test))
  | .mk _ _ _ none _ => rfl
  | .mk _ _ _ (some _) _ => rfl

theorem suitesGSuiteTests_cons (chain : List SuiteKey) (s : Suite) (l : List Suite) :
    suitesGSuiteTests chain (s :: l) = suiteGSuiteTests chain s ++ suitesGSuiteTests chain l := rfl

theorem suiteGSuiteTests_unfold (parent : List SuiteKey) :
    ∀ s : Suite, suiteGSuiteTests parent s =
      suitesGSuiteTests (computeSuiteChain s parent) (s.suites.getD []) ++
      (s.tests.getD []).map (fun test => (SuiteId.chain (computeSuiteChain s parent), test))
  | .mk _ _ _ none _ => rfl
  | .mk _ _ _ (some _) _ => rfl

mutual

/-- A visited test occurrence under a suite chain has a matching
`gSuiteTests` bucket entry and a suite occurrence carrying its chain. -/
theorem suiteGTests_cases :
    ∀ (parent : List SuiteKey) (s : Suite) (tid : TestId) (t : Test),
      (tid, t) ∈ suiteGTests parent s →
      ∃ c s₀, tid.suiteId = SuiteId.chain c ∧
        (SuiteId.chain c, s₀) ∈ suiteGSuites parent s ∧
        (SuiteId.chain c, t) ∈ suiteGSuiteTests parent s
  | parent, s, tid, t => by
    intro h
    rw [suiteGTests_unfold] at h
    rcases List.mem_append.mp h with h2 | h2
    · match s, h2 with
      | .mk ti y lo (some children) tests, h2 =>
        obtain ⟨c, s₀, hc, hs₀, ht⟩ := suitesGTests_cases _ children tid t h2
        refine ⟨c, s₀, hc, ?_, ?_⟩
        · rw [suiteGSuites_unfold]
          exact List.mem_cons_of_mem _ hs₀
        · rw [suiteGSuiteTests_unfold]
          exact List.mem_append_left _ ht
    · obtain ⟨test, hmem, heq⟩ := List.mem_map.mp h2
      obtain ⟨h1, h3⟩ := Prod.mk.injEq .. ▸ heq
      subst h3
      refine ⟨computeSuiteChain s parent, s, by rw [← h1]; rfl, ?_, ?_⟩
      · rw [suiteGSuites_unfold]
        exact List.mem_cons_self _ _
      · rw [suiteGSuiteTests_unfold]
        exact List.mem_append_right _ (List.mem_map_of_mem _ hmem)

theorem suitesGTests_cases :
    ∀ (chain : List SuiteKey) (l : List Suite) (tid : TestId) (t : Test),
      (tid, t) ∈ suitesGTests chain l →
      ∃ c s₀, tid.suiteId = SuiteId.chain c ∧
        (SuiteId.chain c, s₀) ∈ suitesGSuites chain l ∧
        (SuiteId.chain c, t) ∈ suitesGSuiteTests chain l
  | chain, [], tid, t => by intro h; simp [suitesGTests] at h
  | chain, s :: rest, tid, t => by
    intro h
    rw [suitesGTests_cons] at h
    rcases List.mem_append.mp h with h2 | h2
    · obtain ⟨c, s₀, hc, hs₀, ht⟩ := suiteGTests_cases chain s tid t h2
      exact ⟨c, s₀, hc, by rw [suitesGSuites_cons]; exact List.mem_append_left _ hs₀,
        by rw [suitesGSuiteTests_cons]; exact List.mem_append_left _ ht⟩
    · obtain ⟨c, s₀, hc, hs₀, ht⟩ := suitesGTests_cases chain rest tid t h2
      exact ⟨c, s₀, hc, by rw [suitesGSuites_cons]; exact List.mem_append_right _ hs₀,
        by rw [suitesGSuiteTests_cons]; exact List.mem_append_right _ ht⟩

end

/-- A visited test occurrence is either a top-level test under the sentinel,
or sits under a suite chain present in the visit state. -/
theorem reportGTests_cases {r : Report} {tid : TestId} {t : Test}
    (h : (tid, t) ∈ reportGTests r) :
    (tid.suiteId = SuiteId.suiteless ∧ t ∈ r.tests.getD []) ∨
    (∃ c s₀, tid.suiteId = SuiteId.chain c ∧
      (SuiteId.chain c, s₀) ∈ reportGSuites r ∧
      (SuiteId.chain c, t) ∈ reportGSuiteTests r) := by
  rw [reportGTests] at h
  rcases List.mem_append.mp h with h2 | h2
  · obtain ⟨test, hmem, heq⟩ := List.mem_map.mp h2
    obtain ⟨h1, h3⟩ := Prod.mk.injEq .. ▸ heq
    subst h3
    exact Or.inl ⟨by rw [← h1]; rfl, hmem⟩
  · obtain ⟨c, s₀, hc, hs₀, ht⟩ := suitesGTests_cases [] r.suites tid t h2
    exact Or.inr ⟨c, s₀, hc, hs₀, by
      rw [reportGSuiteTests]
      exact List.mem_append_right _ ht⟩

theorem mem_suiteTestsOf {st : NormState} {sid : SuiteId} {t : Test}
    (h : (sid, t) ∈ st.gSuiteTests) : t ∈ suiteTestsOf st sid := by
  rw [suiteTestsOf]
  exact List.mem_map_of_mem _ (List.mem_filter.mpr ⟨h, by simp⟩)

theorem transformTest?_isSome_of_mem {r : Report} {st : NormState} {U : List (Option EnvId)}
    {tid : TestId} {t : Test} (h : t ∈ gTestsGetAll st tid) :
    ∃ t', transformTest? r st U tid = some t' := by
  rcases hbucket : gTestsGetAll st tid with _ | ⟨t0, rest⟩
  · rw [hbucket] at h
    simp at h
  · rw [transformTest?, hbucket]
    exact ⟨_, rfl⟩

/-- Pairing-collector projection. -/
theorem map_fst_pairs {β : Type} (l : List Test) (f : Test → β) :
    ((l.map (fun test => (f test, test))).map Prod.fst) = l.map f := by
  simp [List.map_map, Function.comp]

/-- A member of a `jsSetOf` bucket-identity list carries the bucket suite id. -/
theorem mem_bucket_ids_suiteId {sid : SuiteId} {tid : TestId} {tests : List Test}
    (h : tid ∈ jsSetOf (tests.map (fun t => computeTestId t sid))) : tid.suiteId = sid := by
  obtain ⟨t, -, rfl⟩ := List.mem_map.mp (mem_jsSetOf_iff.mp h)
  rfl

/-- Identities of the tests emitted by `transformSuites`: pairwise distinct,
and each under a suite chain extending a top-level emitted chain. -/
theorem transformSuites_testIds (r : Report) (U : List (Option EnvId)) :
    ∀ (fuel : Nat) (parent : List SuiteKey) (suites : List Suite),
      (((suitesGTests parent
          (transformSuites r (visitReport r) U fuel parent suites)).map Prod.fst).Nodup) ∧
      (∀ tid ∈ (suitesGTests parent
          (transformSuites r (visitReport r) U fuel parent suites)).map Prod.fst,
        ∃ d, tid.suiteId = SuiteId.chain d ∧ parent.length < d.length ∧
          SuiteId.chain (d.take (parent.length + 1)) ∈
            jsSetOf (suites.map (fun s => SuiteId.chain (computeSuiteChain s parent)))) := by
  intro fuel
  induction fuel with
  | zero =>
    intro parent suites
    exact ⟨by simp [transformSuites, suitesGTests], by simp [transformSuites, suitesGTests]⟩
  | succ fuel ih =>
    intro parent suites
    rw [transformSuites_succ]
    have key : ∀ S : List SuiteId, S.Nodup →
        (∀ sid ∈ S, ∃ k, sid = SuiteId.chain (parent ++ [k])) →
        (((suitesGTests parent
            (S.filterMap (emitSuite r (visitReport r) U fuel))).map Prod.fst).Nodup) ∧
        (∀ tid ∈ (suitesGTests parent
            (S.filterMap (emitSuite r (visitReport r) U fuel))).map Prod.fst,
          ∃ d, tid.suiteId = SuiteId.chain d ∧ parent.length < d.length ∧
            SuiteId.chain (d.take (parent.length + 1)) ∈ S) := by
      intro S
      induction S with
      | nil =>
        intro _ _
        exact ⟨by simp [suitesGTests], by simp [suitesGTests]⟩
      | cons sid S' ihS =>
        intro hnd hform
        obtain ⟨hnotin, hnd'⟩ := List.nodup_cons.mp hnd
        obtain ⟨hS'nd, hS'props⟩ := ihS hnd' (fun x hx => hform x (List.mem_cons_of_mem _ hx))
        cases hemit : emitSuite r (visitReport r) U fuel sid with
        | none =>
          rw [List.filterMap_cons, hemit]
          refine ⟨hS'nd, ?_⟩
          intro tid htid
          obtain ⟨d, hd1, hd2, hd3⟩ := hS'props tid htid
          exact ⟨d, hd1, hd2, List.mem_cons_of_mem _ hd3⟩
        | some n =>
          rw [List.filterMap_cons, hemit]
          obtain ⟨k, rfl⟩ := hform sid (by simp)
          obtain ⟨s, hget, hn⟩ := emitSuite_eq_some hemit
          have hkey : suiteKeyOf s = k := gSuitesGet_key_last hget
          have hchain : computeSuiteChain n parent = parent ++ [k] := by
            rw [hn]
            show parent ++ [suiteKeyOf s] = _
            rw [hkey]
          have hsuites : n.suites.getD [] =
              transformSuites r (visitReport r) U fuel (parent ++ [k])
                (childrenOf (visitReport r) (SuiteId.chain (parent ++ [k]))) := by
            rw [hn]
            rfl
          have htests : n.tests.getD [] =
              transformTests r (visitReport r) U (SuiteId.chain (parent ++ [k]))
                (suiteTestsOf (visitReport r) (SuiteId.chain (parent ++ [k]))) := by
            rw [hn]
            rfl
          -- bucket-identity list for this node
          have hnodeIds : ((n.tests.getD []).map (fun test =>
              computeTestId test (SuiteId.chain (parent ++ [k])))).Nodup ∧
              (∀ tid ∈ (n.tests.getD []).map (fun test =>
                computeTestId test (SuiteId.chain (parent ++ [k]))),
                tid ∈ jsSetOf ((suiteTestsOf (visitReport r)
                  (SuiteId.chain (parent ++ [k]))).map
                    (fun t => computeTestId t (SuiteId.chain (parent ++ [k]))))) := by
            rw [htests, transformTests]
            exact nodup_filterMap_map _ _ _
              (by
                intro tid htid t' hsome
                have hsid := mem_bucket_ids_suiteId htid
                rw [transformTest?_recompute hsome]
                rw [← hsid])
              (nodup_jsSetOf _)
          have hids : (suitesGTests parent
              (n :: S'.filterMap (emitSuite r (visitReport r) U fuel))).map Prod.fst =
              ((suitesGTests (parent ++ [k])
                (transformSuites r (visitReport r) U fuel (parent ++ [k])
                  (childrenOf (visitReport r) (SuiteId.chain (parent ++ [k]))))).map Prod.fst ++
               (n.tests.getD []).map (fun test =>
                 computeTestId test (SuiteId.chain (parent ++ [k])))) ++
              (suitesGTests parent
               (S'.filterMap (emitSuite r (visitReport r) U fuel))).map Prod.fst := by
            rw [suitesGTests_cons, suiteGTests_unfold, hchain, hsuites]
            rw [List.map_append, List.map_append, map_fst_pairs]
          obtain ⟨hchildNd, hchildProps⟩ := ih (parent ++ [k])
            (childrenOf (visitReport r) (SuiteId.chain (parent ++ [k])))
          have hchildTake : ∀ tid ∈ (suitesGTests (parent ++ [k])
              (transformSuites r (visitReport r) U fuel (parent ++ [k])
                (childrenOf (visitReport r) (SuiteId.chain (parent ++ [k]))))).map Prod.fst,
              ∃ d, tid.suiteId = SuiteId.chain d ∧ parent.length + 1 < d.length ∧
                d.take (parent.length + 1) = parent ++ [k] := by
            intro tid htid
            obtain ⟨d, hd1, hd2, hd3⟩ := hchildProps tid htid
            rw [show (parent ++ [k]).length = parent.length + 1 by simp] at hd2 hd3
            obtain ⟨s', -, hs'⟩ := List.mem_map.mp (mem_jsSetOf_iff.mp hd3)
            have htake2 : d.take (parent.length + 1 + 1) = (parent ++ [k]) ++ [suiteKeyOf s'] :=
              (SuiteId.chain.inj hs').symm
            refine ⟨d, hd1, hd2, ?_⟩
            have h1 : d.take (parent.length + 1) =
                (d.take (parent.length + 1 + 1)).take (parent.length + 1) := by
              rw [List.take_take]
              simp [Nat.min_def]
            rw [h1, htake2]
            rw [show parent.length + 1 = (parent ++ [k]).length from by simp]
            exact List.take_left _ _
          have hnodeSid : ∀ tid ∈ (n.tests.getD []).map (fun test =>
              computeTestId test (SuiteId.chain (parent ++ [k]))),
              tid.suiteId = SuiteId.chain (parent ++ [k]) := by
            intro tid htid
            exact mem_bucket_ids_suiteId (hnodeIds.2 tid htid)
          rw [hids]
          constructor
          · rw [List.nodup_append]
            refine ⟨?_, hS'nd, ?_⟩
            · rw [List.nodup_append]
              refine ⟨hchildNd, hnodeIds.1, ?_⟩
              intro tid htidc htidn
              obtain ⟨d, hd1, hd2, -⟩ := hchildTake tid htidc
              have := hnodeSid tid htidn
              rw [hd1] at this
              have hdk : d = parent ++ [k] := SuiteId.chain.inj this
              subst hdk
              simp at hd2
            · intro tid htid1 htid2
              obtain ⟨d', hd'1, -, hd'3⟩ := hS'props tid htid2
              rcases List.mem_append.mp htid1 with htidc | htidn
              · obtain ⟨d, hd1, -, hd3⟩ := hchildTake tid htidc
                rw [hd1] at hd'1
                have : d = d' := SuiteId.chain.inj hd'1
                subst this
                rw [hd3] at hd'3
                exact hnotin hd'3
              · have hsid := hnodeSid tid htidn
                rw [hsid] at hd'1
                have : parent ++ [k] = d' := SuiteId.chain.inj hd'1
                subst this
                rw [show (parent ++ [k]).take (parent.length + 1) = parent ++ [k] from by
                  rw [show parent.length + 1 = (parent ++ [k]).length from by simp,
                    List.take_length]] at hd'3
                exact hnotin hd'3
          · intro tid htid
            rcases List.mem_append.mp htid with htid1 | htid2
            · rcases List.mem_append.mp htid1 with htidc | htidn
              · obtain ⟨d, hd1, hd2, hd3⟩ := hchildTake tid htidc
                exact ⟨d, hd1, by omega, by rw [hd3]; simp⟩
              · refine ⟨parent ++ [k], hnodeSid tid htidn, by simp, ?_⟩
                rw [show (parent ++ [k]).take (parent.length + 1) = parent ++ [k] from by
                  rw [show parent.length + 1 = (parent ++ [k]).length from by simp,
                    List.take_length]]
                simp
            · obtain ⟨d, hd1, hd2, hd3⟩ := hS'props tid htid2
              exact ⟨d, hd1, hd2, List.mem_cons_of_mem _ hd3⟩
    refine key _ (nodup_jsSetOf _) ?_
    intro sid hsid
    obtain ⟨s, -, rfl⟩ := List.mem_map.mp (mem_jsSetOf_iff.mp hsid)
    exact ⟨suiteKeyOf s, rfl⟩

mutual

/-- Any test of a node occurring in a suite subtree is recorded in the
subtree's `gTests` entries under the node's identity. -/
theorem node_test_in_suiteGTests :
    ∀ (parent : List SuiteKey) (s : Suite) (sid : SuiteId) (n : Suite) (x : Test),
      (sid, n) ∈ suiteGSuites parent s → x ∈ n.tests.getD [] →
      (computeTestId x sid, x) ∈ suiteGTests parent s
  | parent, .mk ti y lo none tests, sid, n, x => by
    intro hmem hx
    rw [suiteGSuites_unfold] at hmem
    rcases List.mem_cons.mp hmem with he | hm
    · obtain ⟨h1, h3⟩ := Prod.mk.injEq .. ▸ he
      subst h3
      rw [suiteGTests_unfold]
      refine List.mem_append_right _ ?_
      rw [h1]
      exact List.mem_map.mpr ⟨x, hx, rfl⟩
    · exact absurd hm (by simp [suitesGSuites])
  | parent, .mk ti y lo (some children) tests, sid, n, x => by
    intro hmem hx
    rw [suiteGSuites_unfold] at hmem
    rcases List.mem_cons.mp hmem with he | hm
    · obtain ⟨h1, h3⟩ := Prod.mk.injEq .. ▸ he
      subst h3
      rw [suiteGTests_unfold]
      refine List.mem_append_right _ ?_
      rw [h1]
      exact List.mem_map.mpr ⟨x, hx, rfl⟩
    · rw [suiteGTests_unfold]
      exact List.mem_append_left _
        (node_test_in_suitesGTests _ children sid n x hm hx)

theorem node_test_in_suitesGTests :
    ∀ (chain : List SuiteKey) (l : List Suite) (sid : SuiteId) (n : Suite) (x : Test),
      (sid, n) ∈ suitesGSuites chain l → x ∈ n.tests.getD [] →
      (computeTestId x sid, x) ∈ suitesGTests chain l
  | chain, [], sid, n, x => by
    intro h _
    simp [suitesGSuites] at h
  | chain, s :: rest, sid, n, x => by
    intro hmem hx
    rw [suitesGSuites_cons] at hmem
    rw [suitesGTests_cons]
    rcases List.mem_append.mp hmem with h | h
    · exact List.mem_append_left _ (node_test_in_suiteGTests chain s sid n x h hx)
    · exact List.mem_append_right _ (node_test_in_suitesGTests chain rest sid n x h hx)

end

theorem node_test_in_reportGTests {r : Report} {sid : SuiteId} {n : Suite} {x : Test}
    (h : (sid, n) ∈ reportGSuites r) (hx : x ∈ n.tests.getD []) :
    (computeTestId x sid, x) ∈ reportGTests r := by
  rw [reportGTests]
  exact List.mem_append_right _ (node_test_in_suitesGTests [] r.suites sid n x h hx)

/-- In a pair list whose keys are duplicate-free, a key determines its value. -/
theorem key_unique {α β : Type} {k : α} {b1 b2 : β} :
    ∀ {l : List (α × β)}, (l.map Prod.fst).Nodup → (k, b1) ∈ l → (k, b2) ∈ l → b1 = b2 := by
  intro l
  induction l with
  | nil =>
    intro _ h1 _
    exact absurd h1 (List.not_mem_nil _)
  | cons a l2 ih =>
    intro hnd h1 h2
    rw [List.map_cons, List.nodup_cons] at hnd
    obtain ⟨hna, hnd2⟩ := hnd
    rcases List.mem_cons.mp h1 with h1e | h1m
    · rcases List.mem_cons.mp h2 with h2e | h2m
      · exact (Prod.mk.injEq .. ▸ h1e.trans h2e.symm).2
      · exfalso
        apply hna
        rw [← h1e]
        exact List.mem_map.mpr ⟨(k, b2), h2m, rfl⟩
    · rcases List.mem_cons.mp h2 with h2e | h2m
      · exfalso
        apply hna
        rw [← h2e]
        exact List.mem_map.mpr ⟨(k, b1), h1m, rfl⟩
      · exact ih hnd2 h1m h2m

/-- The merged tests of a whole normalized report have pairwise distinct
identities: each identity occurs at most once in the output. -/
theorem output_testIds_nodup (r : Report) :
    ((reportGTests (normalizeReport r)).map Prod.fst).Nodup := by
  obtain ⟨htopNd, htopMem⟩ := nodup_filterMap_map
    (transformTest? r (visitReport r) ((visitReport r).usedEnvIds))
    (fun t => computeTestId t SuiteId.suiteless)
    (jsSetOf ((r.tests.getD []).map (fun t => computeTestId t SuiteId.suiteless)))
    (by
      intro tid htid t' hsome
      have hsid := mem_bucket_ids_suiteId htid
      show computeTestId t' SuiteId.suiteless = tid
      rw [transformTest?_recompute hsome, ← hsid])
    (nodup_jsSetOf _)
  obtain ⟨hsNd, hsProps⟩ := transformSuites_testIds r ((visitReport r).usedEnvIds)
    (suitesHeight r.suites + 1) [] r.suites
  rw [reportGTests, List.map_append, map_fst_pairs]
  rw [show (normalizeReport r).tests.getD [] =
    transformTests r (visitReport r) ((visitReport r).usedEnvIds) SuiteId.suiteless
      (r.tests.getD []) from rfl, transformTests]
  rw [show (normalizeReport r).suites =
    transformSuites r (visitReport r) ((visitReport r).usedEnvIds)
      (suitesHeight r.suites + 1) [] r.suites from rfl]
  rw [List.nodup_append]
  refine ⟨htopNd, hsNd, ?_⟩
  intro tid htid1 htid2
  have hsid1 := mem_bucket_ids_suiteId (htopMem tid htid1)
  obtain ⟨d, hd1, -, -⟩ := hsProps tid htid2
  rw [hsid1] at hd1
  exact SuiteId.noConfusion hd1

/-- Claim C9: if two input occurrences of the same logical test (same suite
identity, same location file, same title — i.e. the same `computeTestId` key)
carry tags `[a]` and `[b]`, then the normalized report contains exactly one
merged test for that identity, and its tags contain both `a` and `b`. -/
theorem C9_tag_union (r : Report) (tid : TestId) (t1 t2 : Test) (a b : String)
    (h1 : (tid, t1) ∈ reportGTests r) (h2 : (tid, t2) ∈ reportGTests r)
    (ht1 : t1.tags = some [a]) (ht2 : t2.tags = some [b]) :
    ∃ t', (tid, t') ∈ reportGTests (normalizeReport r) ∧
      (∀ t'', (tid, t'') ∈ reportGTests (normalizeReport r) → t'' = t') ∧
      a ∈ t'.tags.getD [] ∧ b ∈ t'.tags.getD [] := by
  have hg1 : (tid, t1) ∈ (visitReport r).gTests := by rw [visitReport_eq]; exact h1
  have hg2 : (tid, t2) ∈ (visitReport r).gTests := by rw [visitReport_eq]; exact h2
  have hb1 : t1 ∈ gTestsGetAll (visitReport r) tid := mem_gTestsGetAll.mpr hg1
  obtain ⟨t', hsome⟩ := @transformTest?_isSome_of_mem r (visitReport r)
    ((visitReport r).usedEnvIds) tid t1 hb1
  obtain ⟨t0, rest, hbucket, -, -, htags⟩ := transformTest?_shape hsome
  have ha : a ∈ t'.tags.getD [] := htags t1 hb1 a (by rw [ht1]; simp)
  have hbtag : b ∈ t'.tags.getD [] :=
    htags t2 (mem_gTestsGetAll.mpr hg2) b (by rw [ht2]; simp)
  have hid := mem_reportGTests_id h1
  have hkey : computeTestId t' tid.suiteId = tid := by
    rw [transformTest?_recompute hsome tid.suiteId]
  have hmem' : (tid, t') ∈ reportGTests (normalizeReport r) := by
    rcases reportGTests_cases h1 with ⟨hsl, hmemtop⟩ | ⟨c, s₀, hc, hs₀, hst⟩
    · have htid : tid ∈ jsSetOf ((r.tests.getD []).map
          (fun t => computeTestId t SuiteId.suiteless)) := by
        refine mem_jsSetOf_iff.mpr (List.mem_map.mpr ⟨t1, hmemtop, ?_⟩)
        rw [← hsl]
        exact hid.symm
      have hout : t' ∈ (normalizeReport r).tests.getD [] := by
        rw [show (normalizeReport r).tests.getD [] =
          transformTests r (visitReport r) ((visitReport r).usedEnvIds) SuiteId.suiteless
            (r.tests.getD []) from rfl, transformTests]
        exact List.mem_filterMap.mpr ⟨tid, htid, hsome⟩
      rw [reportGTests]
      refine List.mem_append_left _ (List.mem_map.mpr ⟨t', hout, ?_⟩)
      rw [show computeTestId t' SuiteId.suiteless = tid from by rw [← hsl]; exact hkey]
    · have hst' : (SuiteId.chain c, t1) ∈ (visitReport r).gSuiteTests := by
        rw [visitReport_eq]
        exact hst
      have ht1b : t1 ∈ suiteTestsOf (visitReport r) (SuiteId.chain c) := mem_suiteTestsOf hst'
      obtain ⟨n, hn, hntests⟩ := cov_forest r ((visitReport r).usedEnvIds) r.suites [] r.suites
        (suitesHeight r.suites + 1)
        (by omega)
        (fun x hx => hx)
        (by
          intro p hp
          rw [visitReport_eq]
          exact hp)
        (by
          intro x hx p hp
          rw [visitReport_eq]
          exact mem_forestGChildren_of_mem hx hp)
        (SuiteId.chain c) (List.mem_map.mpr ⟨(SuiteId.chain c, s₀), hs₀, rfl⟩)
      have hnr : (SuiteId.chain c, n) ∈ reportGSuites (normalizeReport r) := by
        rw [reportGSuites, show (normalizeReport r).suites =
          transformSuites r (visitReport r) ((visitReport r).usedEnvIds)
            (suitesHeight r.suites + 1) [] r.suites from rfl]
        exact hn
      have hout : t' ∈ n.tests.getD [] := by
        rw [hntests, Option.getD_some, transformTests]
        refine List.mem_filterMap.mpr ⟨tid, ?_, hsome⟩
        refine mem_jsSetOf_iff.mpr (List.mem_map.mpr ⟨t1, ht1b, ?_⟩)
        rw [← hc]
        exact hid.symm
      have hfin := node_test_in_reportGTests hnr hout
      rw [show computeTestId t' (SuiteId.chain c) = tid from by rw [← hc]; exact hkey] at hfin
      exact hfin
  refine ⟨t', hmem', ?_, ha, hbtag⟩
  intro t'' h''
  exact key_unique (output_testIds_nodup r) h'' hmem'

/-- Witness for `C9_tag_union`: two top-level occurrences of the test `"t"`
with tags `["a"]` and `["b"]` merge into one output test carrying both. -/
theorem C9_tag_union_witness :
    ∃ t', (⟨SuiteId.suiteless, "", "t"⟩, t') ∈ reportGTests (normalizeReport
        { environments := []
          suites := []
          tests := some [⟨"t", none, some ["a"], []⟩, ⟨"t", none, some ["b"], []⟩]
          meta := "" }) ∧
      (∀ t'', (⟨SuiteId.suiteless, "", "t"⟩, t'') ∈ reportGTests (normalizeReport
        { environments := []
          suites := []
          tests := some [⟨"t", none, some ["a"], []⟩, ⟨"t", none, some ["b"], []⟩]
          meta := "" }) → t'' = t') ∧
      "a" ∈ t'.tags.getD [] ∧ "b" ∈ t'.tags.getD [] :=
  C9_tag_union
    { environments := []
      suites := []
      tests := some [⟨"t", none, some ["a"], []⟩, ⟨"t", none, some ["b"], []⟩]
      meta := "" }
    ⟨SuiteId.suiteless, "", "t"⟩
    ⟨"t", none, some ["a"], []⟩ ⟨"t", none, some ["b"], []⟩ "a" "b"
    (by decide) (by decide) (by decide) (by decide)

/-! ### Idempotence of normalization (C2) -/

theorem mapSuites_cons (r : Report) (U : List (Option EnvId)) (s : Suite) (l : List Suite) :
    mapSuites r U (s :: l) = mapSuite r U s :: mapSuites r U l := rfl

theorem mapSuite_unfold (r : Report) (U : List (Option EnvId)) :
    ∀ s : Suite, mapSuite r U s =
      .mk s.title s.type s.location (some (mapSuites r U (s.suites.getD [])))
        (some ((s.tests.getD []).map (mapTest r U)))
  | .mk _ _ _ none _ => rfl
  | .mk _ _ _ (some _) _ => rfl

theorem Report.ext2 {a b : Report} (h1 : a.environments = b.environments)
    (h2 : a.suites = b.suites) (h3 : a.tests = b.tests) (h4 : a.meta = b.meta) : a = b := by
  cases a
  cases b
  cases h1
  cases h2
  cases h3
  cases h4
  rfl

theorem filter_key_nil {α β : Type} [DecidableEq α] {k : α} :
    ∀ l : List (α × β), k ∉ l.map Prod.fst → l.filter (fun p => p.1 = k) = []
  | [], _ => rfl
  | a :: l2, h => by
    have h1 : ¬(a.1 = k) := by
      intro hh
      exact h (by rw [← hh]; exact List.mem_map.mpr ⟨a, by simp, rfl⟩)
    rw [List.filter_cons, if_neg (by simpa using h1)]
    exact filter_key_nil l2 (fun hh => h (List.mem_cons_of_mem _ hh))

theorem filter_key_singleton {α β : Type} [DecidableEq α] {k : α} :
    ∀ (l : List (α × β)) (x : α × β), (l.map Prod.fst).Nodup → x ∈ l → x.1 = k →
      l.filter (fun p => p.1 = k) = [x]
  | [], x, _, hx, _ => absurd hx (List.not_mem_nil x)
  | a :: l2, x, hnd, hx, hxk => by
    rw [List.map_cons, List.nodup_cons] at hnd
    obtain ⟨hna, hnd2⟩ := hnd
    rcases List.mem_cons.mp hx with rfl | hmem
    · rw [List.filter_cons, if_pos (by simpa using hxk)]
      rw [filter_key_nil l2 (by rw [← hxk]; exact hna)]
    · have h1 : ¬(a.1 = k) := by
        intro hh
        apply hna
        rw [hh, ← hxk]
        exact List.mem_map.mpr ⟨x, hmem, rfl⟩
      rw [List.filter_cons, if_neg (by simpa using h1)]
      exact filter_key_singleton l2 x hnd2 hmem hxk

theorem foldl_jsSetInsert_nodup [DecidableEq α] :
    ∀ (l acc : List α), l.Nodup → (∀ x ∈ l, x ∉ acc) → l.foldl jsSetInsert acc = acc ++ l
  | [], acc, _, _ => by simp
  | x :: rest, acc, hnd, hdisj => by
    rw [List.foldl_cons]
    obtain ⟨hnx, hnd2⟩ := List.nodup_cons.mp hnd
    rw [show jsSetInsert acc x = acc ++ [x] from by
      rw [jsSetInsert, if_neg (hdisj x (by simp))]]
    rw [foldl_jsSetInsert_nodup rest (acc ++ [x]) hnd2 (by
      intro z hz
      simp only [List.mem_append, List.mem_singleton]
      rintro (hza | rfl)
      · exact hdisj z (by simp [hz]) hza
      · exact hnx hz)]
    simp

theorem jsSetOf_eq_self [DecidableEq α] {l : List α} (h : l.Nodup) : jsSetOf l = l := by
  rw [jsSetOf, foldl_jsSetInsert_nodup l [] h (by simp)]
  simp

theorem filterMap_eq_map_of_some {α β : Type} (f : α → Option β) (g : α → β) :
    ∀ l : List α, (∀ x ∈ l, f x = some (g x)) → l.filterMap f = l.map g
  | [], _ => rfl
  | x :: rest, h => by
    rw [List.filterMap_cons, h x (by simp), List.map_cons,
      filterMap_eq_map_of_some f g rest (fun z hz => h z (by simp [hz]))]

theorem gSuitesGet_of_nodup {r : Report} {sid : SuiteId} {s : Suite}
    (hnd : ((reportGSuites r).map Prod.fst).Nodup)
    (h : (sid, s) ∈ reportGSuites r) :
    gSuitesGet (visitReport r) sid = some s := by
  rw [gSuitesGet, show (visitReport r).gSuites = reportGSuites r from by rw [visitReport_eq],
    filter_key_singleton (reportGSuites r) (sid, s) hnd h rfl]
  simp

theorem gTestsGetAll_of_nodup {r : Report} {tid : TestId} {t : Test}
    (hnd : ((reportGTests r).map Prod.fst).Nodup)
    (h : (tid, t) ∈ reportGTests r) :
    gTestsGetAll (visitReport r) tid = [t] := by
  rw [gTestsGetAll, show (visitReport r).gTests = reportGTests r from by rw [visitReport_eq],
    filter_key_singleton (reportGTests r) (tid, t) hnd h rfl]
  rfl

theorem transformTest?_singleton {r : Report} {st : NormState} {U : List (Option EnvId)}
    {tid : TestId} {t : Test} (h : gTestsGetAll st tid = [t]) :
    transformTest? r st U tid = some (mapTest r U t) := by
  rw [transformTest?, h]
  simp [mapTest]

theorem transformTests_eq_map {r : Report} {st : NormState} {U : List (Option EnvId)}
    {sid : SuiteId} {L : List Test}
    (hnd : (L.map (fun t => computeTestId t sid)).Nodup)
    (hb : ∀ t ∈ L, gTestsGetAll st (computeTestId t sid) = [t]) :
    transformTests r st U sid L = L.map (mapTest r U) := by
  rw [transformTests, jsSetOf_eq_self hnd, List.filterMap_map]
  exact filterMap_eq_map_of_some _ _ L (fun t ht => by
    show transformTest? r st U (computeTestId t sid) = some (mapTest r U t)
    exact transformTest?_singleton (hb t ht))

mutual

/-- Every suite occurrence key in a subtree is a chain strictly longer than
the parent chain. -/
theorem suiteGSuites_len :
    ∀ (parent : List SuiteKey) (x : Suite) (p : SuiteId × Suite),
      p ∈ suiteGSuites parent x → ∃ d, p.1 = SuiteId.chain d ∧ parent.length < d.length
  | parent, .mk ti y lo none te, p => by
    intro h
    rw [suiteGSuites_unfold] at h
    rcases List.mem_cons.mp h with rfl | hm
    · exact ⟨computeSuiteChain (.mk ti y lo none te) parent, rfl, by
        rw [show computeSuiteChain (.mk ti y lo none te) parent =
          parent ++ [suiteKeyOf (.mk ti y lo none te)] from rfl]
        simp⟩
    · exact absurd hm (by simp [suitesGSuites])
  | parent, .mk ti y lo (some children) te, p => by
    intro h
    rw [suiteGSuites_unfold] at h
    rcases List.mem_cons.mp h with rfl | hm
    · exact ⟨computeSuiteChain (.mk ti y lo (some children) te) parent, rfl, by
        rw [show computeSuiteChain (.mk ti y lo (some children) te) parent =
          parent ++ [suiteKeyOf (.mk ti y lo (some children) te)] from rfl]
        simp⟩
    · obtain ⟨d, hd1, hd2⟩ := suitesGSuites_len _ children p hm
      refine ⟨d, hd1, ?_⟩
      rw [show computeSuiteChain (.mk ti y lo (some children) te) parent =
        parent ++ [suiteKeyOf (.mk ti y lo (some children) te)] from rfl] at hd2
      simp only [List.length_append, List.length_singleton] at hd2
      omega

theorem suitesGSuites_len :
    ∀ (chain : List SuiteKey) (l : List Suite) (p : SuiteId × Suite),
      p ∈ suitesGSuites chain l → ∃ d, p.1 = SuiteId.chain d ∧ chain.length < d.length
  | chain, [], p => by
    intro h
    simp [suitesGSuites] at h
  | chain, x :: rest, p => by
    intro h
    rw [suitesGSuites_cons] at h
    rcases List.mem_append.mp h with h2 | h2
    · exact suiteGSuites_len chain x p h2
    · exact suitesGSuites_len chain rest p h2

end

theorem chain_self_not_mem_suite {cc : List SuiteKey} {c : Suite} :
    SuiteId.chain cc ∉ (suiteGSuites cc c).map Prod.fst := by
  intro h
  obtain ⟨p, hp, hfst⟩ := List.mem_map.mp h
  obtain ⟨d, hd1, hd2⟩ := suiteGSuites_len cc c p hp
  rw [hd1] at hfst
  have hdc : d = cc := SuiteId.chain.inj hfst
  rw [hdc] at hd2
  omega

theorem chain_self_not_mem_suites {cc : List SuiteKey} {l : List Suite} :
    SuiteId.chain cc ∉ (suitesGSuites cc l).map Prod.fst := by
  intro h
  obtain ⟨p, hp, hfst⟩ := List.mem_map.mp h
  obtain ⟨d, hd1, hd2⟩ := suitesGSuites_len cc l p hp
  rw [hd1] at hfst
  have hdc : d = cc := SuiteId.chain.inj hfst
  rw [hdc] at hd2
  omega

mutual

/-- If a suite identity never occurs in a subtree, the subtree contributes no
`gSuiteChildren` entry under that key. -/
theorem childFilter_nil_suite {sid : SuiteId} :
    ∀ (parent : List SuiteKey) (x : Suite),
      sid ∉ (suiteGSuites parent x).map Prod.fst →
      (suiteGChildren parent x).filter (fun p => p.1 = sid) = []
  | parent, .mk ti y lo none te, _ => rfl
  | parent, .mk ti y lo (some children) te, h => by
    have h2 : sid ∉ (suitesGSuites
        (computeSuiteChain (.mk ti y lo (some children) te) parent) children).map Prod.fst := by
      intro hh
      apply h
      rw [suiteGSuites_unfold, List.map_cons]
      exact List.mem_cons_of_mem _ hh
    have h3 : sid ≠ SuiteId.chain
        (computeSuiteChain (.mk ti y lo (some children) te) parent) := by
      intro hh
      apply h
      rw [suiteGSuites_unfold, List.map_cons, hh]
      exact List.mem_cons_self _ _
    exact childFilter_nil_suites _ children h3 h2

theorem childFilter_nil_suites {sid : SuiteId} :
    ∀ (chain : List SuiteKey) (l : List Suite),
      sid ≠ SuiteId.chain chain →
      sid ∉ (suitesGSuites chain l).map Prod.fst →
      (suitesGChildren chain l).filter (fun p => p.1 = sid) = []
  | chain, [], _, _ => rfl
  | chain, c :: rest, hne, h => by
    rw [show suitesGChildren chain (c :: rest) = suiteGChildren chain c ++
      [(SuiteId.chain chain, c)] ++ suitesGChildren chain rest from rfl,
      List.filter_append, List.filter_append]
    rw [childFilter_nil_suite chain c (fun hh => h (by
      rw [suitesGSuites_cons, List.map_append]
      exact List.mem_append_left _ hh))]
    rw [show ([(SuiteId.chain chain, c)].filter (fun p => p.1 = sid)) = [] from by
      rw [List.filter_cons, if_neg (by simpa using fun hh => hne hh.symm)]
      rfl]
    rw [childFilter_nil_suites chain rest hne (fun hh => h (by
      rw [suitesGSuites_cons, List.map_append]
      exact List.mem_append_right _ hh))]
    rfl

end

/-- The `gSuiteChildren` entries of a child list under its own parent chain key
are exactly the children in order. -/
theorem childFilter_own (cc : List SuiteKey) :
    ∀ l : List Suite,
      (suitesGChildren cc l).filter (fun p => p.1 = SuiteId.chain cc) =
        l.map (fun c => (SuiteId.chain cc, c))
  | [] => rfl
  | c :: rest => by
    rw [show suitesGChildren cc (c :: rest) = suiteGChildren cc c ++
      [(SuiteId.chain cc, c)] ++ suitesGChildren cc rest from rfl,
      List.filter_append, List.filter_append]
    rw [childFilter_nil_suite cc c chain_self_not_mem_suite]
    rw [show ([(SuiteId.chain cc, c)].filter (fun p => p.1 = SuiteId.chain cc)) =
      [(SuiteId.chain cc, c)] from by
      rw [List.filter_cons, if_pos (by simp)]
      rfl]
    rw [childFilter_own cc rest]
    simp

mutual

/-- If a suite identity occurs exactly once in a subtree, its `gSuiteChildren`
entries in that subtree are exactly the occurrence's children. -/
theorem childFilter_suite {sid : SuiteId} {s : Suite} :
    ∀ (parent : List SuiteKey) (x : Suite),
      ((suiteGSuites parent x).map Prod.fst).Nodup →
      (sid, s) ∈ suiteGSuites parent x →
      ((suiteGChildren parent x).filter (fun p => p.1 = sid)).map (·.2) = s.suites.getD []
  | parent, .mk ti y lo none te, hnd, hmem => by
    rw [suiteGSuites_unfold] at hmem
    rcases List.mem_cons.mp hmem with he | hm
    · obtain ⟨h1, h3⟩ := Prod.mk.injEq .. ▸ he
      subst h3
      rfl
    · exact absurd hm (by simp [suitesGSuites])
  | parent, .mk ti y lo (some children) te, hnd, hmem => by
    rw [suiteGSuites_unfold] at hmem
    rw [suiteGSuites_unfold, List.map_cons, List.nodup_cons] at hnd
    obtain ⟨hhead, hnd2⟩ := hnd
    rcases List.mem_cons.mp hmem with he | hm
    · obtain ⟨h1, h3⟩ := Prod.mk.injEq .. ▸ he
      subst h3
      rw [show suiteGChildren parent (.mk ti y lo (some children) te) = suitesGChildren
        (computeSuiteChain (.mk ti y lo (some children) te) parent) children from rfl]
      rw [h1, childFilter_own]
      simp [List.map_map]
      rfl
    · have hne : sid ≠ SuiteId.chain
          (computeSuiteChain (.mk ti y lo (some children) te) parent) := by
        intro hh
        apply hhead
        rw [← hh]
        exact List.mem_map.mpr ⟨(sid, s), hm, rfl⟩
      exact childFilter_suites _ children hne hnd2 hm

theorem childFilter_suites {sid : SuiteId} {s : Suite} :
    ∀ (chain : List SuiteKey) (l : List Suite),
      sid ≠ SuiteId.chain chain →
      ((suitesGSuites chain l).map Prod.fst).Nodup →
      (sid, s) ∈ suitesGSuites chain l →
      ((suitesGChildren chain l).filter (fun p => p.1 = sid)).map (·.2) = s.suites.getD []
  | chain, [], _, _, hmem => absurd hmem (by simp [suitesGSuites])
  | chain, c :: rest, hne, hnd, hmem => by
    rw [suitesGSuites_cons] at hmem
    rw [suitesGSuites_cons, List.map_append, List.nodup_append] at hnd
    obtain ⟨hnd1, hnd2, hdisj⟩ := hnd
    rw [show suitesGChildren chain (c :: rest) = suiteGChildren chain c ++
      [(SuiteId.chain chain, c)] ++ suitesGChildren chain rest from rfl,
      List.filter_append, List.filter_append]
    rw [show ([(SuiteId.chain chain, c)].filter (fun p => p.1 = sid)) = [] from by
      rw [List.filter_cons, if_neg (by simpa using fun hh => hne hh.symm)]
      rfl]
    rcases List.mem_append.mp hmem with hm | hm
    · rw [childFilter_nil_suites chain rest hne
        (fun hh => hdisj (List.mem_map.mpr ⟨(sid, s), hm, rfl⟩) hh)]
      rw [List.append_nil, List.append_nil]
      exact childFilter_suite chain c hnd1 hm
    · rw [childFilter_nil_suite chain c
        (fun hh => hdisj hh (List.mem_map.mpr ⟨(sid, s), hm, rfl⟩))]
      rw [List.nil_append, List.nil_append]
      exact childFilter_suites chain rest hne hnd2 hm

end

theorem childFilter_forest_nil {sid : SuiteId} :
    ∀ l : List Suite, sid ∉ (suitesGSuites [] l).map Prod.fst →
      (forestGChildren l).filter (fun p => p.1 = sid) = []
  | [], _ => rfl
  | c :: rest, h => by
    rw [show forestGChildren (c :: rest) =
      suiteGChildren [] c ++ forestGChildren rest from rfl, List.filter_append]
    rw [childFilter_nil_suite [] c (fun hh => h (by
      rw [suitesGSuites_cons, List.map_append]
      exact List.mem_append_left _ hh))]
    rw [childFilter_forest_nil rest (fun hh => h (by
      rw [suitesGSuites_cons, List.map_append]
      exact List.mem_append_right _ hh))]
    rfl

theorem childFilter_forest {sid : SuiteId} {s : Suite} :
    ∀ l : List Suite, ((suitesGSuites [] l).map Prod.fst).Nodup →
      (sid, s) ∈ suitesGSuites [] l →
      ((forestGChildren l).filter (fun p => p.1 = sid)).map (·.2) = s.suites.getD []
  | [], _, hmem => absurd hmem (by simp [suitesGSuites])
  | c :: rest, hnd, hmem => by
    rw [suitesGSuites_cons] at hmem
    rw [suitesGSuites_cons, List.map_append, List.nodup_append] at hnd
    obtain ⟨hnd1, hnd2, hdisj⟩ := hnd
    rw [show forestGChildren (c :: rest) =
      suiteGChildren [] c ++ forestGChildren rest from rfl, List.filter_append]
    rcases List.mem_append.mp hmem with hm | hm
    · rw [childFilter_forest_nil rest
        (fun hh => hdisj (List.mem_map.mpr ⟨(sid, s), hm, rfl⟩) hh)]
      rw [List.append_nil]
      exact childFilter_suite [] c hnd1 hm
    · rw [childFilter_nil_suite [] c
        (fun hh => hdisj hh (List.mem_map.mpr ⟨(sid, s), hm, rfl⟩))]
      rw [List.nil_append]
      exact childFilter_forest rest hnd2 hm

/-- Under globally duplicate-free suite identities, the children bucket of an
occurrence is exactly its own `suites` list. -/
theorem childrenOf_of_nodup {r : Report} {sid : SuiteId} {s : Suite}
    (hnd : ((reportGSuites r).map Prod.fst).Nodup)
    (h : (sid, s) ∈ reportGSuites r) :
    childrenOf (visitReport r) sid = s.suites.getD [] := by
  rw [childrenOf, show (visitReport r).gSuiteChildren = reportGChildren r from by
    rw [visitReport_eq], reportGChildren]
  exact childFilter_forest r.suites hnd h

theorem filter_const_key_ne {α β : Type} [DecidableEq α] {k sid : α} (hne : ¬(k = sid)) :
    ∀ l : List β, ((l.map (fun t => (k, t))).filter (fun p => p.1 = sid)) = []
  | [] => rfl
  | x :: rest => by
    rw [List.map_cons, List.filter_cons, if_neg (by simpa using hne)]
    exact filter_const_key_ne hne rest

theorem filter_const_key_eq {α β : Type} [DecidableEq α] {k : α} :
    ∀ l : List β, ((l.map (fun t => (k, t))).filter (fun p => p.1 = k)) =
      l.map (fun t => (k, t))
  | [] => rfl
  | x :: rest => by
    rw [List.map_cons, List.filter_cons, if_pos (by simp)]
    rw [filter_const_key_eq rest]

mutual

/-- If a suite identity never occurs in a subtree, the subtree contributes no
`gSuiteTests` entry under that key. -/
theorem testFilter_nil_suite {sid : SuiteId} :
    ∀ (parent : List SuiteKey) (x : Suite),
      sid ∉ (suiteGSuites parent x).map Prod.fst →
      (suiteGSuiteTests parent x).filter (fun p => p.1 = sid) = []
  | parent, .mk ti y lo none te, h => by
    have h3 : ¬(SuiteId.chain (computeSuiteChain (.mk ti y lo none te) parent) = sid) := by
      intro hh
      apply h
      rw [suiteGSuites_unfold, List.map_cons, ← hh]
      exact List.mem_cons_self _ _
    rw [suiteGSuiteTests_unfold, List.filter_append]
    rw [show (suitesGSuiteTests (computeSuiteChain (.mk ti y lo none te) parent)
      (((.mk ti y lo none te : Suite)).suites.getD [])).filter (fun p => p.1 = sid) = []
      from rfl]
    rw [filter_const_key_ne h3]
    rfl
  | parent, .mk ti y lo (some children) te, h => by
    have h3 : ¬(SuiteId.chain (computeSuiteChain (.mk ti y lo (some children) te) parent)
        = sid) := by
      intro hh
      apply h
      rw [suiteGSuites_unfold, List.map_cons, ← hh]
      exact List.mem_cons_self _ _
    have h2 : sid ∉ (suitesGSuites
        (computeSuiteChain (.mk ti y lo (some children) te) parent) children).map Prod.fst := by
      intro hh
      apply h
      rw [suiteGSuites_unfold, List.map_cons]
      exact List.mem_cons_of_mem _ hh
    rw [suiteGSuiteTests_unfold, List.filter_append]
    simp only [show ((Suite.mk ti y lo (some children) te : Suite)).suites.getD [] =
      children from rfl]
    rw [testFilter_nil_suites _ children h2, filter_const_key_ne h3]
    rfl

theorem testFilter_nil_suites {sid : SuiteId} :
    ∀ (chain : List SuiteKey) (l : List Suite),
      sid ∉ (suitesGSuites chain l).map Prod.fst →
      (suitesGSuiteTests chain l).filter (fun p => p.1 = sid) = []
  | chain, [], _ => rfl
  | chain, c :: rest, h => by
    rw [suitesGSuiteTests_cons, List.filter_append]
    rw [testFilter_nil_suite chain c (fun hh => h (by
      rw [suitesGSuites_cons, List.map_append]
      exact List.mem_append_left _ hh))]
    rw [testFilter_nil_suites chain rest (fun hh => h (by
      rw [suitesGSuites_cons, List.map_append]
      exact List.mem_append_right _ hh))]
    rfl

end

mutual

/-- If a suite identity occurs exactly once in a subtree, its `gSuiteTests`
entries in that subtree are exactly the occurrence's tests. -/
theorem testFilter_suite {sid : SuiteId} {s : Suite} :
    ∀ (parent : List SuiteKey) (x : Suite),
      ((suiteGSuites parent x).map Prod.fst).Nodup →
      (sid, s) ∈ suiteGSuites parent x →
      ((suiteGSuiteTests parent x).filter (fun p => p.1 = sid)).map (·.2) = s.tests.getD []
  | parent, .mk ti y lo none te, hnd, hmem => by
    rw [suiteGSuites_unfold] at hmem
    rcases List.mem_cons.mp hmem with he | hm
    · obtain ⟨h1, h3⟩ := Prod.mk.injEq .. ▸ he
      subst h3
      rw [suiteGSuiteTests_unfold, List.filter_append]
      rw [show (suitesGSuiteTests (computeSuiteChain (.mk ti y lo none te) parent)
        (((.mk ti y lo none te : Suite)).suites.getD [])).filter (fun p => p.1 = sid) = []
        from rfl]
      rw [h1, filter_const_key_eq]
      simp [List.map_map]
    · exact absurd hm (by simp [suitesGSuites])
  | parent, .mk ti y lo (some children) te, hnd, hmem => by
    rw [suiteGSuites_unfold] at hmem
    rw [suiteGSuites_unfold, List.map_cons, List.nodup_cons] at hnd
    obtain ⟨hhead, hnd2⟩ := hnd
    rcases List.mem_cons.mp hmem with he | hm
    · obtain ⟨h1, h3⟩ := Prod.mk.injEq .. ▸ he
      subst h3
      rw [suiteGSuiteTests_unfold, List.filter_append]
      simp only [show ((Suite.mk ti y lo (some children) te : Suite)).suites.getD [] =
        children from rfl]
      rw [testFilter_nil_suites _ children (by
        rw [h1]
        exact chain_self_not_mem_suites)]
      rw [h1, filter_const_key_eq]
      simp [List.map_map]
    · have hne : ¬(SuiteId.chain
          (computeSuiteChain (.mk ti y lo (some children) te) parent) = sid) := by
        intro hh
        apply hhead
        rw [hh]
        exact List.mem_map.mpr ⟨(sid, s), hm, rfl⟩
      rw [suiteGSuiteTests_unfold, List.filter_append]
      rw [filter_const_key_ne hne, List.append_nil]
      exact testFilter_suites _ children hnd2 hm

theorem testFilter_suites {sid : SuiteId} {s : Suite} :
    ∀ (chain : List SuiteKey) (l : List Suite),
      ((suitesGSuites chain l).map Prod.fst).Nodup →
      (sid, s) ∈ suitesGSuites chain l →
      ((suitesGSuiteTests chain l).filter (fun p => p.1 = sid)).map (·.2) = s.tests.getD []
  | chain, [], _, hmem => absurd hmem (by simp [suitesGSuites])
  | chain, c :: rest, hnd, hmem => by
    rw [suitesGSuites_cons] at hmem
    rw [suitesGSuites_cons, List.map_append, List.nodup_append] at hnd
    obtain ⟨hnd1, hnd2, hdisj⟩ := hnd
    rw [suitesGSuiteTests_cons, List.filter_append]
    rcases List.mem_append.mp hmem with hm | hm
    · rw [testFilter_nil_suites chain rest
        (fun hh => hdisj (List.mem_map.mpr ⟨(sid, s), hm, rfl⟩) hh)]
      rw [List.append_nil]
      exact testFilter_suite chain c hnd1 hm
    · rw [testFilter_nil_suite chain c
        (fun hh => hdisj hh (List.mem_map.mpr ⟨(sid, s), hm, rfl⟩))]
      rw [List.nil_append]
      exact testFilter_suites chain rest hnd2 hm

end

/-- Under globally duplicate-free suite identities, the tests bucket of a
suite occurrence is exactly its own `tests` list. -/
theorem suiteTestsOf_of_nodup {r : Report} {sid : SuiteId} {s : Suite}
    (hnd : ((reportGSuites r).map Prod.fst).Nodup)
    (h : (sid, s) ∈ reportGSuites r) :
    suiteTestsOf (visitReport r) sid = s.tests.getD [] := by
  obtain ⟨pc, hpc⟩ := suitesGSuites_key [] r.suites sid s h
  rw [suiteTestsOf, show (visitReport r).gSuiteTests = reportGSuiteTests r from by
    rw [visitReport_eq], reportGSuiteTests, List.filter_append]
  rw [@filter_const_key_ne SuiteId Test _ SuiteId.suiteless sid (by rw [hpc]; simp)]
  rw [List.nil_append]
  exact testFilter_suites [] r.suites hnd h

theorem mapSuites_eq_map (r : Report) (U : List (Option EnvId)) :
    ∀ L : List Suite, mapSuites r U L = L.map (mapSuite r U)
  | [] => rfl
  | s :: rest => by
    rw [mapSuites_cons, List.map_cons, mapSuites_eq_map r U rest]

theorem suitesHeight_children_lt : ∀ s : Suite, suitesHeight (s.suites.getD []) < suiteHeight s
  | .mk _ _ _ none _ => by
    show suitesHeight [] < 1
    simp [suitesHeight]
  | .mk _ _ _ (some children) _ => by
    show suitesHeight children < suitesHeight children + 1
    omega

theorem suiteGSuites_sublist {chain : List SuiteKey} {x : Suite} :
    ∀ {L : List Suite}, x ∈ L → List.Sublist (suiteGSuites chain x) (suitesGSuites chain L)
  | y :: rest, hx => by
    rw [suitesGSuites_cons]
    rcases List.mem_cons.mp hx with rfl | hm
    · exact List.sublist_append_left _ _
    · exact (suiteGSuites_sublist hm).trans (List.sublist_append_right _ _)

theorem suiteGTests_sublist {chain : List SuiteKey} {x : Suite} :
    ∀ {L : List Suite}, x ∈ L → List.Sublist (suiteGTests chain x) (suitesGTests chain L)
  | y :: rest, hx => by
    rw [suitesGTests_cons]
    rcases List.mem_cons.mp hx with rfl | hm
    · exact List.sublist_append_left _ _
    · exact (suiteGTests_sublist hm).trans (List.sublist_append_right _ _)

theorem idkey_sublist (parent : List SuiteKey) :
    ∀ L : List Suite, List.Sublist
      (L.map (fun s => SuiteId.chain (computeSuiteChain s parent)))
      ((suitesGSuites parent L).map Prod.fst)
  | [] => List.nil_sublist _
  | s :: rest => by
    rw [List.map_cons, suitesGSuites_cons, List.map_append, suiteGSuites_unfold, List.map_cons]
    exact List.Sublist.cons₂ _ ((idkey_sublist parent rest).trans (List.sublist_append_right _ _))

/-- Structure theorem: when every suite identity and every test identity of
the report occurs exactly once, the rebuilding phase is the pointwise mapping
`mapSuites` — nothing is merged or reordered. -/
theorem transformSuites_eq_mapSuites (r : Report) (U : List (Option EnvId))
    (hs : ((reportGSuites r).map Prod.fst).Nodup)
    (ht : ((reportGTests r).map Prod.fst).Nodup) :
    ∀ (fuel : Nat) (parent : List SuiteKey) (L : List Suite),
      suitesHeight L < fuel →
      List.Sublist (suitesGSuites parent L) (reportGSuites r) →
      List.Sublist (suitesGTests parent L) (reportGTests r) →
      transformSuites r (visitReport r) U fuel parent L = mapSuites r U L := by
  intro fuel
  induction fuel with
  | zero =>
    intro parent L hh _ _
    exact absurd hh (by omega)
  | succ f ih =>
    intro parent L hh hsubS hsubT
    rw [transformSuites_succ]
    have hkeysNd : (L.map (fun s => SuiteId.chain (computeSuiteChain s parent))).Nodup :=
      (hs.sublist ((idkey_sublist parent L).trans (hsubS.map Prod.fst)))
    rw [jsSetOf_eq_self hkeysNd, List.filterMap_map, mapSuites_eq_map]
    apply filterMap_eq_map_of_some
    intro s hsL
    show emitSuite r (visitReport r) U f (SuiteId.chain (computeSuiteChain s parent)) =
      some (mapSuite r U s)
    have hocc : (SuiteId.chain (computeSuiteChain s parent), s) ∈ reportGSuites r := by
      refine hsubS.subset ((suiteGSuites_sublist hsL).subset ?_)
      rw [suiteGSuites_unfold]
      exact List.mem_cons_self _ _
    have hget := gSuitesGet_of_nodup hs hocc
    have hch := childrenOf_of_nodup hs hocc
    have hte := suiteTestsOf_of_nodup hs hocc
    have hemit : emitSuite r (visitReport r) U f
        (SuiteId.chain (computeSuiteChain s parent)) =
        some (Suite.mk s.title s.type s.location
          (some (transformSuites r (visitReport r) U f (computeSuiteChain s parent)
            (childrenOf (visitReport r) (SuiteId.chain (computeSuiteChain s parent)))))
          (some (transformTests r (visitReport r) U
            (SuiteId.chain (computeSuiteChain s parent))
            (suiteTestsOf (visitReport r)
              (SuiteId.chain (computeSuiteChain s parent)))))) := by
      simp only [emitSuite, hget]
    rw [hemit, hch, hte]
    have hrec : transformSuites r (visitReport r) U f (computeSuiteChain s parent)
        (s.suites.getD []) = mapSuites r U (s.suites.getD []) := by
      refine ih (computeSuiteChain s parent) (s.suites.getD []) ?_ ?_ ?_
      · have h1 := suitesHeight_children_lt s
        have h2 := suiteHeight_le_suitesHeight hsL
        omega
      · refine (?_ : List.Sublist _ (suiteGSuites parent s)).trans
          ((suiteGSuites_sublist hsL).trans hsubS)
        rw [suiteGSuites_unfold]
        exact List.sublist_cons_self _ _
      · refine (?_ : List.Sublist _ (suiteGTests parent s)).trans
          ((suiteGTests_sublist hsL).trans hsubT)
        rw [suiteGTests_unfold]
        exact List.sublist_append_left _ _
    have htt : transformTests r (visitReport r) U
        (SuiteId.chain (computeSuiteChain s parent)) (s.tests.getD []) =
        (s.tests.getD []).map (mapTest r U) := by
      have htp : List.Sublist ((s.tests.getD []).map (fun t =>
          (computeTestId t (SuiteId.chain (computeSuiteChain s parent)), t)))
          (reportGTests r) := by
        refine (?_ : List.Sublist _ (suiteGTests parent s)).trans
          ((suiteGTests_sublist hsL).trans hsubT)
        rw [suiteGTests_unfold]
        exact List.sublist_append_right _ _
      refine transformTests_eq_map ?_ ?_
      · have := (htp.map Prod.fst)
        rw [map_fst_pairs] at this
        exact ht.sublist this
      · intro t htmem
        exact gTestsGetAll_of_nodup ht
          (htp.subset (List.mem_map.mpr ⟨t, htmem, rfl⟩))
    rw [hrec, htt, mapSuite_unfold]

/-- Under duplicate-free identities, `normalizeReport` is the pointwise
normal-form mapping of the whole report. -/
theorem normalizeReport_eq_map (r : Report)
    (hs : ((reportGSuites r).map Prod.fst).Nodup)
    (ht : ((reportGTests r).map Prod.fst).Nodup) :
    normalizeReport r = { r with
      environments := ((visitReport r).usedEnvIds).filterMap
        (fun oid => oid.bind (gEnvsGet r))
      suites := mapSuites r ((visitReport r).usedEnvIds) r.suites
      tests := some ((r.tests.getD []).map (mapTest r ((visitReport r).usedEnvIds))) } := by
  rw [normalizeReport_def]
  have hsu : transformSuites r (visitReport r) ((visitReport r).usedEnvIds)
      (suitesHeight r.suites + 1) [] r.suites =
      mapSuites r ((visitReport r).usedEnvIds) r.suites := by
    refine transformSuites_eq_mapSuites r _ hs ht _ [] r.suites (by omega) ?_ ?_
    · exact List.Sublist.refl _
    · rw [reportGTests]
      exact List.sublist_append_right _ _
  have htt : transformTests r (visitReport r) ((visitReport r).usedEnvIds)
      SuiteId.suiteless (r.tests.getD []) =
      (r.tests.getD []).map (mapTest r ((visitReport r).usedEnvIds)) := by
    have htp : List.Sublist ((r.tests.getD []).map (fun t =>
        (computeTestId t SuiteId.suiteless, t))) (reportGTests r) := by
      rw [reportGTests]
      exact List.sublist_append_left _ _
    refine transformTests_eq_map ?_ ?_
    · have := (htp.map Prod.fst)
      rw [map_fst_pairs] at this
      exact ht.sublist this
    · intro t htmem
      exact gTestsGetAll_of_nodup ht (htp.subset (List.mem_map.mpr ⟨t, htmem, rfl⟩))
  rw [hsu, htt]

mutual

theorem suiteTestsSeq_mapSuite (r : Report) (U : List (Option EnvId)) :
    ∀ s : Suite, suiteTestsSeq (mapSuite r U s) = (suiteTestsSeq s).map (mapTest r U)
  | .mk ti y lo none te => rfl
  | .mk ti y lo (some children) te => by
    show suitesTestsSeq (mapSuites r U children) ++ ((te.getD []).map (mapTest r U)) =
      (suitesTestsSeq children ++ te.getD []).map (mapTest r U)
    rw [suitesTestsSeq_mapSuites r U children, List.map_append]

theorem suitesTestsSeq_mapSuites (r : Report) (U : List (Option EnvId)) :
    ∀ l : List Suite, suitesTestsSeq (mapSuites r U l) = (suitesTestsSeq l).map (mapTest r U)
  | [] => rfl
  | s :: rest => by
    show suiteTestsSeq (mapSuite r U s) ++ suitesTestsSeq (mapSuites r U rest) =
      (suiteTestsSeq s ++ suitesTestsSeq rest).map (mapTest r U)
    rw [suiteTestsSeq_mapSuite r U s, suitesTestsSeq_mapSuites r U rest, List.map_append]

end

theorem testsAttempts_map (r : Report) (U : List (Option EnvId)) (L : List Test) :
    testsAttempts (L.map (mapTest r U)) = (testsAttempts L).map (fun a =>
      { a with environmentIdx := jsIndexOf (envIdAt r a.environmentIdx) U }) := by
  rw [testsAttempts, testsAttempts, List.map_map, List.map_flatten, List.map_map]
  rfl

theorem getLast?_filter_self {α : Type} [DecidableEq α] {e : α} :
    ∀ l : List α, e ∈ l → (l.filter (fun x => x = e)).getLast? = some e
  | a :: rest, h => by
    by_cases hmem : e ∈ rest
    · have ih := getLast?_filter_self rest hmem
      rw [List.filter_cons]
      split
      · rcases hf : rest.filter (fun x => x = e) with _ | ⟨b, xs⟩
        · rw [hf] at ih
          simp at ih
        · rw [hf] at ih
          rw [List.getLast?_cons_cons]
          exact ih
      · exact ih
    · have hae : a = e := by
        rcases List.mem_cons.mp h with rfl | hm
        · rfl
        · exact absurd hm hmem
      have hnil : rest.filter (fun x => x = e) = [] := by
        rcases hf : rest.filter (fun x => x = e) with _ | ⟨b, xs⟩
        · rfl
        · have : b ∈ rest.filter (fun x => x = e) := by rw [hf]; simp
          have hb := List.mem_filter.mp this
          have : b = e := by simpa using hb.2
          exact absurd (this ▸ hb.1) hmem
      rw [List.filter_cons, if_pos (by simpa using hae), hnil]
      simp [hae]

/-- Looking an environment up by its own identity returns it. -/
theorem gEnvsGet_self {r : Report} {e : Environment} (h : e ∈ r.environments) :
    gEnvsGet r e = some e := by
  rw [gEnvsGet]
  simp only [computeEnvId]
  exact getLast?_filter_self r.environments h

theorem filterMap_bind_map_some {g : Environment → Option Environment} :
    ∀ U : List (Option Environment),
      (∀ oid ∈ U, ∃ e, oid = some e ∧ g e = some e) →
      ((U.filterMap (fun oid => oid.bind g)).map some) = U
  | [], _ => rfl
  | oid :: rest, h => by
    obtain ⟨e, rfl, hg⟩ := h oid (by simp)
    rw [List.filterMap_cons]
    rw [show (some e).bind g = some e from by rw [Option.some_bind]; exact hg]
    rw [List.map_cons, filterMap_bind_map_some rest (fun z hz => h z (by simp [hz]))]

theorem filterMap_bind_of_id {g : Environment → Option Environment} :
    ∀ l : List Environment, (∀ e ∈ l, g e = some e) →
      (l.map some).filterMap (fun oid => oid.bind g) = l
  | [], _ => rfl
  | e :: rest, h => by
    rw [List.map_cons, List.filterMap_cons]
    rw [show (some e).bind g = some e from by rw [Option.some_bind]; exact h e (by simp)]
    rw [filterMap_bind_of_id rest (fun z hz => h z (by simp [hz]))]

theorem usedEnvIds_visit (q : Report) :
    (visitReport q).usedEnvIds = jsSetOf (envSeq q) := by
  rw [visitReport_eq]

/-- With valid indices, every used environment identity is a present
environment. -/
theorem usedEnvIds_some (r : Report)
    (hvalid : ∀ a ∈ reportAttemptSeq r, a.environmentIdx < r.environments.length) :
    ∀ oid ∈ (visitReport r).usedEnvIds, ∃ e, oid = some e ∧ e ∈ r.environments := by
  intro oid hmem
  rw [usedEnvIds_visit] at hmem
  obtain ⟨a, ha, rfl⟩ := List.mem_map.mp (mem_jsSetOf_iff.mp hmem)
  have hlt := hvalid a ha
  have hget : envAt r a.environmentIdx = some (r.environments.get ⟨_, hlt⟩) := by
    rw [envAt]
    exact List.get?_eq_get hlt
  exact ⟨r.environments.get ⟨_, hlt⟩, by rw [envIdAt, hget]; rfl, List.get_mem _ _ _⟩

theorem mapTest_comp {q r : Report} {V U : List (Option EnvId)} {t : Test}
    (hatt : ∀ a ∈ t.attempts,
      jsIndexOf (envIdAt q (jsIndexOf (envIdAt r a.environmentIdx) U)) V =
      jsIndexOf (envIdAt r a.environmentIdx) U) :
    mapTest q V (mapTest r U t) = mapTest r U t := by
  simp only [mapTest]
  congr 1
  · by_cases hc : (t.tags.getD []).isEmpty
    · rw [if_pos hc]
      simp
    · rw [if_neg hc]
      simp only [Option.getD_some]
      rw [if_neg hc]
  · rw [List.map_map]
    apply List.map_congr_left
    intro a ha
    show Attempt.mk (jsIndexOf (envIdAt q
      (jsIndexOf (envIdAt r a.environmentIdx) U)) V) a.status =
      Attempt.mk (jsIndexOf (envIdAt r a.environmentIdx) U) a.status
    rw [hatt a ha]

mutual

theorem mapSuite_comp {q r : Report} {V U : List (Option EnvId)} :
    ∀ s : Suite, (∀ t ∈ suiteTestsSeq s, mapTest q V (mapTest r U t) = mapTest r U t) →
      mapSuite q V (mapSuite r U s) = mapSuite r U s
  | .mk ti y lo none te, h => by
    have htests : ((te.getD []).map (mapTest r U)).map (mapTest q V) =
        (te.getD []).map (mapTest r U) := by
      rw [List.map_map]
      exact List.map_congr_left (fun t ht => h t ht)
    show Suite.mk ti y lo (some (mapSuites q V []))
      (some (((te.getD []).map (mapTest r U)).map (mapTest q V))) =
      Suite.mk ti y lo (some []) (some ((te.getD []).map (mapTest r U)))
    rw [htests]
    rfl
  | .mk ti y lo (some children) te, h => by
    have hch : mapSuites q V (mapSuites r U children) = mapSuites r U children :=
      mapSuites_comp children (fun t ht => h t (by
        show t ∈ suitesTestsSeq children ++ te.getD []
        exact List.mem_append_left _ ht))
    have htests : ((te.getD []).map (mapTest r U)).map (mapTest q V) =
        (te.getD []).map (mapTest r U) := by
      rw [List.map_map]
      exact List.map_congr_left (fun t ht => h t (by
        show t ∈ suitesTestsSeq children ++ te.getD []
        exact List.mem_append_right _ ht))
    show Suite.mk ti y lo (some (mapSuites q V (mapSuites r U children)))
      (some (((te.getD []).map (mapTest r U)).map (mapTest q V))) =
      Suite.mk ti y lo (some (mapSuites r U children))
        (some ((te.getD []).map (mapTest r U)))
    rw [hch, htests]

theorem mapSuites_comp {q r : Report} {V U : List (Option EnvId)} :
    ∀ l : List Suite,
      (∀ t ∈ suitesTestsSeq l, mapTest q V (mapTest r U t) = mapTest r U t) →
      mapSuites q V (mapSuites r U l) = mapSuites r U l
  | [], _ => rfl
  | s :: rest, h => by
    rw [mapSuites_cons, mapSuites_cons]
    rw [mapSuite_comp s (fun t ht => h t (by
      show t ∈ suiteTestsSeq s ++ suitesTestsSeq rest
      exact List.mem_append_left _ ht))]
    rw [mapSuites_comp rest (fun t ht => h t (by
      show t ∈ suiteTestsSeq s ++ suitesTestsSeq rest
      exact List.mem_append_right _ ht))]

end

/-- Reindexing through the rebuilt environment list is the identity on indices
produced by the first normalization pass. -/
theorem envIdAt_reindex (r : Report) {x : Option EnvId}
    (hx : x ∈ (visitReport r).usedEnvIds)
    (hE : ((normalizeReport r).environments).map some = (visitReport r).usedEnvIds) :
    envIdAt (normalizeReport r) (jsIndexOf x ((visitReport r).usedEnvIds)) = x := by
  set j := jsIndexOf x ((visitReport r).usedEnvIds) with hj
  have hgetU : ((visitReport r).usedEnvIds).get? j = some x := by
    rw [hj]
    exact get?_jsIndexOf hx
  rw [← hE, List.get?_map] at hgetU
  rcases hne : (normalizeReport r).environments.get? j with _ | e
  · rw [hne] at hgetU
    simp at hgetU
  · rw [hne] at hgetU
    simp only [Option.map_some'] at hgetU
    have hxe : x = some e := (Option.some.inj hgetU).symm
    rw [envIdAt, envAt, hne, hxe]
    rfl

/-- Claim C2 as stated is false: `normalizeReport` is not idempotent on every
report.  When duplicate suite identities are merged, the second pass meets the
merged node's attempts at a position where the first pass met separate
occurrences, so the first-use order of environments — hence the rebuilt
`environments` array and every rewritten `environmentIdx` — differs between
the first and the second application. -/
theorem C2_counterexample :
    normalizeReport (normalizeReport
      { environments := [⟨"e0", ""⟩, ⟨"e1", ""⟩, ⟨"e2", ""⟩]
        suites := [.mk "a" "d" none none (some [⟨"t", none, none, [⟨0, none⟩]⟩]),
          .mk "b" "d" none none (some [⟨"u", none, none, [⟨1, none⟩]⟩]),
          .mk "a" "d" none none (some [⟨"v", none, none, [⟨2, none⟩]⟩])]
        tests := none
        meta := "" }) ≠ normalizeReport
      { environments := [⟨"e0", ""⟩, ⟨"e1", ""⟩, ⟨"e2", ""⟩]
        suites := [.mk "a" "d" none none (some [⟨"t", none, none, [⟨0, none⟩]⟩]),
          .mk "b" "d" none none (some [⟨"u", none, none, [⟨1, none⟩]⟩]),
          .mk "a" "d" none none (some [⟨"v", none, none, [⟨2, none⟩]⟩])]
        tests := none
        meta := "" } := by decide

/-- Claim C2, amended: `normalizeReport` is idempotent on every well-formed
report, where well-formed means every attempt's `environmentIdx` is in range
and no suite identity and no test identity occurs twice.  (Without the
duplicate-freeness, merging can permute the first-use order of environments,
and the second pass then reindexes attempts differently — see the
counterexample.) -/
theorem C2_idempotence (r : Report)
    (hvalid : ∀ a ∈ reportAttemptSeq r, a.environmentIdx < r.environments.length)
    (hs : ((reportGSuites r).map Prod.fst).Nodup)
    (ht : ((reportGTests r).map Prod.fst).Nodup) :
    normalizeReport (normalizeReport r) = normalizeReport r := by
  have hmapped := normalizeReport_eq_map r hs ht
  have hE : ((normalizeReport r).environments).map some = (visitReport r).usedEnvIds := by
    rw [normalizeReport_def]
    show ((((visitReport r).usedEnvIds).filterMap
      (fun oid => oid.bind (gEnvsGet r))).map some) = (visitReport r).usedEnvIds
    apply filterMap_bind_map_some
    intro oid hmem
    obtain ⟨e, rfl, hmem2⟩ := usedEnvIds_some r hvalid oid hmem
    exact ⟨e, rfl, gEnvsGet_self hmem2⟩
  have hTseq : reportTestsSeq (normalizeReport r) =
      (reportTestsSeq r).map (mapTest r ((visitReport r).usedEnvIds)) := by
    rw [hmapped]
    simp only [reportTestsSeq]
    show ((r.tests.getD []).map (mapTest r ((visitReport r).usedEnvIds))) ++
      suitesTestsSeq (mapSuites r ((visitReport r).usedEnvIds) r.suites) =
      (r.tests.getD [] ++ suitesTestsSeq r.suites).map
        (mapTest r ((visitReport r).usedEnvIds))
    rw [suitesTestsSeq_mapSuites, List.map_append]
  have hAseq : reportAttemptSeq (normalizeReport r) =
      (reportAttemptSeq r).map (fun a => Attempt.mk
        (jsIndexOf (envIdAt r a.environmentIdx) ((visitReport r).usedEnvIds)) a.status) := by
    simp only [reportAttemptSeq]
    rw [hTseq, testsAttempts_map]
  have hEnvSeq : envSeq (normalizeReport r) = envSeq r := by
    simp only [envSeq]
    rw [hAseq, List.map_map]
    apply List.map_congr_left
    intro a ha
    show envIdAt (normalizeReport r) (jsIndexOf (envIdAt r a.environmentIdx)
      ((visitReport r).usedEnvIds)) = envIdAt r a.environmentIdx
    refine envIdAt_reindex r ?_ hE
    rw [usedEnvIds_visit]
    exact mem_jsSetOf_iff.mpr (List.mem_map.mpr ⟨a, ha, rfl⟩)
  have hU2 : (visitReport (normalizeReport r)).usedEnvIds = (visitReport r).usedEnvIds := by
    rw [usedEnvIds_visit, usedEnvIds_visit, hEnvSeq]
  have hs2 : ((reportGSuites (normalizeReport r)).map Prod.fst).Nodup := by
    rw [reportGSuites, normalizeReport_def]
    exact (transformSuites_ids r ((visitReport r).usedEnvIds)
      (suitesHeight r.suites + 1) [] r.suites).1
  have hTI : ∀ t ∈ reportTestsSeq r,
      mapTest (normalizeReport r) ((visitReport r).usedEnvIds)
        (mapTest r ((visitReport r).usedEnvIds) t) =
      mapTest r ((visitReport r).usedEnvIds) t := by
    intro t htmem
    apply mapTest_comp
    intro a ha
    have haseq : a ∈ reportAttemptSeq r := by
      rw [reportAttemptSeq]
      exact mem_testsAttempts.mpr ⟨t, htmem, ha⟩
    rw [envIdAt_reindex r (by
      rw [usedEnvIds_visit]
      exact mem_jsSetOf_iff.mpr (List.mem_map.mpr ⟨a, haseq, rfl⟩)) hE]
  rw [normalizeReport_eq_map (normalizeReport r) hs2 (output_testIds_nodup r)]
  apply Report.ext2
  · show ((visitReport (normalizeReport r)).usedEnvIds).filterMap
      (fun oid => oid.bind (gEnvsGet (normalizeReport r))) =
      (normalizeReport r).environments
    rw [hU2, ← hE]
    apply filterMap_bind_of_id
    intro e he
    exact gEnvsGet_self he
  · show mapSuites (normalizeReport r) ((visitReport (normalizeReport r)).usedEnvIds)
      (normalizeReport r).suites = (normalizeReport r).suites
    rw [hU2, show (normalizeReport r).suites =
      mapSuites r ((visitReport r).usedEnvIds) r.suites from by rw [hmapped]]
    apply mapSuites_comp
    intro t htmem
    exact hTI t (by
      rw [reportTestsSeq]
      exact List.mem_append_right _ htmem)
  · show some (((normalizeReport r).tests.getD []).map
      (mapTest (normalizeReport r) ((visitReport (normalizeReport r)).usedEnvIds))) =
      (normalizeReport r).tests
    rw [hU2, show (normalizeReport r).tests =
      some ((r.tests.getD []).map (mapTest r ((visitReport r).usedEnvIds))) from by
        rw [hmapped]]
    show some ((((r.tests.getD []).map (mapTest r ((visitReport r).usedEnvIds))).map
      (mapTest (normalizeReport r) ((visitReport r).usedEnvIds)))) =
      some ((r.tests.getD []).map (mapTest r ((visitReport r).usedEnvIds)))
    rw [List.map_map]
    refine congrArg some ?_
    exact List.map_congr_left (fun t htmem => hTI t (by
      rw [reportTestsSeq]
      exact List.mem_append_left _ htmem))
  · rfl

/-- Witness for `C2_idempotence`: a concrete well-formed report (one
environment, one suite with one test, one top-level test) is a fixpoint of
normalization after one pass. -/
theorem C2_idempotence_witness :
    normalizeReport (normalizeReport
      { environments := [⟨"e0", ""⟩]
        suites := [.mk "a" "d" none none (some [⟨"t", none, some ["x"], [⟨0, none⟩]⟩])]
        tests := some [⟨"u", none, none, [⟨0, none⟩]⟩]
        meta := "m" }) = normalizeReport
      { environments := [⟨"e0", ""⟩]
        suites := [.mk "a" "d" none none (some [⟨"t", none, some ["x"], [⟨0, none⟩]⟩])]
        tests := some [⟨"u", none, none, [⟨0, none⟩]⟩]
        meta := "m" } :=
  C2_idempotence
    { environments := [⟨"e0", ""⟩]
      suites := [.mk "a" "d" none none (some [⟨"t", none, some ["x"], [⟨0, none⟩]⟩])]
      tests := some [⟨"u", none, none, [⟨0, none⟩]⟩]
      meta := "m" }
    (by decide) (by decide) (by decide)

end Flakiness
